import Mathlib

/-!
Verification of the tree-building core of `src/ontoloviz/obo_utils.py`.

The Python code manipulates mutable dicts that may alias each other (nodes are
dict objects shared between the pending queue, the trees and the raw-term map),
so the embedding is heap-style: node records live in a `Store` (a list indexed
by natural-number references) and Python dicts become insertion-ordered
association lists whose values are references into the store.  Mutating a node
is updating the store at its reference; `dict.copy()` allocates a fresh
reference.  Network access (`requests.get` in `parse_obo_file`) is external to
this development: the graph builder is modelled from the point where
`raw_terms` is available, and the empty-`raw_terms` branch (which would trigger
a download) is mapped to `none`.
-/

set_option maxHeartbeats 2000000

namespace OntoViz

/-- Sentinel for "no real count supplied"; the module-level `zero = 0.000001337`
(the exact rational 1337/10⁹, given in lowest terms so that it evaluates). -/
def zero : ℚ := ⟨1337, 1000000000, by decide, by decide⟩

/-- Sentinel baseline counterpart; the module-level `fake_one = 1.000001337`
(the exact rational 1000001337/10⁹). -/
def fake_one : ℚ := ⟨1000001337, 1000000000, by decide, by decide⟩

/-- A Python node/term dict.  Graph-mode raw terms populate `tdef` (the `"def"`
key), `comment` and `is_a`; flat-mode nodes populate `label`, `description`,
`counts`, `imported_counts` and `color` at parse time.  Each entry of `is_a`
models `is_a[0]` — the ancestor id — of the source's `[ancestor_id,
ancestor_label]` pairs (the label component is never read by the builders).
`level` and `parent` model the keys the builders write; the code never reads
them before writing them. -/
structure Node where
  id : String := ""
  parent : String := ""
  level : Nat := 0
  label : String := ""
  description : String := ""
  counts : ℚ := 0
  imported_counts : ℚ := 0
  color : String := ""
  tdef : String := ""
  comment : String := ""
  is_a : List String := []
  is_obsolete : Bool := false
deriving Repr, DecidableEq

/-- The heap of node records; a reference is an index into it. -/
abbrev Store := List Node

/-- Read the record at reference `r` (defaulted out of range; the model never
creates dangling references). -/
def getN (st : Store) (r : Nat) : Node := st.getD r {}

/-- Overwrite the record at reference `r` (a Python in-place dict mutation). -/
def setN (st : Store) (r : Nat) (n : Node) : Store := st.set r n

/-- Insertion-ordered dictionary, modelling a Python `dict`. -/
abbrev Dict (α : Type) := List (String × α)

/-- A sub-tree: node id ↦ reference of the node record. -/
abbrev Tree := Dict Nat

/-- A forest: sub-tree id ↦ sub-tree. -/
abbrev Forest := Dict Tree

/-- `d[k]` as an option (Python `d[k]` raises `KeyError` on `none`). -/
def dget? {α : Type} : Dict α → String → Option α
  | [], _ => none
  | p :: rest, k => if p.1 = k then some p.2 else dget? rest k

/-- `k in d`. -/
def dmem {α : Type} (d : Dict α) (k : String) : Bool := (dget? d k).isSome

/-- `d[k] = v`: overwrite in place when the key exists (keeping its position),
append otherwise — Python dict assignment. -/
def dset {α : Type} : Dict α → String → α → Dict α
  | [], k, v => [(k, v)]
  | p :: rest, k, v =>
    if p.1 = k then (k, v) :: rest else p :: dset rest k v

/-- `del d[k]`: `none` models the `KeyError` raised when the key is absent. -/
def pydel {α : Type} : Dict α → String → Option (Dict α)
  | [], _ => none
  | p :: rest, k =>
    if p.1 = k then some rest else (pydel rest k).map (p :: ·)

/-- Keys of a dictionary, in insertion order. -/
def dkeys {α : Type} (d : Dict α) : List String := d.map Prod.fst

/-- Split a character list at every occurrence of `c` (Python
`str.split(sep)` for a one-character separator, so `"" ↦ [""]`,
`"A||B" ↦ ["A", "", "B"]`). -/
def splitOnCharList (c : Char) : List Char → List (List Char)
  | [] => [[]]
  | x :: xs =>
    let r := splitOnCharList c xs
    if x = c then [] :: r
    else
      match r with
      | [] => [[x]]
      | g :: gs => (x :: g) :: gs

/-- `node_ids_unformatted.split("|")`. -/
def splitPipe (s : String) : List String :=
  (splitOnCharList '|' s.data).map (fun l => { data := l })

/-- Accumulate decimal digits; `none` on the first non-digit. -/
def digitsToNat (acc : Nat) : List Char → Option Nat
  | [] => some acc
  | c :: cs =>
    if '0' ≤ c ∧ c ≤ '9' then digitsToNat (acc * 10 + (c.toNat - '0'.toNat)) cs
    else none

/-- Python `int(s)` (restricted to an optional sign followed by decimal
digits); `none` models the `ValueError` branch. -/
def pyToInt (s : String) : Option Int :=
  match s.data with
  | [] => none
  | '-' :: cs =>
    match cs with
    | [] => none
    | _ => (digitsToNat 0 cs).map (fun n => -(n : Int))
  | '+' :: cs =>
    match cs with
    | [] => none
    | _ => (digitsToNat 0 cs).map (fun n => (n : Int))
  | cs => (digitsToNat 0 cs).map (fun n => (n : Int))

/-! ## Flat mode: `build_non_separator_based_tree` -/

/-- One data row of the tab-separated flat file, after the tab split: the
pipe-separated id column followed by `line_data[0..4]`.  The header row (which
the source skips by `line_idx == 0`) is not part of the model input. -/
structure FlatRow where
  ids : String
  parent : String
  label : String
  description : String
  count : String
  color : String
deriving Repr, DecidableEq

/-- The node dict built for one id of a row:
`count = 0; try: count = int(line_data[3]); except ValueError: pass`, then
`counts = count if count != 0 else zero` and
`imported_counts = count if count != 0 else fake_one`. -/
def mkFlatNode (nid : String) (row : FlatRow) : Node :=
  let c : Int := (pyToInt row.count).getD 0
  { id := nid, parent := row.parent, level := 0, label := row.label,
    description := row.description,
    counts := if c ≠ 0 then (c : ℚ) else zero,
    imported_counts := if c ≠ 0 then (c : ℚ) else fake_one,
    color := row.color }

/-- State of `build_non_separator_based_tree` between passes: the store, the
forest `tree`, and the pending queue `to_process` of `(attempts, node)` pairs
(the node as a reference). -/
structure FlatState where
  store : Store
  tree : Forest
  to_process : List (Nat × Nat)
deriving Repr, DecidableEq

/-- Handle one id of one row:
`if not parent: tree[node_id] = {node_id: node} else: to_process.append([0, node])`. -/
def parseFlatId (s : FlatState) (row : FlatRow) (nid : String) : FlatState :=
  let r := s.store.length
  let store := s.store ++ [mkFlatNode nid row]
  if row.parent = "" then
    { store := store, tree := dset s.tree nid [(nid, r)], to_process := s.to_process }
  else
    { store := store, tree := s.tree, to_process := s.to_process ++ [(0, r)] }

/-- Handle one data row: `node_ids = node_ids_unformatted.split("|")` and a
loop over the ids. -/
def parseFlatRow (s : FlatState) (row : FlatRow) : FlatState :=
  (splitPipe row.ids).foldl (fun s' nid => parseFlatId s' row nid) s

/-- The parsing phase of `build_non_separator_based_tree`. -/
def parseFlat (rows : List FlatRow) : FlatState :=
  rows.foldl parseFlatRow { store := [], tree := [], to_process := [] }

/-- One step of `for sub_tree_id, sub_tree in tree.items()` while resolving the
pending node `r`: if `node["parent"]` is a key of this sub-tree, write
`node["level"] = tree[sub_tree_id][parent]["level"] + 1`, insert the node
(`tree[sub_tree_id][node["id"]] = node`, the same reference), and count the
match (each match appends the node's queue index to `drop_idxs`). -/
def scanTree (r : Nat) (acc : Store × Forest × Nat) (tid : String) : Store × Forest × Nat :=
  let (store, forest, cnt) := acc
  match dget? forest tid with
  | none => (store, forest, cnt)
  | some t =>
    let nd := getN store r
    match dget? t nd.parent with
    | none => (store, forest, cnt)
    | some pr =>
      let store' := setN store r { nd with level := (getN store pr).level + 1 }
      (store', dset forest tid (dset t nd.id r), cnt + 1)

/-- Scan every sub-tree (in insertion order) for the pending node `r`. -/
def scanTrees (store : Store) (forest : Forest) (r : Nat) : Store × Forest × Nat :=
  (dkeys forest).foldl (scanTree r) (store, forest, 0)

/-- The body of one pass over `to_process` (indices starting at `idx`),
returning the updated store/forest and the collected `drop_idxs`.  The
`attempts >= 20` branch only prints and marks the index.  The source's
`attempts += 1` rebinds the loop-local name and never writes back into
`to_process`, so the pass leaves the stored counters untouched. -/
def flatPassGo : Store → Forest → List (Nat × Nat) → Nat → Store × Forest × List Nat
  | store, forest, [], _ => (store, forest, [])
  | store, forest, (attempts, r) :: rest, idx =>
    if attempts ≥ 20 then
      let (store', forest', drops) := flatPassGo store forest rest (idx + 1)
      (store', forest', idx :: drops)
    else
      let (store', forest', cnt) := scanTrees store forest r
      let (store'', forest'', drops) := flatPassGo store' forest' rest (idx + 1)
      (store'', forest'', List.replicate cnt idx ++ drops)

/-- One full pass of the `while True:` loop, before the deletion phase. -/
def flatPass (s : FlatState) : Store × Forest × List Nat :=
  flatPassGo s.store s.tree s.to_process 0

/-- `del l[i]`; `none` models the `IndexError` on an out-of-range index. -/
def delAt {α : Type} : List α → Nat → Option (List α)
  | [], _ => none
  | _ :: xs, 0 => some xs
  | x :: xs, n + 1 => (delAt xs n).map (x :: ·)

/-- Sequential deletions `for idx in idxs: del l[idx]`. -/
def pydelMany {α : Type} : List α → List Nat → Option (List α)
  | l, [] => some l
  | l, i :: rest =>
    match delAt l i with
    | none => none
    | some l' => pydelMany l' rest

/-- Insert into a descending-sorted list. -/
def insertDesc (x : Nat) : List Nat → List Nat
  | [] => [x]
  | y :: ys => if x ≥ y then x :: y :: ys else y :: insertDesc x ys

/-- `sorted(idxs, reverse=True)`. -/
def sortDesc (l : List Nat) : List Nat := l.foldr insertDesc []

/-- The `while True:` loop of `build_non_separator_based_tree`: run a pass,
delete the marked queue entries in descending index order, stop when the queue
is empty.  `none` means the fuel ran out (the source loop would still be
running) or a deletion raised. -/
def flatLoop : Nat → FlatState → Option (Store × Forest)
  | 0, _ => none
  | fuel + 1, s =>
    let (store', forest', drops) := flatPass s
    match pydelMany s.to_process (sortDesc drops) with
    | none => none
    | some pending' =>
      if pending' = [] then some (store', forest')
      else flatLoop fuel { store := store', tree := forest', to_process := pending' }

/-- `build_non_separator_based_tree`, from the already-split data rows. -/
def build_non_separator_based_tree (rows : List FlatRow) (fuel : Nat) :
    Option (Store × Forest) :=
  flatLoop fuel (parseFlat rows)

/-! ## Graph mode: `build_tree_from_obo_ontology` -/

/-- One raw term of the explicit-root seeding loop: for every `is_a` edge equal
to the root id, `tree[term] = {}; tree[term][term] = val` (the raw reference
itself — no copy) and the in-place writes `level = 0`, `parent = ""` (which
therefore also mutate the raw term record). -/
def seedStep (rid : String) (acc : Store × Forest) (tv : String × Nat) : Store × Forest :=
  (getN acc.1 tv.2).is_a.foldl
    (fun acc2 a =>
      if rid = a then
        (setN acc2.1 tv.2 { getN acc2.1 tv.2 with level := 0, parent := "" },
         dset acc2.2 tv.1 [(tv.1, tv.2)])
      else acc2)
    acc

/-- Seeding with an explicit, truthy `root_id`. -/
def seedExplicit (rid : String) (store : Store) (raw : Dict Nat) : Store × Forest :=
  raw.foldl (seedStep rid) (store, ([] : Forest))

/-- One root term of the auto-root seeding loop: `raw_terms[root_term]` (`none`
models the `KeyError` when the id is not a key), then the same single-node
tree and in-place `level`/`parent` writes. -/
def seedAutoStep (raw : Dict Nat) (acc : Store × Forest) (rt : String) :
    Option (Store × Forest) :=
  match dget? raw rt with
  | none => none
  | some r =>
    some (setN acc.1 r { getN acc.1 r with level := 0, parent := "" },
          dset acc.2 rt [(rt, r)])

/-- Seeding without a truthy `root_id`:
`root_terms = [_["id"] for _ in raw_terms.values() if not _["is_a"]]`, then one
tree per root term. -/
def seedAuto (store : Store) (raw : Dict Nat) : Option (Store × Forest) :=
  let root_terms := (raw.filter (fun tv => (getN store tv.2).is_a = [])).map
    (fun tv => (getN store tv.2).id)
  root_terms.foldlM (seedAutoStep raw) ((store, ([] : Forest)) : Store × Forest)

/-- The "build first level" phase; `if root_id:` is Python truthiness, so both
`None` and `""` select the auto-root branch. -/
def seedTrees (root_id : Option String) (store : Store) (raw : Dict Nat) :
    Option (Store × Forest) :=
  match root_id with
  | some rid => if rid = "" then seedAuto store raw else some (seedExplicit rid store raw)
  | none => seedAuto store raw

/-- One `is_a` edge of the copied term during propagation: if the ancestor id
is a key of this sub-tree and the term is not, insert the copy and write its
`level` and `parent` from the ancestor's record. -/
def propEdge (tid term : String) (cr : Nat) (acc : Store × Forest × Bool) (a : String) :
    Store × Forest × Bool :=
  let (store, forest, _) := acc
  match dget? forest tid with
  | none => acc
  | some t =>
    match dget? t a with
    | none => acc
    | some pr =>
      if dmem t term then acc
      else
        (setN store cr
          { getN store cr with level := (getN store pr).level + 1,
                               parent := (getN store pr).id },
         dset forest tid (dset t term cr), true)

/-- One raw term inside one sub-tree during propagation:
`copied_value = val.copy()` allocates a fresh reference (whether or not an
insertion follows), then the `for is_a in copied_value["is_a"]` loop. -/
def propTerm (tid : String) (acc : Store × Forest × Bool) (tv : String × Nat) :
    Store × Forest × Bool :=
  let (store, forest, had) := acc
  let cr := store.length
  let store' := store ++ [getN store tv.2]
  ((getN store' cr).is_a).foldl (propEdge tid tv.1 cr) (store', forest, had)

/-- One full propagation pass over `tree.items()` × `raw_terms.items()`,
returning the `had_content` flag. -/
def propPass (raw : Dict Nat) (store : Store) (forest : Forest) : Store × Forest × Bool :=
  (dkeys forest).foldl (fun acc tid => raw.foldl (propTerm tid) acc) (store, forest, false)

/-- The propagation `while True:` loop: repeat passes until one makes no
insertion. -/
def propLoop : Nat → Dict Nat → Store → Forest → Option (Store × Forest)
  | 0, _, _, _ => none
  | fuel + 1, raw, store, forest =>
    let (store', forest', had) := propPass raw store forest
    if had then propLoop fuel raw store' forest' else some (store', forest')

/-- Collect `nodes_with_missing_parent`: pairs `(sub_tree_id, key)` whose
record has a truthy `parent` that is not a key of the same sub-tree. -/
def cleanupGather (store : Store) (forest : Forest) : List (String × String) :=
  forest.foldl
    (fun acc tt =>
      acc ++ (tt.2.filter
        (fun kv =>
          if (getN store kv.2).parent = "" then false
          else !(dmem tt.2 (getN store kv.2).parent))).map
        (fun kv => (tt.1, kv.1)))
    []

/-- `del tree[sub_tree_id][node_id]` for one gathered pair. -/
def delPair (forest : Forest) (p : String × String) : Option Forest :=
  match dget? forest p.1 with
  | none => none
  | some t => (pydel t p.2).map (fun t' => dset forest p.1 t')

/-- The cleanup `while True:` loop: gather, stop if nothing was gathered,
otherwise delete every gathered node and repeat. -/
def cleanupLoop : Nat → Store → Forest → Option Forest
  | 0, _, _ => none
  | fuel + 1, store, forest =>
    let bad := cleanupGather store forest
    if bad = [] then some forest
    else
      match bad.foldlM delPair forest with
      | none => none
      | some forest' => cleanupLoop fuel store forest'

/-- The "add zero counts, color and description" writes applied to one record. -/
def annotateNode (n : Node) : Node :=
  { n with imported_counts := fake_one, counts := zero, color := "#FFFFFF",
           description := "Definition: " ++ n.tdef ++ "\nComment: " ++ n.comment }

/-- The metric writes applied to one sub-tree's nodes, in order. -/
def annotateTree (st : Store) (t : Tree) : Store :=
  t.foldl (fun st2 kv => setN st2 kv.2 (annotateNode (getN st2 kv.2))) st

/-- The metric-annotator pass: in-place mutation of every node of every
sub-tree (it runs on the store, before pruning, exactly as in the source). -/
def annotateAll (store : Store) (forest : Forest) : Store :=
  forest.foldl (fun st tt => annotateTree st tt.2) store

/-- The pruning step: `if min_node_size:` (truthy), collect the sub-tree ids
with `len(sub_tree) < min_node_size`, then delete them. -/
def pruneForest (min_node_size : Option Int) (forest : Forest) : Option Forest :=
  match min_node_size with
  | none => some forest
  | some n =>
    if n = 0 then some forest
    else
      let drops := (forest.filter (fun tt => (tt.2.length : Int) < n)).map Prod.fst
      drops.foldlM pydel forest

/-- Seeding, propagation and cleanup — the part of
`build_tree_from_obo_ontology` that produces the forest before the metric
writes and the pruning. -/
def buildCore (fuel : Nat) (store : Store) (raw : Dict Nat) (root_id : Option String) :
    Option (Store × Forest) := do
  let (st1, f1) ← seedTrees root_id store raw
  let (st2, f2) ← propLoop fuel raw st1 f1
  let f3 ← cleanupLoop fuel st2 f2
  return (st2, f3)

/-- `build_tree_from_obo_ontology`, from the point where `raw_terms` is in
hand.  `if not raw_terms:` triggers the external download/parse, which is out
of scope, so an empty `raw_terms` maps to `none`. -/
def build_tree_from_obo_ontology (fuel : Nat) (store : Store) (raw : Dict Nat)
    (root_id : Option String) (min_node_size : Option Int) : Option (Store × Forest) :=
  if raw = [] then none
  else do
    let (st2, f3) ← buildCore fuel store raw root_id
    let st3 := annotateAll st2 f3
    let f4 ← pruneForest min_node_size f3
    return (st3, f4)

/-! ## The `get_remote_ontology` dispatch -/

/-- What a recognized `get_remote_ontology` branch goes on to do (the network
calls themselves are external): a direct `build_tree_from_obo_ontology`
invocation with the branch's literal arguments, the GeneOntology
parse-then-root-lookup branch, or the `custom_url` branch whose arguments come
from the app object. -/
inductive RemoteCall where
  | obo (url : String) (descriptor : String) (root_id : Option String)
        (min_node_size : Option Int)
  | geneOntology (which : String)
  | customUrl
deriving Repr, DecidableEq

/-- The `if`/`elif` dispatch of `get_remote_ontology`; falling through every
branch returns Python `None`. -/
def get_remote_ontology (ontology_short : Option String) : Option RemoteCall :=
  if ontology_short = some "hpo" then
    some (RemoteCall.obo "https://purl.obolibrary.org/obo/hp.obo"
      "Human phenotype ontology" (some "HP:0000118") none)
  else if ontology_short = some "go_mf" ∨ ontology_short = some "go_cp" ∨
      ontology_short = some "go_bp" then
    some (RemoteCall.geneOntology (ontology_short.getD ""))
  else if ontology_short = some "po" then
    some (RemoteCall.obo "https://purl.obolibrary.org/obo/po.obo" "Plant Ontology"
      (some "PO:0009011") (some 5))
  else if ontology_short = some "cl" then
    some (RemoteCall.obo "https://purl.obolibrary.org/obo/cl/cl-basic.obo" "Cell Ontology"
      none (some 2))
  else if ontology_short = some "chebi" then
    some (RemoteCall.obo "https://purl.obolibrary.org/obo/chebi/chebi_lite.obo"
      "CHEBI Ontology" (some "CHEBI:23367") none)
  else if ontology_short = some "uberon" then
    some (RemoteCall.obo "https://purl.obolibrary.org/obo/uberon/basic.obo"
      "Uberon Anatomy Ontology" (some "UBERON:0000061") (some 2))
  else if ontology_short = some "doid" then
    some (RemoteCall.obo "https://purl.obolibrary.org/obo/doid.obo"
      "Human Disease Ontology" (some "DOID:4") none)
  else if ontology_short = some "custom_url" then
    some RemoteCall.customUrl
  else
    none

/-- The recognized `ontology_short` values, one per dispatch branch. -/
def recognizedOntology : List (Option String) :=
  [some "hpo", some "go_mf", some "go_cp", some "go_bp", some "po", some "cl",
   some "chebi", some "uberon", some "doid", some "custom_url"]

/-! ## Concrete inputs used by counterexamples and witnesses -/

/-- Flat input with one root `A` and a node `D` whose declared parent `ZZZ`
never appears anywhere. -/
def rowsUnresolvable : List FlatRow :=
  [{ ids := "A", parent := "", label := "lblA", description := "descA",
     count := "0", color := "#AAAAAA" },
   { ids := "D", parent := "ZZZ", label := "lblD", description := "descD",
     count := "0", color := "#DDDDDD" }]

/-- Flat input whose root carries a non-zero count `5` and an explicit color. -/
def rowsCounted : List FlatRow :=
  [{ ids := "A", parent := "", label := "lblA", description := "descA",
     count := "5", color := "#ABCDEF" }]

/-- Flat chain `A → B → C` given in the scrambled order `C, A, B`. -/
def rowsChain : List FlatRow :=
  [{ ids := "C", parent := "B", label := "lblC", description := "descC",
     count := "0", color := "#CC" },
   { ids := "A", parent := "", label := "lblA", description := "descA",
     count := "0", color := "#AA" },
   { ids := "B", parent := "A", label := "lblB", description := "descB",
     count := "0", color := "#BB" }]

/-- Raw-term store for a small ontology: `R` has no `is_a`, `T` is_a `R`. -/
def storeRT : Store :=
  [{ id := "R", tdef := "defR", comment := "comR" },
   { id := "T", is_a := ["R"], tdef := "defT", comment := "comT" }]

/-- The raw-term dict for `storeRT`. -/
def rawRT : Dict Nat := [("R", 0), ("T", 1)]

/-- Raw-term store with two roots `R1`, `R2` and a term `X` that is_a both. -/
def storeFan : Store :=
  [{ id := "R1", tdef := "d1", comment := "c1" },
   { id := "R2", tdef := "d2", comment := "c2" },
   { id := "X", is_a := ["R1", "R2"], tdef := "dX", comment := "cX" }]

/-- The raw-term dict for `storeFan`. -/
def rawFan : Dict Nat := [("R1", 0), ("R2", 1), ("X", 2)]

/-- Raw-term store with a singleton root `R1` (to be pruned) and a root `R2`
with one child `A`. -/
def storePrune : Store :=
  [{ id := "R1", tdef := "d1", comment := "c1", counts := 7 },
   { id := "R2", tdef := "d2", comment := "c2" },
   { id := "A", is_a := ["R2"], tdef := "dA", comment := "cA" }]

/-- The raw-term dict for `storePrune`. -/
def rawPrune : Dict Nat := [("R1", 0), ("R2", 1), ("A", 2)]

/-- A small forest with a one-node tree and a two-node tree, for pruning
witnesses. -/
def forestWit : Forest := [("X", [("X", 0)]), ("Y", [("Y", 1), ("B", 2)])]

/-- Store for the cleanup witness: a root `R` and a node `B` whose recorded
parent `Q` is not a key of the tree. -/
def storeClean : Store := [{ id := "R" }, { id := "B", parent := "Q", level := 1 }]

/-- Forest for the cleanup witness. -/
def forestClean : Forest := [("R", [("R", 0), ("B", 1)])]

/-! ## Invariant predicates -/

/-- Total node count of a forest. -/
def totalSize (F : Forest) : Nat := (F.map (fun tt => tt.2.length)).sum

/-- Key sets behave like Python dicts: no duplicate sub-tree ids, no duplicate
node ids within a sub-tree. -/
def nodupForest (F : Forest) : Prop :=
  (dkeys F).Nodup ∧ ∀ tt ∈ F, (dkeys tt.2).Nodup

/-- The closure invariant: every node of every sub-tree whose recorded parent
id is non-empty has that parent id as a key of the same sub-tree. -/
def closureInv (store : Store) (F : Forest) : Prop :=
  ∀ tt ∈ F, ∀ kv ∈ tt.2,
    (getN store kv.2).parent ≠ "" → dmem tt.2 (getN store kv.2).parent = true

/-- Well-formed raw terms: distinct keys, every reference in range, and every
record's `id` field equal to its key (true of everything `parse_obo_file`
produces, since it keys `raw_terms` by `new_entity["id"]`). -/
def wfRaw (store : Store) (raw : Dict Nat) : Prop :=
  (dkeys raw).Nodup ∧ ∀ tv ∈ raw, tv.2 < store.length ∧ (getN store tv.2).id = tv.1

/-- The record a seeded root node ends with: `level = 0`, `parent = ""`. -/
def seededNode (store : Store) (r : Nat) : Node :=
  { getN store r with level := 0, parent := "" }

/-- Relation between the pre- and post-seeding store: same length, and every
record is either untouched or has received the root writes. -/
def storePreserves (store st' : Store) : Prop :=
  st'.length = store.length ∧
  ∀ r, getN st' r = getN store r ∨ getN st' r = seededNode store r

/-- No raw term has the empty string as id. -/
def keysNonempty (raw : Dict Nat) : Prop := ∀ tv ∈ raw, tv.1 ≠ ""

/-- Every raw term is a separate dict object (`parse_obo_file` allocates one
fresh dict per `[Term]` block). -/
def rawRefsNodup (raw : Dict Nat) : Prop := (raw.map Prod.snd).Nodup

/-- The level/parent/id invariant of a forest's slots: each node's `id` equals
its key; an empty `parent` comes with level 0; a non-empty `parent` is a key
of the same sub-tree and the level is the parent's level plus one. -/
def slotInv (store : Store) (F : Forest) : Prop :=
  ∀ tt ∈ F, ∀ kv ∈ tt.2,
    (getN store kv.2).id = kv.1 ∧
    ((getN store kv.2).parent = "" → (getN store kv.2).level = 0) ∧
    ((getN store kv.2).parent ≠ "" →
      ∃ pr, dget? tt.2 (getN store kv.2).parent = some pr ∧
        (getN store kv.2).level = (getN store pr).level + 1)

/-- Distinct slots (identified by sub-tree key and node key) hold distinct
references: no node dict is shared between two positions of the forest. -/
def refsDistinct (F : Forest) : Prop :=
  ∀ tt ∈ F, ∀ tt' ∈ F, ∀ kv ∈ tt.2, ∀ kv' ∈ tt'.2,
    (tt.1, kv.1) ≠ (tt'.1, kv'.1) → kv.2 ≠ kv'.2

/-- The running invariant of the graph-mode pipeline, tying the raw-term dict,
the store and the forest together. -/
def ginv (raw : Dict Nat) (store : Store) (F : Forest) : Prop :=
  (∀ tv ∈ raw, tv.2 < store.length ∧ (getN store tv.2).id = tv.1) ∧
  (dkeys F).Nodup ∧
  (∀ tt ∈ F, (dkeys tt.2).Nodup) ∧
  (∀ tt ∈ F, ∀ kv ∈ tt.2, kv.2 < store.length) ∧
  slotInv store F ∧
  refsDistinct F ∧
  (∀ tt ∈ F, ∀ kv ∈ tt.2, kv.1 ≠ "")

/-- A caller mutating the `counts` (weight) field of the node referenced by
`r`. -/
def setCounts (st : Store) (r : Nat) (q : ℚ) : Store :=
  setN st r { getN st r with counts := q }

/-- The forest as plain values: every reference replaced by its record. -/
def materialize (store : Store) (F : Forest) : List (String × List (String × Node)) :=
  F.map (fun tt => (tt.1, tt.2.map (fun kv => (kv.1, getN store kv.2))))

/-- All node keys across all sub-trees, in order. -/
def allKeys (F : Forest) : List String := F.flatMap (fun tt => dkeys tt.2)

/-- All node ids of the flat input, after pipe expansion, in file order. -/
def allFlatIds (rows : List FlatRow) : List String :=
  rows.flatMap (fun row => splitPipe row.ids)

/-- The flat-mode loop only ever writes the `level` field of existing records. -/
def levelOnly (st st' : Store) : Prop :=
  st'.length = st.length ∧
  ∀ r, getN st' r = { getN st r with level := (getN st' r).level }

/-- Structural invariant of the flat forest between passes. -/
def coreInv (store : Store) (F : Forest) : Prop :=
  (dkeys F).Nodup ∧ (allKeys F).Nodup ∧
  (∀ tt ∈ F, ∀ kv ∈ tt.2, kv.2 < store.length) ∧
  (∀ tt ∈ F, tt.1 ∈ dkeys tt.2) ∧
  slotInv store F

/-- Invariant of the flat pending queue: every stored attempt counter is 0
(the source never writes the incremented value back), references are in range
and disjoint from the forest, parents are non-empty, and pending ids are
distinct and absent from every tree. -/
def pendInv (store : Store) (F : Forest) (pend : List (Nat × Nat)) : Prop :=
  (∀ p ∈ pend, p.1 = 0 ∧ p.2 < store.length ∧ (getN store p.2).parent ≠ "" ∧
    (getN store p.2).id ∉ allKeys F) ∧
  (pend.map (fun p => (getN store p.2).id)).Nodup ∧
  (pend.map Prod.snd).Nodup ∧
  (∀ p ∈ pend, ∀ tt ∈ F, ∀ kv ∈ tt.2, kv.2 ≠ p.2)

/-- Drop the elements whose position (counting from `n`) is listed. -/
def removeIdxs {α : Type} : List α → List Nat → Nat → List α
  | [], _, _ => []
  | x :: xs, ds, n =>
    if n ∈ ds then removeIdxs xs ds (n + 1) else x :: removeIdxs xs ds (n + 1)

/-! ## Dictionary and store lemmas -/

theorem dget?_dset_self {α : Type} (d : Dict α) (k : String) (v : α) :
    dget? (dset d k v) k = some v := by
  induction d with
  | nil => simp [dset, dget?]
  | cons p rest ih =>
    by_cases h : p.1 = k
    · simp [dset, h, dget?]
    · simp [dset, h, dget?, ih]

theorem dget?_dset_ne {α : Type} (d : Dict α) (k k' : String) (v : α) (h : k ≠ k') :
    dget? (dset d k v) k' = dget? d k' := by
  induction d with
  | nil => simp [dset, dget?, h]
  | cons p rest ih =>
    by_cases hp : p.1 = k
    · simp [dset, hp, dget?, h, hp ▸ h]
    · simp only [dset, hp, if_false, dget?]
      by_cases hp' : p.1 = k' <;> simp [hp', ih]

theorem dmem_iff {α : Type} (d : Dict α) (k : String) :
    dmem d k = true ↔ ∃ v, dget? d k = some v := by
  cases h : dget? d k <;> simp [dmem, h]

theorem dkeys_dset_of_mem {α : Type} (d : Dict α) (k : String) (v : α)
    (h : dmem d k = true) : dkeys (dset d k v) = dkeys d := by
  induction d with
  | nil => simp [dmem, dget?] at h
  | cons p rest ih =>
    by_cases hp : p.1 = k
    · simp [dset, hp, dkeys]
    · have h' : dmem rest k = true := by simpa [dmem, dget?, hp] using h
      have := ih h'
      simp only [dkeys] at this
      simp [dset, hp, dkeys, this]

theorem dkeys_dset_of_not_mem {α : Type} (d : Dict α) (k : String) (v : α)
    (h : dmem d k = false) : dkeys (dset d k v) = dkeys d ++ [k] := by
  induction d with
  | nil => simp [dset, dkeys]
  | cons p rest ih =>
    by_cases hp : p.1 = k
    · simp [dmem, dget?, hp] at h
    · have h' : dmem rest k = false := by simpa [dmem, dget?, hp] using h
      have := ih h'
      simp only [dkeys] at this
      simp [dset, hp, dkeys, this]

theorem dget?_eq_none_iff {α : Type} (d : Dict α) (k : String) :
    dget? d k = none ↔ k ∉ dkeys d := by
  induction d with
  | nil => simp [dget?, dkeys]
  | cons p rest ih =>
    by_cases hp : p.1 = k
    · simp [dget?, hp, dkeys]
    · simp only [dget?, hp, if_false, dkeys, List.map_cons, List.mem_cons, not_or]
      rw [ih]
      simp only [dkeys]
      simp [Ne.symm hp]

theorem dget?_eq_some_of_mem {α : Type} (d : Dict α) (k : String) (v : α)
    (hnd : (dkeys d).Nodup) (h : (k, v) ∈ d) : dget? d k = some v := by
  induction d with
  | nil => simp at h
  | cons p rest ih =>
    simp only [dkeys, List.map_cons, List.nodup_cons] at hnd
    rcases List.mem_cons.mp h with h1 | h2
    · simp [dget?, ← h1]
    · have hk : k ∈ dkeys rest := List.mem_map_of_mem Prod.fst h2
      have hp : p.1 ≠ k := fun he => hnd.1 (he ▸ hk)
      simp [dget?, hp, ih hnd.2 h2]

theorem mem_of_dget?_eq_some {α : Type} (d : Dict α) (k : String) (v : α)
    (h : dget? d k = some v) : (k, v) ∈ d := by
  induction d with
  | nil => simp [dget?] at h
  | cons p rest ih =>
    by_cases hp : p.1 = k
    · simp only [dget?, hp, if_true, Option.some.injEq] at h
      obtain ⟨a, b⟩ := p
      simp only at hp h
      subst hp
      subst h
      exact List.mem_cons_self _ _
    · simp only [dget?, hp, if_false] at h
      exact List.mem_cons_of_mem _ (ih h)

theorem pydel_eq_some_of_mem {α : Type} (d : Dict α) (k : String)
    (h : dmem d k = true) : ∃ d', pydel d k = some d' := by
  induction d with
  | nil => simp [dmem, dget?] at h
  | cons p rest ih =>
    by_cases hp : p.1 = k
    · exact ⟨rest, by simp [pydel, hp]⟩
    · simp only [dmem, dget?, hp, if_false] at h
      obtain ⟨d', hd'⟩ := ih h
      exact ⟨p :: d', by simp [pydel, hp, hd']⟩

theorem dget?_pydel {α : Type} (d d' : Dict α) (k k' : String)
    (hnd : (dkeys d).Nodup) (h : pydel d k = some d') :
    dget? d' k' = if k' = k then none else dget? d k' := by
  induction d generalizing d' with
  | nil => simp [pydel] at h
  | cons p rest ih =>
    rw [dkeys, List.map_cons, List.nodup_cons] at hnd
    by_cases hp : p.1 = k
    · rw [pydel, if_pos hp, Option.some.injEq] at h
      subst h
      by_cases hk : k' = k
      · subst hk
        rw [if_pos rfl, dget?_eq_none_iff]
        intro hmem
        exact hnd.1 (by rw [hp]; exact hmem)
      · have hp' : p.1 ≠ k' := fun he => hk (he.symm.trans hp)
        simp [hk, dget?, hp']
    · rw [pydel, if_neg hp] at h
      cases hrest : pydel rest k with
      | none => rw [hrest] at h; simp at h
      | some r =>
        rw [hrest] at h
        have h' : p :: r = d' := by simpa using h
        subst h'
        have hres := ih r hnd.2 hrest
        by_cases hk : k' = k
        · subst hk
          simp [dget?, hp, hres]
        · by_cases hpk : p.1 = k'
          · simp [dget?, hpk, hk]
          · simp [dget?, hpk, hres, hk]

theorem dkeys_pydel_sublist {α : Type} (d d' : Dict α) (k : String)
    (h : pydel d k = some d') : (dkeys d').Sublist (dkeys d) := by
  induction d generalizing d' with
  | nil => simp [pydel] at h
  | cons p rest ih =>
    by_cases hp : p.1 = k
    · rw [pydel, if_pos hp, Option.some.injEq] at h
      subst h
      exact List.sublist_cons_self _ _
    · rw [pydel, if_neg hp] at h
      cases hrest : pydel rest k with
      | none => rw [hrest] at h; simp at h
      | some r =>
        rw [hrest] at h
        have h' : p :: r = d' := by simpa using h
        subst h'
        exact List.Sublist.cons₂ _ (ih r hrest)

theorem getN_setN_self (st : Store) (r : Nat) (n : Node) (h : r < st.length) :
    getN (setN st r n) r = n := by
  induction st generalizing r with
  | nil => simp at h
  | cons x xs ih =>
    cases r with
    | zero => rfl
    | succ r' => exact ih r' (by simpa using h)

theorem getN_setN_ne (st : Store) (r r' : Nat) (n : Node) (h : r ≠ r') :
    getN (setN st r n) r' = getN st r' := by
  induction st generalizing r r' with
  | nil => rfl
  | cons x xs ih =>
    cases r with
    | zero =>
      cases r' with
      | zero => exact absurd rfl h
      | succ _ => rfl
    | succ rr =>
      cases r' with
      | zero => rfl
      | succ rr' => exact ih rr rr' (fun he => h (he ▸ rfl))

theorem length_setN (st : Store) (r : Nat) (n : Node) :
    (setN st r n).length = st.length := List.length_set ..

theorem getN_append_lt (st ext : Store) (r : Nat) (h : r < st.length) :
    getN (st ++ ext) r = getN st r := by
  induction st generalizing r with
  | nil => simp at h
  | cons x xs ih =>
    cases r with
    | zero => rfl
    | succ r' =>
      show getN (xs ++ ext) r' = getN xs r'
      exact ih r' (Nat.lt_of_succ_lt_succ (by simpa using h))

theorem getN_append_self (st : Store) (n : Node) :
    getN (st ++ [n]) st.length = n := by
  induction st with
  | nil => rfl
  | cons x xs ih => exact ih

theorem mem_dset {α : Type} (d : Dict α) (k : String) (v : α) (p : String × α)
    (h : p ∈ dset d k v) : p = (k, v) ∨ p ∈ d := by
  induction d with
  | nil => simpa [dset] using h
  | cons q rest ih =>
    by_cases hq : q.1 = k
    · rw [dset, if_pos hq] at h
      rcases List.mem_cons.mp h with h1 | h2
      · exact Or.inl h1
      · exact Or.inr (List.mem_cons_of_mem _ h2)
    · rw [dset, if_neg hq] at h
      rcases List.mem_cons.mp h with h1 | h2
      · exact Or.inr (h1 ▸ List.mem_cons_self _ _)
      · rcases ih h2 with h3 | h4
        · exact Or.inl h3
        · exact Or.inr (List.mem_cons_of_mem _ h4)

theorem dmem_of_mem_nodup {α : Type} (d : Dict α) (k : String) (v : α)
    (hnd : (dkeys d).Nodup) (h : (k, v) ∈ d) : dmem d k = true := by
  rw [dmem, dget?_eq_some_of_mem d k v hnd h]
  rfl

theorem pydel_length {α : Type} (d d' : Dict α) (k : String)
    (h : pydel d k = some d') : d'.length + 1 = d.length := by
  induction d generalizing d' with
  | nil => simp [pydel] at h
  | cons p rest ih =>
    by_cases hp : p.1 = k
    · rw [pydel, if_pos hp, Option.some.injEq] at h
      subst h
      rfl
    · rw [pydel, if_neg hp] at h
      cases hrest : pydel rest k with
      | none => rw [hrest] at h; simp at h
      | some r =>
        rw [hrest] at h
        have h' : p :: r = d' := by simpa using h
        subst h'
        have h'' := ih r hrest
        simp only [List.length_cons]
        omega

theorem totalSize_cons (p : String × Tree) (F : Forest) :
    totalSize (p :: F) = p.2.length + totalSize F := by
  simp [totalSize]

theorem totalSize_dset (F : Forest) (tid : String) (t t' : Tree)
    (hget : dget? F tid = some t) :
    totalSize (dset F tid t') + t.length = totalSize F + t'.length := by
  induction F with
  | nil => simp [dget?] at hget
  | cons q rest ih =>
    by_cases hq : q.1 = tid
    · rw [dget?, if_pos hq, Option.some.injEq] at hget
      rw [dset, if_pos hq, totalSize_cons, totalSize_cons, hget]
      have h2 : ((tid, t') : String × Tree).2 = t' := rfl
      rw [h2]
      omega
    · rw [dget?, if_neg hq] at hget
      rw [dset, if_neg hq, totalSize_cons, totalSize_cons]
      have := ih hget
      omega

theorem foldlM_pydel_spec {α : Type} (ds : List String) (F : Dict α)
    (hnd : (dkeys F).Nodup) (hds : ds.Nodup) (hmem : ∀ k ∈ ds, dmem F k = true) :
    ∃ F', List.foldlM pydel F ds = some F' ∧ (dkeys F').Nodup ∧
      ∀ k, dget? F' k = if k ∈ ds then none else dget? F k := by
  induction ds generalizing F with
  | nil => exact ⟨F, rfl, hnd, by simp⟩
  | cons d rest ih =>
    obtain ⟨F₁, hF₁⟩ := pydel_eq_some_of_mem F d (hmem d (List.mem_cons_self _ _))
    have hget := fun k' => dget?_pydel F F₁ d k' hnd hF₁
    have hnd₁ : (dkeys F₁).Nodup :=
      List.Nodup.sublist (dkeys_pydel_sublist F F₁ d hF₁) hnd
    have hdrest : rest.Nodup := (List.nodup_cons.mp hds).2
    have hdnotin : d ∉ rest := (List.nodup_cons.mp hds).1
    have hmem₁ : ∀ k ∈ rest, dmem F₁ k = true := by
      intro k hk
      have hne : k ≠ d := fun he => hdnotin (he ▸ hk)
      have hm := hmem k (List.mem_cons_of_mem _ hk)
      rw [dmem] at hm ⊢
      rw [hget k, if_neg hne]
      exact hm
    obtain ⟨F', hfold, hnd', hchar⟩ := ih F₁ hnd₁ hdrest hmem₁
    refine ⟨F', ?_, hnd', ?_⟩
    · simpa [List.foldlM, hF₁] using hfold
    · intro k
      rw [hchar k]
      by_cases hk : k ∈ rest
      · simp [hk]
      · by_cases hkd : k = d
        · subst hkd
          simp [hk, hget k]
        · simp [hk, hkd, hget k]

theorem mem_pruneDrops (F : Forest) (n : Int) (k : String) (hnd : (dkeys F).Nodup) :
    k ∈ (F.filter (fun tt => (tt.2.length : Int) < n)).map Prod.fst ↔
      ∃ t, dget? F k = some t ∧ (t.length : Int) < n := by
  constructor
  · intro hk
    obtain ⟨kv, hkv, hfst⟩ := List.mem_map.mp hk
    obtain ⟨hmem, hp⟩ := List.mem_filter.mp hkv
    refine ⟨kv.2, ?_, of_decide_eq_true hp⟩
    rw [← hfst]
    exact dget?_eq_some_of_mem F kv.1 kv.2 hnd hmem
  · rintro ⟨t, hget, hlt⟩
    exact List.mem_map.mpr ⟨(k, t),
      List.mem_filter.mpr ⟨mem_of_dget?_eq_some F k t hget, decide_eq_true hlt⟩, rfl⟩

theorem delPair_eq (F : Forest) (p : String × String) (t t' : Tree)
    (h1 : dget? F p.1 = some t) (h2 : pydel t p.2 = some t') :
    delPair F p = some (dset F p.1 t') := by
  simp [delPair, h1, h2]

theorem foldlM_delPair_spec (bad : List (String × String)) (F : Forest)
    (hnd : nodupForest F) (hbnd : bad.Nodup)
    (hpres : ∀ p ∈ bad, ∃ t, dget? F p.1 = some t ∧ dmem t p.2 = true) :
    ∃ F', List.foldlM delPair F bad = some F' ∧ nodupForest F' ∧
      dkeys F' = dkeys F ∧
      (∀ tid t', dget? F' tid = some t' → ∃ t, dget? F tid = some t ∧
        ∀ k, dget? t' k = if (tid, k) ∈ bad then none else dget? t k) ∧
      totalSize F' + bad.length = totalSize F := by
  induction bad generalizing F with
  | nil =>
    refine ⟨F, rfl, hnd, rfl, ?_, rfl⟩
    intro tid t' hget
    exact ⟨t', hget, by simp⟩
  | cons p rest ih =>
    obtain ⟨t, hgt, hmt⟩ := hpres p (List.mem_cons_self _ _)
    obtain ⟨t₁, ht₁⟩ := pydel_eq_some_of_mem t p.2 hmt
    have htnd : (dkeys t).Nodup := hnd.2 (p.1, t) (mem_of_dget?_eq_some F p.1 t hgt)
    have htget := fun k => dget?_pydel t t₁ p.2 k htnd ht₁
    have hF₁get : ∀ tid, dget? (dset F p.1 t₁) tid =
        if tid = p.1 then some t₁ else dget? F tid := by
      intro tid
      by_cases htid : tid = p.1
      · subst htid
        simp [dget?_dset_self]
      · rw [if_neg htid, dget?_dset_ne F p.1 tid t₁ (fun he => htid he.symm)]
    have hkeys₁ : dkeys (dset F p.1 t₁) = dkeys F :=
      dkeys_dset_of_mem F p.1 t₁ (by rw [dmem, hgt]; rfl)
    have hnd₁ : nodupForest (dset F p.1 t₁) := by
      refine ⟨hkeys₁ ▸ hnd.1, ?_⟩
      intro tt htt
      rcases mem_dset F p.1 t₁ tt htt with h1 | h2
      · subst h1
        exact List.Nodup.sublist (dkeys_pydel_sublist t t₁ p.2 ht₁) htnd
      · exact hnd.2 tt h2
    have hrest_nd : rest.Nodup := (List.nodup_cons.mp hbnd).2
    have hp_notin : p ∉ rest := (List.nodup_cons.mp hbnd).1
    have hpres₁ : ∀ q ∈ rest, ∃ t', dget? (dset F p.1 t₁) q.1 = some t' ∧
        dmem t' q.2 = true := by
      intro q hq
      obtain ⟨tq, hgq, hmq⟩ := hpres q (List.mem_cons_of_mem _ hq)
      by_cases hq1 : q.1 = p.1
      · have htq : tq = t := by
          rw [hq1] at hgq
          exact Option.some.injEq .. ▸ (hgq.symm.trans hgt).symm ▸ rfl
        refine ⟨t₁, by rw [hF₁get, if_pos hq1], ?_⟩
        have hq2 : q.2 ≠ p.2 := by
          intro he
          exact hp_notin (by
            have : q = p := Prod.ext hq1 he
            exact this ▸ hq)
        rw [dmem, htget q.2, if_neg hq2]
        rw [htq] at hmq
        exact hmq
      · exact ⟨tq, by rw [hF₁get, if_neg hq1]; exact hgq, hmq⟩
    obtain ⟨F', hfold, hnd', hkeys', hchar, hsize⟩ := ih (dset F p.1 t₁) hnd₁ hrest_nd hpres₁
    refine ⟨F', ?_, hnd', hkeys'.trans hkeys₁, ?_, ?_⟩
    · simpa [List.foldlM, delPair_eq F p t t₁ hgt ht₁] using hfold
    · intro tid t'' hget''
      obtain ⟨tmid, hgmid, hcmid⟩ := hchar tid t'' hget''
      rw [hF₁get tid] at hgmid
      by_cases htid : tid = p.1
      · rw [if_pos htid, Option.some.injEq] at hgmid
        subst hgmid
        refine ⟨t, htid ▸ hgt, ?_⟩
        intro k
        rw [hcmid k, ]
        by_cases hk : (tid, k) ∈ rest
        · simp [hk]
        · rw [if_neg hk, htget k]
          by_cases hk2 : k = p.2
          · subst hk2
            rw [if_pos rfl, if_pos (by subst htid; exact List.mem_cons_self _ _)]
          · rw [if_neg hk2, if_neg (by
              intro hmem
              rcases List.mem_cons.mp hmem with h1 | h2
              · exact hk2 (congrArg Prod.snd h1)
              · exact hk h2)]
      · rw [if_neg htid] at hgmid
        refine ⟨tmid, hgmid, ?_⟩
        intro k
        rw [hcmid k]
        by_cases hk : (tid, k) ∈ rest
        · simp [hk]
        · rw [if_neg hk, if_neg (by
            intro hmem
            rcases List.mem_cons.mp hmem with h1 | h2
            · exact htid (congrArg Prod.fst h1)
            · exact hk h2)]
    · have hlen := pydel_length t t₁ p.2 ht₁
      have hts := totalSize_dset F p.1 t t₁ hgt
      simp only [List.length_cons]
      omega

theorem foldl_append_eq_flatMap {α β : Type} (f : α → List β) (l : List α)
    (init : List β) :
    l.foldl (fun acc x => acc ++ f x) init = init ++ l.flatMap f := by
  induction l generalizing init with
  | nil => simp
  | cons x xs ih => simp [ih, List.append_assoc]

theorem cleanupGather_eq_flatMap (store : Store) (F : Forest) :
    cleanupGather store F = F.flatMap (fun tt =>
      (tt.2.filter (fun kv =>
        if (getN store kv.2).parent = "" then false
        else !(dmem tt.2 (getN store kv.2).parent))).map (fun kv => (tt.1, kv.1))) := by
  rw [cleanupGather, foldl_append_eq_flatMap]
  rfl

theorem mem_cleanupGather (store : Store) (F : Forest) (q : String × String) :
    q ∈ cleanupGather store F ↔ ∃ tt ∈ F, ∃ kv ∈ tt.2, q = (tt.1, kv.1) ∧
      (getN store kv.2).parent ≠ "" ∧ dmem tt.2 (getN store kv.2).parent = false := by
  rw [cleanupGather_eq_flatMap]
  simp only [List.mem_flatMap, List.mem_map, List.mem_filter]
  constructor
  · rintro ⟨tt, htt, kv, ⟨hkv, hp⟩, hq⟩
    by_cases hpar : (getN store kv.2).parent = ""
    · rw [if_pos hpar] at hp
      exact absurd hp (by simp)
    · rw [if_neg hpar] at hp
      exact ⟨tt, htt, kv, hkv, hq.symm, hpar, by simpa using hp⟩
  · rintro ⟨tt, htt, kv, hkv, hq, hpar, hdm⟩
    exact ⟨tt, htt, kv, ⟨hkv, by rw [if_neg hpar]; simpa using hdm⟩, hq.symm⟩

theorem closureInv_of_gather_nil (store : Store) (F : Forest)
    (h : cleanupGather store F = []) : closureInv store F := by
  intro tt htt kv hkv hpar
  by_contra hdm
  have hdm' : dmem tt.2 (getN store kv.2).parent = false := by
    cases hb : dmem tt.2 (getN store kv.2).parent
    · rfl
    · exact absurd hb hdm
  have hmem : ((tt.1, kv.1) : String × String) ∈ cleanupGather store F :=
    (mem_cleanupGather store F _).mpr ⟨tt, htt, kv, hkv, rfl, hpar, hdm'⟩
  rw [h] at hmem
  simp at hmem

theorem cleanupGather_nodup (store : Store) (F : Forest) (hnd : nodupForest F) :
    (cleanupGather store F).Nodup := by
  rw [cleanupGather_eq_flatMap]
  obtain ⟨hout, hin⟩ := hnd
  induction F with
  | nil => simp
  | cons tt rest ih =>
    rw [List.flatMap_cons]
    rw [dkeys, List.map_cons, List.nodup_cons] at hout
    refine List.Nodup.append ?_ (ih hout.2 (fun t ht => hin t (List.mem_cons_of_mem _ ht))) ?_
    · have hknd : (dkeys tt.2).Nodup := hin tt (List.mem_cons_self _ _)
      have hfnd : ((tt.2.filter (fun kv =>
          if (getN store kv.2).parent = "" then false
          else !(dmem tt.2 (getN store kv.2).parent))).map Prod.fst).Nodup :=
        List.Nodup.sublist (List.Sublist.map Prod.fst (List.filter_sublist tt.2)) hknd
      refine List.Nodup.map_on ?_ (List.Nodup.of_map Prod.fst hfnd)
      intro x hx y hy hxy
      exact List.inj_on_of_nodup_map hfnd hx hy (congrArg Prod.snd hxy)
    · intro q hq hq'
      obtain ⟨kv, _, hqe⟩ := List.mem_map.mp hq
      obtain ⟨tt', htt', hmm⟩ := List.mem_flatMap.mp hq'
      obtain ⟨kv2, _, hqe2⟩ := List.mem_map.mp hmm
      have hq1 : q.1 = tt.1 := by rw [← hqe]
      have hq2 : q.1 = tt'.1 := by rw [← hqe2]
      apply hout.1
      rw [hq1.symm.trans hq2]
      exact List.mem_map_of_mem Prod.fst htt'

theorem cleanupGather_present (store : Store) (F : Forest) (hnd : nodupForest F) :
    ∀ q ∈ cleanupGather store F, ∃ t, dget? F q.1 = some t ∧ dmem t q.2 = true := by
  intro q hq
  obtain ⟨tt, htt, kv, hkv, hq', hpar, hdm⟩ := (mem_cleanupGather store F q).mp hq
  subst hq'
  exact ⟨tt.2, dget?_eq_some_of_mem F tt.1 tt.2 hnd.1 htt,
    dmem_of_mem_nodup tt.2 kv.1 kv.2 (hnd.2 tt htt) hkv⟩

theorem cleanupLoop_spec : ∀ (fuel sz : Nat) (store : Store) (F : Forest),
    nodupForest F → totalSize F ≤ sz → sz < fuel →
    ∃ F', cleanupLoop fuel store F = some F' ∧ nodupForest F' ∧ closureInv store F' ∧
      ∀ tid t', dget? F' tid = some t' → ∃ t, dget? F tid = some t ∧
        ∀ k, dget? t' k = none ∨ dget? t' k = dget? t k := by
  intro fuel
  induction fuel with
  | zero =>
    intro sz store F _ _ h
    omega
  | succ f ih =>
    intro sz store F hnd hsz hfuel
    by_cases hbad : cleanupGather store F = []
    · refine ⟨F, ?_, hnd, closureInv_of_gather_nil store F hbad, ?_⟩
      · simp [cleanupLoop, hbad]
      · intro tid t' h
        exact ⟨t', h, fun k => Or.inr rfl⟩
    · have hbnd := cleanupGather_nodup store F hnd
      have hpres := cleanupGather_present store F hnd
      obtain ⟨F₁, hfold, hnd₁, _, hchar₁, hsize₁⟩ :=
        foldlM_delPair_spec (cleanupGather store F) F hnd hbnd hpres
      have hlen : 1 ≤ (cleanupGather store F).length := by
        cases hc : cleanupGather store F with
        | nil => exact absurd hc hbad
        | cons a l => simp
      have hsz₁ : totalSize F₁ ≤ sz - 1 := by omega
      obtain ⟨F', hloop, hnd', hclos, hchar'⟩ := ih (sz - 1) store F₁ hnd₁ hsz₁ (by omega)
      refine ⟨F', ?_, hnd', hclos, ?_⟩
      · simp only [cleanupLoop, hbad, if_false, hfold]
        exact hloop
      · intro tid t'' h''
        obtain ⟨t₁, hg₁, hc₁⟩ := hchar' tid t'' h''
        obtain ⟨t, hg, hc⟩ := hchar₁ tid t₁ hg₁
        refine ⟨t, hg, fun k => ?_⟩
        rcases hc₁ k with h1 | h2
        · exact Or.inl h1
        · rw [h2, hc k]
          by_cases hk : (tid, k) ∈ cleanupGather store F
          · exact Or.inl (by rw [if_pos hk])
          · exact Or.inr (by rw [if_neg hk])

theorem nodup_dset {α : Type} (d : Dict α) (k : String) (v : α)
    (hnd : (dkeys d).Nodup) : (dkeys (dset d k v)).Nodup := by
  cases hmem : dmem d k
  · have hnone : dget? d k = none := by
      rw [dmem] at hmem
      cases h : dget? d k
      · rfl
      · rw [h] at hmem
        simp at hmem
    have hnotin : k ∉ dkeys d := (dget?_eq_none_iff d k).mp hnone
    rw [dkeys_dset_of_not_mem d k v hmem, List.nodup_append]
    refine ⟨hnd, List.nodup_singleton k, ?_⟩
    intro a ha hb
    rw [List.mem_singleton] at hb
    subst hb
    exact hnotin ha
  · rw [dkeys_dset_of_mem d k v hmem]
    exact hnd

theorem foldl_invariant {σ α : Type} (f : σ → α → σ) (P : σ → Prop) :
    ∀ (l : List α) (s : σ), P s → (∀ s' x, x ∈ l → P s' → P (f s' x)) →
      P (l.foldl f s) := by
  intro l
  induction l with
  | nil => intro s h _; exact h
  | cons x xs ih =>
    intro s h hstep
    rw [List.foldl_cons]
    exact ih (f s x) (hstep s x (List.mem_cons_self _ _) h)
      (fun s' y hy => hstep s' y (List.mem_cons_of_mem _ hy))

theorem dset_dset_same {α : Type} (d : Dict α) (k : String) (v : α) :
    dset (dset d k v) k v = dset d k v := by
  induction d with
  | nil => simp [dset]
  | cons p rest ih =>
    by_cases hp : p.1 = k
    · simp [dset, hp]
    · simp [dset, hp, ih]

theorem setN_setN (st : Store) (r : Nat) (n n' : Node) :
    setN (setN st r n) r n' = setN st r n' := by
  simp [setN, List.set_set]

theorem seededNode_idem (store : Store) (r : Nat) (st' : Store)
    (h : getN st' r = getN store r ∨ getN st' r = seededNode store r) :
    { getN st' r with level := 0, parent := "" } = seededNode store r := by
  rcases h with h | h <;> rw [h] <;> rfl

theorem storePreserves_is_a (store st' : Store) (h : storePreserves store st')
    (r : Nat) : (getN st' r).is_a = (getN store r).is_a := by
  rcases h.2 r with h' | h' <;> rw [h'] <;> rfl

theorem storePreserves_id (store st' : Store) (h : storePreserves store st')
    (r : Nat) : (getN st' r).id = (getN store r).id := by
  rcases h.2 r with h' | h' <;> rw [h'] <;> rfl

theorem seedFold_eq (rid t : String) (r : Nat) :
    ∀ (l : List String) (acc : Store × Forest), r < acc.1.length →
    l.foldl (fun acc2 a =>
      if rid = a then
        (setN acc2.1 r { getN acc2.1 r with level := 0, parent := "" },
         dset acc2.2 t [(t, r)])
      else acc2) acc =
    if rid ∈ l then
      (setN acc.1 r { getN acc.1 r with level := 0, parent := "" },
       dset acc.2 t [(t, r)])
    else acc := by
  intro l
  induction l with
  | nil =>
    intro acc _
    simp
  | cons a l' ih =>
    intro acc hr
    rw [List.foldl_cons]
    by_cases ha : rid = a
    · rw [if_pos ha]
      have hlen : r < (setN acc.1 r { getN acc.1 r with level := 0, parent := "" },
          dset acc.2 t [(t, r)]).1.length := by
        show r < (setN acc.1 r _).length
        rw [length_setN]
        exact hr
      rw [ih _ hlen, if_pos (List.mem_cons.mpr (Or.inl ha))]
      by_cases hmem : rid ∈ l'
      · rw [if_pos hmem]
        show (setN (setN acc.1 r _) r _, dset (dset acc.2 t [(t, r)]) t [(t, r)]) = _
        rw [dset_dset_same]
        rw [show getN (setN acc.1 r { getN acc.1 r with level := 0, parent := "" }) r =
          { getN acc.1 r with level := 0, parent := "" } from getN_setN_self _ _ _ hr]
        rw [setN_setN]
      · rw [if_neg hmem]
    · rw [if_neg ha, ih _ hr]
      by_cases hmem : rid ∈ l'
      · rw [if_pos hmem, if_pos (List.mem_cons_of_mem _ hmem)]
      · rw [if_neg hmem, if_neg (fun hm => (List.mem_cons.mp hm).elim ha hmem)]

theorem seedStep_eq (rid : String) (acc : Store × Forest) (tv : String × Nat)
    (hr : tv.2 < acc.1.length) :
    seedStep rid acc tv =
      if rid ∈ (getN acc.1 tv.2).is_a then
        (setN acc.1 tv.2 { getN acc.1 tv.2 with level := 0, parent := "" },
         dset acc.2 tv.1 [(tv.1, tv.2)])
      else acc := by
  rw [seedStep]
  exact seedFold_eq rid tv.1 tv.2 ((getN acc.1 tv.2).is_a) acc hr

theorem seedExplicit_go (rid : String) (store : Store) :
    ∀ (entries : List (String × Nat)) (acc : Store × Forest),
    storePreserves store acc.1 →
    (∀ tv ∈ entries, tv.2 < store.length) →
    (dkeys entries).Nodup →
    storePreserves store (entries.foldl (seedStep rid) acc).1 ∧
    (∀ k r, (k, r) ∈ entries →
      (rid ∈ (getN store r).is_a →
        dget? (entries.foldl (seedStep rid) acc).2 k = some [(k, r)] ∧
        getN (entries.foldl (seedStep rid) acc).1 r = seededNode store r) ∧
      (rid ∉ (getN store r).is_a →
        dget? (entries.foldl (seedStep rid) acc).2 k = dget? acc.2 k)) ∧
    (∀ k, k ∉ dkeys entries →
      dget? (entries.foldl (seedStep rid) acc).2 k = dget? acc.2 k) ∧
    (∀ r, getN acc.1 r = seededNode store r →
      getN (entries.foldl (seedStep rid) acc).1 r = seededNode store r) := by
  intro entries
  induction entries with
  | nil =>
    intro acc hpres _ _
    exact ⟨hpres, by simp, fun k _ => rfl, fun r h => h⟩
  | cons tv rest ih =>
    intro acc hpres hmem hnd
    have hrlt : tv.2 < acc.1.length := by
      rw [hpres.1]
      exact hmem tv (List.mem_cons_self _ _)
    have hisa : (getN acc.1 tv.2).is_a = (getN store tv.2).is_a :=
      storePreserves_is_a store acc.1 hpres tv.2
    have hnd' : (dkeys rest).Nodup ∧ tv.1 ∉ dkeys rest := by
      rw [dkeys, List.map_cons, List.nodup_cons] at hnd
      exact ⟨hnd.2, hnd.1⟩
    rw [List.foldl_cons]
    by_cases hcond : rid ∈ (getN store tv.2).is_a
    · have hacc1 : seedStep rid acc tv =
          (setN acc.1 tv.2 (seededNode store tv.2), dset acc.2 tv.1 [(tv.1, tv.2)]) := by
        rw [seedStep_eq rid acc tv hrlt, if_pos (by rw [hisa]; exact hcond),
          seededNode_idem store tv.2 acc.1 (hpres.2 tv.2)]
      rw [hacc1]
      have hpres₁ : storePreserves store
          (setN acc.1 tv.2 (seededNode store tv.2), dset acc.2 tv.1 [(tv.1, tv.2)]).1 := by
        constructor
        · show (setN acc.1 tv.2 _).length = store.length
          rw [length_setN, hpres.1]
        · intro r'
          by_cases hr' : tv.2 = r'
          · subst hr'
            exact Or.inr (getN_setN_self _ _ _ hrlt)
          · show getN (setN acc.1 tv.2 _) r' = _ ∨ getN (setN acc.1 tv.2 _) r' = _
            rw [getN_setN_ne _ _ _ _ hr']
            exact hpres.2 r'
      obtain ⟨ihpres, ihent, ihout, ihabs⟩ := ih _ hpres₁
        (fun tv' h => hmem tv' (List.mem_cons_of_mem _ h)) hnd'.1
      refine ⟨ihpres, ?_, ?_, ?_⟩
      · intro k r hkr
        rcases List.mem_cons.mp hkr with hkr1 | hkr2
        · have hk : k = tv.1 := congrArg Prod.fst hkr1
          have hrr : r = tv.2 := congrArg Prod.snd hkr1
          subst hk
          subst hrr
          constructor
          · intro _
            constructor
            · rw [ihout tv.1 hnd'.2]
              show dget? (dset acc.2 tv.1 [(tv.1, tv.2)]) tv.1 = _
              rw [dget?_dset_self]
            · exact ihabs tv.2 (getN_setN_self _ _ _ hrlt)
          · intro hc
            exact absurd hcond hc
        · have hkne : tv.1 ≠ k := by
            intro he
            exact hnd'.2 (he ▸ List.mem_map_of_mem Prod.fst hkr2)
          constructor
          · intro hc
            exact (ihent k r hkr2).1 hc
          · intro hc
            rw [(ihent k r hkr2).2 hc]
            show dget? (dset acc.2 tv.1 [(tv.1, tv.2)]) k = _
            rw [dget?_dset_ne _ _ _ _ hkne]
      · intro k hk
        have hkne : tv.1 ≠ k := fun he => hk (by
          rw [dkeys, List.map_cons]
          exact he ▸ List.mem_cons_self _ _)
        have hk2 : k ∉ dkeys rest := fun h2 => hk (by
          rw [dkeys, List.map_cons]
          exact List.mem_cons_of_mem _ h2)
        rw [ihout k hk2]
        show dget? (dset acc.2 tv.1 [(tv.1, tv.2)]) k = _
        rw [dget?_dset_ne _ _ _ _ hkne]
      · intro r hr
        apply ihabs
        by_cases hr' : tv.2 = r
        · subst hr'
          exact getN_setN_self _ _ _ hrlt
        · show getN (setN acc.1 tv.2 _) r = _
          rw [getN_setN_ne _ _ _ _ hr']
          exact hr
    · have hacc1 : seedStep rid acc tv = acc := by
        rw [seedStep_eq rid acc tv hrlt, if_neg (by rw [hisa]; exact hcond)]
      rw [hacc1]
      obtain ⟨ihpres, ihent, ihout, ihabs⟩ := ih acc hpres
        (fun tv' h => hmem tv' (List.mem_cons_of_mem _ h)) hnd'.1
      refine ⟨ihpres, ?_, ?_, ihabs⟩
      · intro k r hkr
        rcases List.mem_cons.mp hkr with hkr1 | hkr2
        · have hk : k = tv.1 := congrArg Prod.fst hkr1
          have hrr : r = tv.2 := congrArg Prod.snd hkr1
          subst hk
          subst hrr
          constructor
          · intro hc
            exact absurd hc hcond
          · intro _
            exact ihout tv.1 hnd'.2
        · exact ihent k r hkr2
      · intro k hk
        exact ihout k (fun h2 => hk (by
          rw [dkeys, List.map_cons]
          exact List.mem_cons_of_mem _ h2))

theorem seedAuto_go (raw : Dict Nat) (store : Store) :
    ∀ (rts : List String) (acc : Store × Forest),
    storePreserves store acc.1 →
    (∀ rt ∈ rts, ∃ r, dget? raw rt = some r ∧ r < store.length) →
    rts.Nodup →
    ∃ res, List.foldlM (seedAutoStep raw) acc rts = some res ∧
      storePreserves store res.1 ∧
      (∀ rt r, rt ∈ rts → dget? raw rt = some r →
        dget? res.2 rt = some [(rt, r)] ∧ getN res.1 r = seededNode store r) ∧
      (∀ k, k ∉ rts → dget? res.2 k = dget? acc.2 k) ∧
      (∀ r, getN acc.1 r = seededNode store r → getN res.1 r = seededNode store r) := by
  intro rts
  induction rts with
  | nil =>
    intro acc hpres _ _
    exact ⟨acc, rfl, hpres, by simp, fun k _ => rfl, fun r h => h⟩
  | cons rt rest ih =>
    intro acc hpres hlook hnd
    obtain ⟨r0, hr0, hr0lt⟩ := hlook rt (List.mem_cons_self _ _)
    have hr0acc : r0 < acc.1.length := by rw [hpres.1]; exact hr0lt
    have hstep : seedAutoStep raw acc rt =
        some (setN acc.1 r0 (seededNode store r0), dset acc.2 rt [(rt, r0)]) := by
      simp only [seedAutoStep, hr0]
      rw [seededNode_idem store r0 acc.1 (hpres.2 r0)]
    have hpres₁ : storePreserves store (setN acc.1 r0 (seededNode store r0)) := by
      constructor
      · rw [length_setN, hpres.1]
      · intro r'
        by_cases hr' : r0 = r'
        · subst hr'
          exact Or.inr (getN_setN_self _ _ _ hr0acc)
        · rw [getN_setN_ne _ _ _ _ hr']
          exact hpres.2 r'
    have hndr : rest.Nodup := (List.nodup_cons.mp hnd).2
    have hrtni : rt ∉ rest := (List.nodup_cons.mp hnd).1
    obtain ⟨res, hfold, ihpres, ihent, ihout, ihabs⟩ :=
      ih ((setN acc.1 r0 (seededNode store r0), dset acc.2 rt [(rt, r0)]) : Store × Forest)
        hpres₁ (fun rt' h => hlook rt' (List.mem_cons_of_mem _ h)) hndr
    refine ⟨res, ?_, ihpres, ?_, ?_, ?_⟩
    · simpa [List.foldlM, hstep] using hfold
    · intro rt' r' hrt' hget'
      rcases List.mem_cons.mp hrt' with h1 | h2
      · subst h1
        rw [hr0] at hget'
        have hr' : r0 = r' := by
          simpa using hget'
        subst hr'
        constructor
        · rw [ihout rt' hrtni]
          show dget? (dset acc.2 rt' [(rt', r0)]) rt' = _
          rw [dget?_dset_self]
        · exact ihabs r0 (getN_setN_self _ _ _ hr0acc)
      · exact ihent rt' r' h2 hget'
    · intro k hk
      have hkne : rt ≠ k := fun he => hk (he ▸ List.mem_cons_self _ _)
      have hk2 : k ∉ rest := fun h2 => hk (List.mem_cons_of_mem _ h2)
      rw [ihout k hk2]
      show dget? (dset acc.2 rt [(rt, r0)]) k = _
      rw [dget?_dset_ne _ _ _ _ hkne]
    · intro r hr
      apply ihabs
      by_cases hr' : r0 = r
      · subst hr'
        exact getN_setN_self _ _ _ hr0acc
      · rw [getN_setN_ne _ _ _ _ hr']
        exact hr

theorem root_terms_eq (store : Store) (raw : Dict Nat) (hwf : wfRaw store raw) :
    (raw.filter (fun tv => (getN store tv.2).is_a = [])).map
        (fun tv => (getN store tv.2).id) =
      (raw.filter (fun tv => (getN store tv.2).is_a = [])).map Prod.fst :=
  List.map_congr_left (fun tv htv => (hwf.2 tv (List.mem_filter.mp htv).1).2)

theorem mem_root_terms (store : Store) (raw : Dict Nat) (hwf : wfRaw store raw)
    (k : String) :
    k ∈ (raw.filter (fun tv => (getN store tv.2).is_a = [])).map
        (fun tv => (getN store tv.2).id) ↔
      ∃ r, dget? raw k = some r ∧ (getN store r).is_a = [] := by
  rw [root_terms_eq store raw hwf]
  constructor
  · intro hk
    obtain ⟨tv, htv, hfst⟩ := List.mem_map.mp hk
    obtain ⟨hmem, hp⟩ := List.mem_filter.mp htv
    refine ⟨tv.2, ?_, of_decide_eq_true hp⟩
    rw [← hfst]
    exact dget?_eq_some_of_mem raw tv.1 tv.2 hwf.1 hmem
  · rintro ⟨r, hget, hisa⟩
    exact List.mem_map.mpr ⟨(k, r),
      List.mem_filter.mpr ⟨mem_of_dget?_eq_some raw k r hget, decide_eq_true hisa⟩, rfl⟩

theorem seedAuto_spec (store : Store) (raw : Dict Nat) (hwf : wfRaw store raw) :
    ∃ res, seedAuto store raw = some res ∧
      storePreserves store res.1 ∧
      (∀ k, dmem res.2 k = true ↔
        ∃ r, dget? raw k = some r ∧ (getN store r).is_a = []) ∧
      (∀ k T, dget? res.2 k = some T → ∃ r, dget? raw k = some r ∧
        (getN store r).is_a = [] ∧ T = [(k, r)] ∧ getN res.1 r = seededNode store r) := by
  have hrts_nd : ((raw.filter (fun tv => (getN store tv.2).is_a = [])).map
      (fun tv => (getN store tv.2).id)).Nodup := by
    rw [root_terms_eq store raw hwf]
    exact List.Nodup.sublist (List.Sublist.map Prod.fst (List.filter_sublist raw)) hwf.1
  have hrts_look : ∀ rt ∈ (raw.filter (fun tv => (getN store tv.2).is_a = [])).map
      (fun tv => (getN store tv.2).id), ∃ r, dget? raw rt = some r ∧ r < store.length := by
    intro rt hrt
    obtain ⟨r, hget, _⟩ := (mem_root_terms store raw hwf rt).mp hrt
    exact ⟨r, hget, (hwf.2 (rt, r) (mem_of_dget?_eq_some raw rt r hget)).1⟩
  obtain ⟨res, hfold, hpres, hent, hout, _⟩ := seedAuto_go raw store
    ((raw.filter (fun tv => (getN store tv.2).is_a = [])).map
      (fun tv => (getN store tv.2).id))
    (store, ([] : Forest)) ⟨rfl, fun r => Or.inl rfl⟩ hrts_look hrts_nd
  refine ⟨res, hfold, hpres, ?_, ?_⟩
  · intro k
    constructor
    · intro hk
      by_cases hmem : k ∈ (raw.filter (fun tv => (getN store tv.2).is_a = [])).map
          (fun tv => (getN store tv.2).id)
      · exact (mem_root_terms store raw hwf k).mp hmem
      · rw [dmem, hout k hmem] at hk
        simp [dget?] at hk
    · rintro ⟨r, hget, hisa⟩
      have hmem := (mem_root_terms store raw hwf k).mpr ⟨r, hget, hisa⟩
      rw [dmem, (hent k r hmem hget).1]
      rfl
  · intro k T hT
    by_cases hmem : k ∈ (raw.filter (fun tv => (getN store tv.2).is_a = [])).map
        (fun tv => (getN store tv.2).id)
    · obtain ⟨r, hget, hisa⟩ := (mem_root_terms store raw hwf k).mp hmem
      obtain ⟨h1, h2⟩ := hent k r hmem hget
      rw [hT] at h1
      exact ⟨r, hget, hisa, Option.some_inj.mp h1, h2⟩
    · rw [hout k hmem] at hT
      simp [dget?] at hT

theorem seedExplicit_spec (rid : String) (store : Store) (raw : Dict Nat)
    (hwf : wfRaw store raw) :
    storePreserves store (seedExplicit rid store raw).1 ∧
    (∀ k, dmem (seedExplicit rid store raw).2 k = true ↔
      ∃ r, dget? raw k = some r ∧ rid ∈ (getN store r).is_a) ∧
    (∀ k T, dget? (seedExplicit rid store raw).2 k = some T →
      ∃ r, dget? raw k = some r ∧ rid ∈ (getN store r).is_a ∧ T = [(k, r)] ∧
        getN (seedExplicit rid store raw).1 r = seededNode store r) := by
  obtain ⟨hpres, hent, hout, _⟩ := seedExplicit_go rid store raw (store, ([] : Forest))
    ⟨rfl, fun r => Or.inl rfl⟩ (fun tv htv => (hwf.2 tv htv).1) hwf.1
  simp only [seedExplicit]
  refine ⟨hpres, ?_, ?_⟩
  · intro k
    constructor
    · intro hk
      by_cases hmem : k ∈ dkeys raw
      · obtain ⟨tv, htv, hfst⟩ := List.mem_map.mp hmem
        have hget : dget? raw k = some tv.2 := by
          rw [← hfst]
          exact dget?_eq_some_of_mem raw tv.1 tv.2 hwf.1 htv
        by_cases hcond : rid ∈ (getN store tv.2).is_a
        · exact ⟨tv.2, hget, hcond⟩
        · have hkr : (k, tv.2) ∈ raw := by
            rw [← hfst]
            exact htv
          have := (hent k tv.2 hkr).2 hcond
          rw [dmem, this] at hk
          simp [dget?] at hk
      · rw [dmem, hout k hmem] at hk
        simp [dget?] at hk
    · rintro ⟨r, hget, hcond⟩
      have hkr : (k, r) ∈ raw := mem_of_dget?_eq_some raw k r hget
      rw [dmem, ((hent k r hkr).1 hcond).1]
      rfl
  · intro k T hT
    by_cases hmem : k ∈ dkeys raw
    · obtain ⟨tv, htv, hfst⟩ := List.mem_map.mp hmem
      have hget : dget? raw k = some tv.2 := by
        rw [← hfst]
        exact dget?_eq_some_of_mem raw tv.1 tv.2 hwf.1 htv
      have hkr : (k, tv.2) ∈ raw := mem_of_dget?_eq_some raw k tv.2 hget
      by_cases hcond : rid ∈ (getN store tv.2).is_a
      · obtain ⟨h1, h2⟩ := (hent k tv.2 hkr).1 hcond
        rw [hT] at h1
        exact ⟨tv.2, hget, hcond, Option.some_inj.mp h1, h2⟩
      · have := (hent k tv.2 hkr).2 hcond
        rw [hT] at this
        simp [dget?] at this
    · rw [hout k hmem] at hT
      simp [dget?] at hT

theorem mem_dkeys_of_dget? {α : Type} (d : Dict α) (k : String) (v : α)
    (h : dget? d k = some v) : k ∈ dkeys d := by
  by_contra hk
  rw [← dget?_eq_none_iff] at hk
  rw [h] at hk
  simp at hk

theorem propEdge_no_tree (tid term : String) (cr : Nat) :
    ∀ (l : List String) (acc : Store × Forest × Bool),
    dget? acc.2.1 tid = none →
    l.foldl (propEdge tid term cr) acc = acc := by
  intro l
  induction l with
  | nil =>
    intro acc _
    rfl
  | cons a l' ih =>
    intro acc hnone
    rw [List.foldl_cons]
    have hstep : propEdge tid term cr acc a = acc := by
      obtain ⟨store, F, had⟩ := acc
      simp only [propEdge]
      rw [hnone]
    rw [hstep]
    exact ih acc hnone

theorem propEdge_term_present (tid term : String) (cr : Nat) :
    ∀ (l : List String) (acc : Store × Forest × Bool) (t : Tree),
    dget? acc.2.1 tid = some t → dmem t term = true →
    l.foldl (propEdge tid term cr) acc = acc := by
  intro l
  induction l with
  | nil =>
    intro acc t _ _
    rfl
  | cons a l' ih =>
    intro acc t hsome hmem
    rw [List.foldl_cons]
    have hstep : propEdge tid term cr acc a = acc := by
      obtain ⟨store, F, had⟩ := acc
      simp only [propEdge]
      rw [hsome]
      cases hta : dget? t a with
      | none => simp [hta]
      | some pr => simp [hta, hmem]
    rw [hstep]
    exact ih acc t hsome hmem

theorem propEdges_cases (tid term : String) (cr : Nat) :
    ∀ (l : List String) (store : Store) (F : Forest) (had : Bool) (t : Tree),
    dget? F tid = some t →
    l.foldl (propEdge tid term cr) (store, F, had) = (store, F, had) ∨
    ∃ a pr, a ∈ l ∧ dget? t a = some pr ∧ dmem t term = false ∧
      l.foldl (propEdge tid term cr) (store, F, had) =
        (setN store cr { getN store cr with
                         level := (getN store pr).level + 1,
                         parent := (getN store pr).id },
         dset F tid (dset t term cr), true) := by
  intro l
  induction l with
  | nil =>
    intro store F had t _
    exact Or.inl rfl
  | cons a l' ih =>
    intro store F had t hsome
    rw [List.foldl_cons]
    cases hta : dget? t a with
    | none =>
      have hstep : propEdge tid term cr (store, F, had) a = (store, F, had) := by
        simp only [propEdge]
        rw [hsome]
        simp [hta]
      rw [hstep]
      rcases ih store F had t hsome with h | ⟨a', pr, ha', h2, h3, h4⟩
      · exact Or.inl h
      · exact Or.inr ⟨a', pr, List.mem_cons_of_mem _ ha', h2, h3, h4⟩
    | some pr =>
      cases hmem : dmem t term with
      | true =>
        have hstep : propEdge tid term cr (store, F, had) a = (store, F, had) := by
          simp only [propEdge]
          rw [hsome]
          simp [hta, hmem]
        rw [hstep]
        rcases ih store F had t hsome with h | ⟨a', pr', ha', h2, h3, h4⟩
        · exact Or.inl h
        · rw [h3] at hmem
          simp at hmem
      | false =>
        have hstep : propEdge tid term cr (store, F, had) a =
            (setN store cr { getN store cr with
                             level := (getN store pr).level + 1,
                             parent := (getN store pr).id },
             dset F tid (dset t term cr), true) := by
          simp only [propEdge]
          rw [hsome]
          simp [hta, hmem]
        rw [hstep]
        have hF' : dget? (dset F tid (dset t term cr)) tid = some (dset t term cr) :=
          dget?_dset_self F tid (dset t term cr)
        have hmem' : dmem (dset t term cr) term = true := by
          rw [dmem, dget?_dset_self]
          rfl
        rw [propEdge_term_present tid term cr l' _ (dset t term cr) hF' hmem']
        exact Or.inr ⟨a, pr, List.mem_cons_self _ _, hta, rfl, rfl⟩

theorem ginv_extend (raw : Dict Nat) (store : Store) (F : Forest) (ext : Store)
    (hg : ginv raw store F) : ginv raw (store ++ ext) F := by
  obtain ⟨g1, g2, g3, g4, g5, g6, g7⟩ := hg
  have hlt : ∀ r, r < store.length → getN (store ++ ext) r = getN store r :=
    fun r hr => getN_append_lt store ext r hr
  refine ⟨?_, g2, g3, ?_, ?_, g6, g7⟩
  · intro tv htv
    obtain ⟨h1, h2⟩ := g1 tv htv
    refine ⟨lt_of_lt_of_le h1 (by simp), ?_⟩
    rw [hlt tv.2 h1]
    exact h2
  · intro tt htt kv hkv
    exact lt_of_lt_of_le (g4 tt htt kv hkv) (by simp)
  · intro tt htt kv hkv
    obtain ⟨h1, h2, h3⟩ := g5 tt htt kv hkv
    rw [hlt kv.2 (g4 tt htt kv hkv)]
    refine ⟨h1, h2, ?_⟩
    intro hpar
    obtain ⟨pr, hpr1, hpr2⟩ := h3 hpar
    refine ⟨pr, hpr1, ?_⟩
    rw [hlt pr (g4 tt htt (_, pr) (mem_of_dget?_eq_some _ _ _ hpr1))]
    exact hpr2

theorem not_mem_dkeys_of_dmem_false {α : Type} (d : Dict α) (k : String)
    (h : dmem d k = false) : k ∉ dkeys d := by
  apply (dget?_eq_none_iff d k).mp
  cases hh : dget? d k
  · rfl
  · rw [dmem, hh] at h
    simp at h

theorem ginv_insert (raw : Dict Nat) (store : Store) (F : Forest) (tid term : String)
    (t : Tree) (cr : Nat) (a : String) (pr : Nat)
    (hg : ginv raw store F)
    (hsome : dget? F tid = some t)
    (hta : dget? t a = some pr)
    (hterm : dmem t term = false)
    (hcr_lt : cr < store.length)
    (hcr_slot : ∀ tt ∈ F, ∀ kv ∈ tt.2, kv.2 ≠ cr)
    (hcr_raw : ∀ tv ∈ raw, tv.2 ≠ cr)
    (hid : (getN store cr).id = term)
    (hterm_ne : term ≠ "") :
    ginv raw
      (setN store cr { getN store cr with
                       level := (getN store pr).level + 1,
                       parent := (getN store pr).id })
      (dset F tid (dset t term cr)) := by
  obtain ⟨g1, g2, g3, g4, g5, g6, g7⟩ := hg
  have httF : (tid, t) ∈ F := mem_of_dget?_eq_some F tid t hsome
  have hprt : (a, pr) ∈ t := mem_of_dget?_eq_some t a pr hta
  have hpr_ne : pr ≠ cr := hcr_slot (tid, t) httF (a, pr) hprt
  have hpr_lt : pr < store.length := g4 (tid, t) httF (a, pr) hprt
  have hpid : (getN store pr).id = a := (g5 (tid, t) httF (a, pr) hprt).1
  have ha_ne : a ≠ "" := g7 (tid, t) httF (a, pr) hprt
  have htermkeys : term ∉ dkeys t := not_mem_dkeys_of_dmem_false t term hterm
  have ha_keys : a ∈ dkeys t := mem_dkeys_of_dget? t a pr hta
  have ha_ne_term : a ≠ term := fun he => htermkeys (he ▸ ha_keys)
  have hget_cr : getN (setN store cr { getN store cr with
      level := (getN store pr).level + 1, parent := (getN store pr).id }) cr =
      { getN store cr with
        level := (getN store pr).level + 1, parent := (getN store pr).id } :=
    getN_setN_self store cr _ hcr_lt
  have hget_ne : ∀ r, r ≠ cr → getN (setN store cr { getN store cr with
      level := (getN store pr).level + 1, parent := (getN store pr).id }) r =
      getN store r :=
    fun r hr => getN_setN_ne store cr r _ (fun he => hr he.symm)
  have hslot : ∀ tt ∈ dset F tid (dset t term cr), ∀ kv ∈ tt.2,
      (∃ tt₀ ∈ F, tt₀.1 = tt.1 ∧ kv ∈ tt₀.2) ∨ (tt.1 = tid ∧ kv = (term, cr)) := by
    intro tt htt kv hkv
    rcases mem_dset F tid (dset t term cr) tt htt with h1 | h2
    · have ht1 : tt.1 = tid := by rw [h1]
      have ht2 : tt.2 = dset t term cr := by rw [h1]
      rw [ht2] at hkv
      rcases mem_dset t term cr kv hkv with hkv1 | hkv2
      · exact Or.inr ⟨ht1, hkv1⟩
      · exact Or.inl ⟨(tid, t), httF, ht1.symm, hkv2⟩
    · exact Or.inl ⟨tt, h2, rfl, hkv⟩
  have hslot_ne_cr : ∀ tt₀ ∈ F, ∀ kv ∈ tt₀.2, kv.2 ≠ cr := hcr_slot
  refine ⟨?_, ?_, ?_, ?_, ?_, ?_, ?_⟩
  · intro tv htv
    obtain ⟨h1, h2⟩ := g1 tv htv
    rw [length_setN]
    exact ⟨h1, by rw [hget_ne tv.2 (hcr_raw tv htv), h2]⟩
  · rw [dkeys_dset_of_mem F tid _ (by rw [dmem, hsome]; rfl)]
    exact g2
  · intro tt htt
    rcases mem_dset F tid (dset t term cr) tt htt with h1 | h2
    · have : tt.2 = dset t term cr := by rw [h1]
      rw [this]
      exact nodup_dset t term cr (g3 (tid, t) httF)
    · exact g3 tt h2
  · intro tt htt kv hkv
    rw [length_setN]
    rcases hslot tt htt kv hkv with ⟨tt₀, h0, _, hkv0⟩ | ⟨_, hkv1⟩
    · exact g4 tt₀ h0 kv hkv0
    · rw [hkv1]
      exact hcr_lt
  · intro tt htt kv hkv
    rcases mem_dset F tid (dset t term cr) tt htt with h1 | h2
    · have ht2 : tt.2 = dset t term cr := by rw [h1]
      rw [ht2] at hkv ⊢
      rcases mem_dset t term cr kv hkv with hkv1 | hkv2
      · have hk1 : kv.1 = term := by rw [hkv1]
        have hk2 : kv.2 = cr := by rw [hkv1]
        rw [hk1, hk2, hget_cr]
        refine ⟨hid, ?_, ?_⟩
        · intro hpar
          exact absurd (hpid ▸ hpar) ha_ne
        · intro _
          refine ⟨pr, ?_, ?_⟩
          · show dget? (dset t term cr) (getN store pr).id = some pr
            rw [hpid, dget?_dset_ne t term _ cr (fun he => ha_ne_term he.symm), hta]
          · rw [hget_ne pr hpr_ne]
      · have hkv_ne : kv.2 ≠ cr := hcr_slot (tid, t) httF kv hkv2
        rw [hget_ne kv.2 hkv_ne]
        obtain ⟨s1, s2, s3⟩ := g5 (tid, t) httF kv hkv2
        refine ⟨s1, s2, ?_⟩
        intro hpar
        obtain ⟨pr₂, hpr₂, hlev⟩ := s3 hpar
        have hp_keys : (getN store kv.2).parent ∈ dkeys t :=
          mem_dkeys_of_dget? t _ pr₂ hpr₂
        have hp_ne_term : (getN store kv.2).parent ≠ term :=
          fun he => htermkeys (he ▸ hp_keys)
        refine ⟨pr₂, ?_, ?_⟩
        · rw [dget?_dset_ne t term _ cr (fun he => hp_ne_term he.symm), hpr₂]
        · have hpr₂_ne : pr₂ ≠ cr :=
            hcr_slot (tid, t) httF (_, pr₂) (mem_of_dget?_eq_some t _ pr₂ hpr₂)
          rw [hget_ne pr₂ hpr₂_ne]
          exact hlev
    · obtain ⟨s1, s2, s3⟩ := g5 tt h2 kv hkv
      have hkv_ne : kv.2 ≠ cr := hcr_slot tt h2 kv hkv
      rw [hget_ne kv.2 hkv_ne]
      refine ⟨s1, s2, ?_⟩
      intro hpar
      obtain ⟨pr₂, hpr₂, hlev⟩ := s3 hpar
      have hpr₂_ne : pr₂ ≠ cr :=
        hcr_slot tt h2 (_, pr₂) (mem_of_dget?_eq_some tt.2 _ pr₂ hpr₂)
      refine ⟨pr₂, hpr₂, ?_⟩
      rw [hget_ne pr₂ hpr₂_ne]
      exact hlev
  · intro tt1 h1 tt2 h2 kv1 hkv1 kv2 hkv2 hne
    rcases hslot tt1 h1 kv1 hkv1 with ⟨tt₀, h0, hk0, hkv0⟩ | ⟨hk1, hkv1'⟩
    · rcases hslot tt2 h2 kv2 hkv2 with ⟨tt₀', h0', hk0', hkv0'⟩ | ⟨hk2, hkv2'⟩
      · apply g6 tt₀ h0 tt₀' h0' kv1 hkv0 kv2 hkv0'
        rw [hk0, hk0']
        exact hne
      · have he2 : kv2.2 = cr := by rw [hkv2']
        rw [he2]
        exact hcr_slot tt₀ h0 kv1 hkv0
    · rcases hslot tt2 h2 kv2 hkv2 with ⟨tt₀', h0', hk0', hkv0'⟩ | ⟨hk2, hkv2'⟩
      · have he1 : kv1.2 = cr := by rw [hkv1']
        rw [he1]
        exact fun he => (hcr_slot tt₀' h0' kv2 hkv0') he.symm
      · exfalso
        apply hne
        have e1 : kv1.1 = term := by rw [hkv1']
        have e2 : kv2.1 = term := by rw [hkv2']
        rw [hk1, hk2, e1, e2]
  · intro tt htt kv hkv
    rcases hslot tt htt kv hkv with ⟨tt₀, h0, _, hkv0⟩ | ⟨_, hkv1⟩
    · exact g7 tt₀ h0 kv hkv0
    · rw [hkv1]
      exact hterm_ne

theorem propTerm_preserves (raw : Dict Nat) (tid : String) (hne : keysNonempty raw)
    (acc : Store × Forest × Bool) (tv : String × Nat) (htv : tv ∈ raw)
    (hg : ginv raw acc.1 acc.2.1) :
    ginv raw (propTerm tid acc tv).1 (propTerm tid acc tv).2.1 := by
  obtain ⟨store, F, had⟩ := acc
  obtain ⟨g1, g2, g3, g4, g5, g6, g7⟩ := hg
  simp only [propTerm]
  have hg' : ginv raw (store ++ [getN store tv.2]) F :=
    ginv_extend raw store F _ ⟨g1, g2, g3, g4, g5, g6, g7⟩
  have hcopy : getN (store ++ [getN store tv.2]) store.length = getN store tv.2 :=
    getN_append_self store _
  have hid : (getN (store ++ [getN store tv.2]) store.length).id = tv.1 := by
    rw [hcopy]
    exact (g1 tv htv).2
  cases hFt : dget? F tid with
  | none =>
    rw [propEdge_no_tree tid tv.1 store.length _
      ((store ++ [getN store tv.2], F, had) : Store × Forest × Bool) hFt]
    exact hg'
  | some t =>
    rcases propEdges_cases tid tv.1 store.length
        ((getN (store ++ [getN store tv.2]) store.length).is_a)
        (store ++ [getN store tv.2]) F had t hFt with h | ⟨a, pr, _, hta, hterm, heq⟩
    · rw [h]
      exact hg'
    · rw [heq]
      apply ginv_insert raw (store ++ [getN store tv.2]) F tid tv.1 t store.length a pr
        hg' hFt hta hterm
      · simp
      · intro tt htt kv hkv
        exact Nat.ne_of_lt (g4 tt htt kv hkv)
      · intro tv' htv'
        exact Nat.ne_of_lt (g1 tv' htv').1
      · exact hid
      · exact hne tv htv

theorem propPass_preserves (raw : Dict Nat) (hne : keysNonempty raw)
    (store : Store) (F : Forest) (hg : ginv raw store F) :
    ginv raw (propPass raw store F).1 (propPass raw store F).2.1 := by
  rw [propPass]
  apply foldl_invariant (fun acc tid => raw.foldl (propTerm tid) acc)
    (fun s => ginv raw s.1 s.2.1) _ _ hg
  intro s tid _ hs
  apply foldl_invariant (propTerm tid) (fun s => ginv raw s.1 s.2.1) raw s hs
  intro s' tv htv hs'
  exact propTerm_preserves raw tid hne s' tv htv hs'

theorem propLoop_preserves :
    ∀ (fuel : Nat) (raw : Dict Nat) (store : Store) (F : Forest) (st' : Store)
      (F' : Forest),
    keysNonempty raw → ginv raw store F →
    propLoop fuel raw store F = some (st', F') → ginv raw st' F' := by
  intro fuel
  induction fuel with
  | zero =>
    intro raw store F st' F' _ _ h
    simp [propLoop] at h
  | succ f ih =>
    intro raw store F st' F' hne hg hloop
    rcases hpp : propPass raw store F with ⟨s1, f1, b⟩
    have hpres := propPass_preserves raw hne store F hg
    rw [hpp] at hpres
    simp only [propLoop] at hloop
    rw [hpp] at hloop
    cases b with
    | false =>
      simp at hloop
      obtain ⟨h1, h2⟩ := hloop
      rw [← h1, ← h2]
      exact hpres
    | true =>
      simp at hloop
      exact ih raw s1 f1 st' F' hne hpres hloop

theorem annotateNode_idem (n : Node) : annotateNode (annotateNode n) = annotateNode n := rfl

theorem annotateTree_getN : ∀ (t : Tree) (st : Store),
    (annotateTree st t).length = st.length ∧
    (∀ r, (∃ kv ∈ t, kv.2 = r) → r < st.length →
      getN (annotateTree st t) r = annotateNode (getN st r)) ∧
    (∀ r, (∀ kv ∈ t, kv.2 ≠ r) → getN (annotateTree st t) r = getN st r) := by
  intro t
  induction t with
  | nil =>
    intro st
    refine ⟨rfl, ?_, fun r _ => rfl⟩
    rintro r ⟨kv, hkv, _⟩ _
    simp at hkv
  | cons kv rest ih =>
    intro st
    rw [annotateTree, List.foldl_cons]
    have hstep : (rest.foldl (fun st2 kv2 => setN st2 kv2.2 (annotateNode (getN st2 kv2.2)))
        (setN st kv.2 (annotateNode (getN st kv.2)))) =
        annotateTree (setN st kv.2 (annotateNode (getN st kv.2))) rest := rfl
    rw [hstep]
    obtain ⟨ihlen, ihtouch, ihskip⟩ := ih (setN st kv.2 (annotateNode (getN st kv.2)))
    refine ⟨by rw [ihlen, length_setN], ?_, ?_⟩
    · rintro r ⟨kv', hkv', hr⟩ hlt
      by_cases hrest : ∃ kv2 ∈ rest, kv2.2 = r
      · rw [ihtouch r hrest (by rw [length_setN]; exact hlt)]
        by_cases hkvr : kv.2 = r
        · rw [← hkvr, getN_setN_self st kv.2 _ (hkvr ▸ hlt), annotateNode_idem, hkvr]
        · rw [getN_setN_ne st kv.2 r _ hkvr]
      · have hkvr : kv.2 = r := by
          rcases List.mem_cons.mp hkv' with h1 | h2
          · rw [h1] at hr
            exact hr
          · exact absurd ⟨kv', h2, hr⟩ hrest
        rw [ihskip r (fun kv2 hkv2 he => hrest ⟨kv2, hkv2, he⟩), ← hkvr,
          getN_setN_self st kv.2 _ (hkvr ▸ hlt)]
    · intro r hall
      have hkvr : kv.2 ≠ r := hall kv (List.mem_cons_self _ _)
      rw [ihskip r (fun kv2 hkv2 => hall kv2 (List.mem_cons_of_mem _ hkv2)),
        getN_setN_ne st kv.2 r _ hkvr]

theorem annotateAll_getN : ∀ (F : Forest) (st : Store),
    (annotateAll st F).length = st.length ∧
    (∀ r, (∃ tt ∈ F, ∃ kv ∈ tt.2, kv.2 = r) → r < st.length →
      getN (annotateAll st F) r = annotateNode (getN st r)) ∧
    (∀ r, (∀ tt ∈ F, ∀ kv ∈ tt.2, kv.2 ≠ r) → getN (annotateAll st F) r = getN st r) := by
  intro F
  induction F with
  | nil =>
    intro st
    refine ⟨rfl, ?_, fun r _ => rfl⟩
    rintro r ⟨tt, htt, _⟩ _
    simp at htt
  | cons tt rest ih =>
    intro st
    rw [annotateAll, List.foldl_cons]
    have hstep : (rest.foldl (fun st2 tt2 => annotateTree st2 tt2.2) (annotateTree st tt.2)) =
        annotateAll (annotateTree st tt.2) rest := rfl
    rw [hstep]
    obtain ⟨tlen, ttouch, tskip⟩ := annotateTree_getN tt.2 st
    obtain ⟨ihlen, ihtouch, ihskip⟩ := ih (annotateTree st tt.2)
    refine ⟨by rw [ihlen, tlen], ?_, ?_⟩
    · rintro r ⟨tt', htt', kv, hkv, hr⟩ hlt
      by_cases hrest : ∃ tt2 ∈ rest, ∃ kv2 ∈ tt2.2, kv2.2 = r
      · rw [ihtouch r hrest (by rw [tlen]; exact hlt)]
        by_cases hhead : ∃ kv2 ∈ tt.2, kv2.2 = r
        · rw [ttouch r hhead hlt, annotateNode_idem]
        · rw [tskip r (fun kv2 hkv2 he => hhead ⟨kv2, hkv2, he⟩)]
      · have hhead : ∃ kv2 ∈ tt.2, kv2.2 = r := by
          rcases List.mem_cons.mp htt' with h1 | h2
          · rw [h1] at hkv
            exact ⟨kv, hkv, hr⟩
          · exact absurd ⟨tt', h2, kv, hkv, hr⟩ hrest
        rw [ihskip r (fun tt2 htt2 kv2 hkv2 he => hrest ⟨tt2, htt2, kv2, hkv2, he⟩),
          ttouch r hhead hlt]
    · intro r hall
      rw [ihskip r (fun tt2 htt2 kv2 hkv2 => hall tt2 (List.mem_cons_of_mem _ htt2) kv2 hkv2),
        tskip r (fun kv2 hkv2 => hall tt (List.mem_cons_self _ _) kv2 hkv2)]

theorem pruneForest_sound (F F' : Forest) (mns : Option Int)
    (hnd : (dkeys F).Nodup) (hp : pruneForest mns F = some F') :
    (dkeys F').Nodup ∧ ∀ k, dget? F' k = none ∨ dget? F' k = dget? F k := by
  cases mns with
  | none =>
    rw [pruneForest] at hp
    have : F = F' := Option.some_inj.mp hp
    subst this
    exact ⟨hnd, fun k => Or.inr rfl⟩
  | some n =>
    rw [pruneForest] at hp
    by_cases hn : n = 0
    · rw [if_pos hn] at hp
      have : F = F' := Option.some_inj.mp hp
      subst this
      exact ⟨hnd, fun k => Or.inr rfl⟩
    · rw [if_neg hn] at hp
      have hsub : ((F.filter (fun tt => (tt.2.length : Int) < n)).map Prod.fst).Sublist
          (dkeys F) := List.Sublist.map Prod.fst (List.filter_sublist F)
      have hdnd := List.Nodup.sublist hsub hnd
      have hdmem : ∀ k ∈ (F.filter (fun tt => (tt.2.length : Int) < n)).map Prod.fst,
          dmem F k = true := by
        intro k hk
        obtain ⟨t, hget, _⟩ := (mem_pruneDrops F n k hnd).mp hk
        rw [dmem, hget]
        rfl
      obtain ⟨F'', hfold, hnd'', hchar⟩ :=
        foldlM_pydel_spec ((F.filter (fun tt => (tt.2.length : Int) < n)).map Prod.fst)
          F hnd hdnd hdmem
      rw [hfold] at hp
      have : F'' = F' := Option.some_inj.mp hp
      subst this
      refine ⟨hnd'', ?_⟩
      intro k
      rw [hchar k]
      by_cases hk : k ∈ (F.filter (fun tt => (tt.2.length : Int) < n)).map Prod.fst
      · rw [if_pos hk]
        exact Or.inl rfl
      · rw [if_neg hk]
        exact Or.inr rfl

theorem cleanupLoop_sound : ∀ (fuel : Nat) (store : Store) (F F' : Forest),
    nodupForest F → cleanupLoop fuel store F = some F' →
    nodupForest F' ∧ closureInv store F' ∧
      ∀ tid t', dget? F' tid = some t' → ∃ t, dget? F tid = some t ∧
        ∀ k, dget? t' k = none ∨ dget? t' k = dget? t k := by
  intro fuel
  induction fuel with
  | zero =>
    intro store F F' _ h
    simp [cleanupLoop] at h
  | succ f ih =>
    intro store F F' hnd hloop
    by_cases hbad : cleanupGather store F = []
    · rw [cleanupLoop] at hloop
      rw [if_pos hbad] at hloop
      have : F = F' := Option.some_inj.mp hloop
      subst this
      refine ⟨hnd, closureInv_of_gather_nil store F hbad, ?_⟩
      intro tid t' h
      exact ⟨t', h, fun k => Or.inr rfl⟩
    · have hbnd := cleanupGather_nodup store F hnd
      have hpres := cleanupGather_present store F hnd
      obtain ⟨F₁, hfold, hnd₁, _, hchar₁, _⟩ :=
        foldlM_delPair_spec (cleanupGather store F) F hnd hbnd hpres
      rw [cleanupLoop, if_neg hbad, hfold] at hloop
      obtain ⟨hnd', hclos, hchar'⟩ := ih store F₁ F' hnd₁ hloop
      refine ⟨hnd', hclos, ?_⟩
      intro tid t'' h''
      obtain ⟨t₁, hg₁, hc₁⟩ := hchar' tid t'' h''
      obtain ⟨t, hg, hc⟩ := hchar₁ tid t₁ hg₁
      refine ⟨t, hg, fun k => ?_⟩
      rcases hc₁ k with h1 | h2
      · exact Or.inl h1
      · rw [h2, hc k]
        by_cases hk : (tid, k) ∈ cleanupGather store F
        · exact Or.inl (by rw [if_pos hk])
        · exact Or.inr (by rw [if_neg hk])

theorem seedExplicit_shape (rid : String) :
    ∀ (entries : List (String × Nat)) (acc : Store × Forest),
    (∀ tv ∈ entries, tv.2 < acc.1.length) →
    (entries.foldl (seedStep rid) acc).1.length = acc.1.length ∧
    ((dkeys acc.2).Nodup → (dkeys (entries.foldl (seedStep rid) acc).2).Nodup) ∧
    (∀ tt ∈ (entries.foldl (seedStep rid) acc).2,
      tt ∈ acc.2 ∨ ∃ r, (tt.1, r) ∈ entries ∧ tt.2 = [(tt.1, r)]) := by
  intro entries
  induction entries with
  | nil =>
    intro acc _
    exact ⟨rfl, fun h => h, fun tt htt => Or.inl htt⟩
  | cons tv rest ih =>
    intro acc hlt
    rw [List.foldl_cons]
    have hr : tv.2 < acc.1.length := hlt tv (List.mem_cons_self _ _)
    have hstep := seedStep_eq rid acc tv hr
    by_cases hcond : rid ∈ (getN acc.1 tv.2).is_a
    · rw [hstep, if_pos hcond]
      have hlen1 : ((setN acc.1 tv.2 { getN acc.1 tv.2 with level := 0, parent := "" },
          dset acc.2 tv.1 [(tv.1, tv.2)]) : Store × Forest).1.length = acc.1.length :=
        length_setN acc.1 tv.2 _
      obtain ⟨l1, l2, l3⟩ := ih (setN acc.1 tv.2 { getN acc.1 tv.2 with
          level := 0, parent := "" }, dset acc.2 tv.1 [(tv.1, tv.2)])
        (fun tv' h => by rw [hlen1]; exact hlt tv' (List.mem_cons_of_mem _ h))
      refine ⟨l1.trans hlen1, ?_, ?_⟩
      · intro hnd
        exact l2 (nodup_dset acc.2 tv.1 _ hnd)
      · intro tt htt
        rcases l3 tt htt with h1 | ⟨r, hr1, hr2⟩
        · rcases mem_dset acc.2 tv.1 [(tv.1, tv.2)] tt h1 with h2 | h3
          · have e1 : tt.1 = tv.1 := by rw [h2]
            have e2 : tt.2 = [(tv.1, tv.2)] := by rw [h2]
            right
            refine ⟨tv.2, ?_, ?_⟩
            · rw [e1]
              exact List.mem_cons_self _ _
            · rw [e2, e1]
          · exact Or.inl h3
        · exact Or.inr ⟨r, List.mem_cons_of_mem _ hr1, hr2⟩
    · rw [hstep, if_neg hcond]
      obtain ⟨l1, l2, l3⟩ := ih acc (fun tv' h => hlt tv' (List.mem_cons_of_mem _ h))
      refine ⟨l1, l2, ?_⟩
      intro tt htt
      rcases l3 tt htt with h1 | ⟨r, hr1, hr2⟩
      · exact Or.inl h1
      · exact Or.inr ⟨r, List.mem_cons_of_mem _ hr1, hr2⟩

theorem seedAuto_shape (raw : Dict Nat) :
    ∀ (rts : List String) (acc res : Store × Forest),
    List.foldlM (seedAutoStep raw) acc rts = some res →
    res.1.length = acc.1.length ∧
    ((dkeys acc.2).Nodup → (dkeys res.2).Nodup) ∧
    (∀ tt ∈ res.2, tt ∈ acc.2 ∨ ∃ r, dget? raw tt.1 = some r ∧ tt.2 = [(tt.1, r)]) := by
  intro rts
  induction rts with
  | nil =>
    intro acc res h
    have he : acc = res := Option.some_inj.mp h
    subst he
    exact ⟨rfl, fun hh => hh, fun tt htt => Or.inl htt⟩
  | cons rt rest ih =>
    intro acc res h
    cases hget : dget? raw rt with
    | none =>
      simp only [List.foldlM, seedAutoStep, hget] at h
      simp at h
    | some r =>
      simp only [List.foldlM, seedAutoStep, hget, Option.some_bind] at h
      obtain ⟨l1, l2, l3⟩ := ih (setN acc.1 r { getN acc.1 r with
          level := 0, parent := "" }, dset acc.2 rt [(rt, r)]) res h
      have hlen1 : ((setN acc.1 r { getN acc.1 r with level := 0, parent := "" },
          dset acc.2 rt [(rt, r)]) : Store × Forest).1.length = acc.1.length :=
        length_setN acc.1 r _
      refine ⟨l1.trans hlen1, ?_, ?_⟩
      · intro hnd
        exact l2 (nodup_dset acc.2 rt _ hnd)
      · intro tt htt
        rcases l3 tt htt with h1 | ⟨r', hr1, hr2⟩
        · rcases mem_dset acc.2 rt [(rt, r)] tt h1 with h2 | h3
          · have e1 : tt.1 = rt := by rw [h2]
            have e2 : tt.2 = [(rt, r)] := by rw [h2]
            right
            refine ⟨r, ?_, ?_⟩
            · rw [e1]
              exact hget
            · rw [e2, e1]
          · exact Or.inl h3
        · exact Or.inr ⟨r', hr1, hr2⟩

theorem ginv_of_seed (store : Store) (raw : Dict Nat) (res : Store × Forest)
    (hwf : wfRaw store raw) (hne : keysNonempty raw) (hrr : rawRefsNodup raw)
    (hpres : storePreserves store res.1)
    (hnd : (dkeys res.2).Nodup)
    (hshape : ∀ tt ∈ res.2, ∃ r, dget? raw tt.1 = some r ∧ tt.2 = [(tt.1, r)] ∧
      getN res.1 r = seededNode store r) :
    ginv raw res.1 res.2 := by
  refine ⟨?_, hnd, ?_, ?_, ?_, ?_, ?_⟩
  · intro tv htv
    refine ⟨?_, ?_⟩
    · rw [hpres.1]
      exact (hwf.2 tv htv).1
    · rw [storePreserves_id store res.1 hpres tv.2]
      exact (hwf.2 tv htv).2
  · intro tt htt
    obtain ⟨r, _, hshp, _⟩ := hshape tt htt
    rw [hshp]
    simp [dkeys]
  · intro tt htt kv hkv
    obtain ⟨r, hraw, hshp, _⟩ := hshape tt htt
    rw [hshp] at hkv
    have hkv' : kv = (tt.1, r) := List.mem_singleton.mp hkv
    have hr2 : kv.2 = r := by rw [hkv']
    rw [hr2, hpres.1]
    exact (hwf.2 (tt.1, r) (mem_of_dget?_eq_some raw tt.1 r hraw)).1
  · intro tt htt kv hkv
    obtain ⟨r, hraw, hshp, hrec⟩ := hshape tt htt
    rw [hshp] at hkv
    have hkv' : kv = (tt.1, r) := List.mem_singleton.mp hkv
    have hr1 : kv.1 = tt.1 := by rw [hkv']
    have hr2 : kv.2 = r := by rw [hkv']
    rw [hr1, hr2, hrec]
    refine ⟨?_, ?_, ?_⟩
    · show (getN store r).id = tt.1
      exact (hwf.2 (tt.1, r) (mem_of_dget?_eq_some raw tt.1 r hraw)).2
    · intro _
      rfl
    · intro hpar
      exact absurd rfl hpar
  · intro tt1 h1 tt2 h2 kv1 hkv1 kv2 hkv2 hnep
    obtain ⟨r1, hraw1, hshp1, _⟩ := hshape tt1 h1
    obtain ⟨r2, hraw2, hshp2, _⟩ := hshape tt2 h2
    rw [hshp1] at hkv1
    rw [hshp2] at hkv2
    have e1 : kv1 = (tt1.1, r1) := List.mem_singleton.mp hkv1
    have e2 : kv2 = (tt2.1, r2) := List.mem_singleton.mp hkv2
    have e12 : kv1.2 = r1 := by rw [e1]
    have e22 : kv2.2 = r2 := by rw [e2]
    have e11 : kv1.1 = tt1.1 := by rw [e1]
    have e21 : kv2.1 = tt2.1 := by rw [e2]
    rw [e12, e22]
    by_cases hkk : tt1.1 = tt2.1
    · exfalso
      apply hnep
      rw [e11, e21, hkk]
    · intro hrr'
      apply hkk
      have hm1 : (tt1.1, r1) ∈ raw := mem_of_dget?_eq_some raw tt1.1 r1 hraw1
      have hm2 : (tt2.1, r2) ∈ raw := mem_of_dget?_eq_some raw tt2.1 r2 hraw2
      have := List.inj_on_of_nodup_map hrr hm1 hm2 (by
        show r1 = r2
        exact hrr')
      rw [show tt1.1 = ((tt1.1, r1) : String × Nat).1 from rfl, this]
  · intro tt htt kv hkv
    obtain ⟨r, hraw, hshp, _⟩ := hshape tt htt
    rw [hshp] at hkv
    have hkv' : kv = (tt.1, r) := List.mem_singleton.mp hkv
    have hr1 : kv.1 = tt.1 := by rw [hkv']
    rw [hr1]
    exact hne (tt.1, r) (mem_of_dget?_eq_some raw tt.1 r hraw)

theorem seedTrees_ginv (store : Store) (raw : Dict Nat) (root_id : Option String)
    (hwf : wfRaw store raw) (hne : keysNonempty raw) (hrr : rawRefsNodup raw)
    (res : Store × Forest) (hseed : seedTrees root_id store raw = some res) :
    ginv raw res.1 res.2 := by
  have hauto : seedAuto store raw = some res → ginv raw res.1 res.2 := by
    intro hs
    obtain ⟨res', hres', hpres, hmemc, hchar⟩ := seedAuto_spec store raw hwf
    rw [hs] at hres'
    have hEq : res' = res := Option.some_inj.mp hres'.symm
    rw [hEq] at hpres hmemc hchar
    have hs' : List.foldlM (seedAutoStep raw)
        ((store, ([] : Forest)) : Store × Forest)
        ((raw.filter (fun tv => (getN store tv.2).is_a = [])).map
          (fun tv => (getN store tv.2).id)) = some res := by
      rw [← hs]
      rfl
    obtain ⟨_, l2, l3⟩ := seedAuto_shape raw _ _ res hs'
    apply ginv_of_seed store raw res hwf hne hrr hpres (l2 (by simp [dkeys]))
    intro tt htt
    rcases l3 tt htt with h1 | ⟨r, hr1, hr2⟩
    · simp at h1
    · have hlook : dget? res.2 tt.1 = some tt.2 :=
        dget?_eq_some_of_mem res.2 tt.1 tt.2 (l2 (by simp [dkeys])) htt
      obtain ⟨r', hraw', _, hT', hrec'⟩ := hchar tt.1 tt.2 hlook
      have : r = r' := by
        rw [hr1] at hraw'
        exact Option.some_inj.mp hraw'
      subst this
      exact ⟨r, hr1, hr2, hrec'⟩
  cases root_id with
  | none => exact hauto hseed
  | some rid =>
    by_cases hrid : rid = ""
    · rw [seedTrees, hrid, if_pos rfl] at hseed
      exact hauto hseed
    · rw [seedTrees, if_neg hrid] at hseed
      have hres : res = seedExplicit rid store raw := (Option.some_inj.mp hseed).symm
      subst hres
      obtain ⟨hpres, hmemc, hchar⟩ := seedExplicit_spec rid store raw hwf
      have hsh := seedExplicit_shape rid raw ((store, ([] : Forest)) : Store × Forest)
        (fun tv htv => (hwf.2 tv htv).1)
      obtain ⟨_, l2, l3⟩ := hsh
      have hnd : (dkeys (seedExplicit rid store raw).2).Nodup := l2 (by simp [dkeys])
      apply ginv_of_seed store raw _ hwf hne hrr hpres hnd
      intro tt htt
      rcases l3 tt htt with h1 | ⟨r, hr1, hr2⟩
      · simp at h1
      · have hraw : dget? raw tt.1 = some r := by
          have e1 : ((tt.1, r) : String × Nat).1 = tt.1 := rfl
          exact e1 ▸ dget?_eq_some_of_mem raw tt.1 r hwf.1 hr1
        have hlook : dget? (seedExplicit rid store raw).2 tt.1 = some tt.2 :=
          dget?_eq_some_of_mem _ tt.1 tt.2 hnd htt
        obtain ⟨r', hraw', _, hT', hrec'⟩ := hchar tt.1 tt.2 hlook
        have : r = r' := by
          rw [hraw] at hraw'
          exact Option.some_inj.mp hraw'
        subst this
        exact ⟨r, hraw, hr2, hrec'⟩

theorem ginv_subforest (raw : Dict Nat) (store : Store) (F F' : Forest)
    (hg : ginv raw store F)
    (hnd2 : (dkeys F').Nodup)
    (hnd3 : ∀ tt ∈ F', (dkeys tt.2).Nodup)
    (hclos : closureInv store F')
    (htrans : ∀ tt ∈ F', ∃ t, (tt.1, t) ∈ F ∧
      (∀ kv ∈ tt.2, kv ∈ t) ∧ (∀ p pv, dget? tt.2 p = some pv → dget? t p = some pv)) :
    ginv raw store F' := by
  obtain ⟨g1, g2, g3, g4, g5, g6, g7⟩ := hg
  refine ⟨g1, hnd2, hnd3, ?_, ?_, ?_, ?_⟩
  · intro tt htt kv hkv
    obtain ⟨t, htF, hsub, _⟩ := htrans tt htt
    exact g4 (tt.1, t) htF kv (hsub kv hkv)
  · intro tt htt kv hkv
    obtain ⟨t, htF, hsub, hemb⟩ := htrans tt htt
    obtain ⟨s1, s2, s3⟩ := g5 (tt.1, t) htF kv (hsub kv hkv)
    refine ⟨s1, s2, ?_⟩
    intro hpar
    have hdm := hclos tt htt kv hkv hpar
    rw [dmem] at hdm
    cases hpv : dget? tt.2 (getN store kv.2).parent with
    | none =>
      rw [hpv] at hdm
      simp at hdm
    | some pv =>
      obtain ⟨pr, hpr, hlev⟩ := s3 hpar
      have hpt : dget? t (getN store kv.2).parent = some pv := hemb _ pv hpv
      have hpve : pv = pr := by
        rw [hpt] at hpr
        exact Option.some_inj.mp hpr
      exact ⟨pv, rfl, by rw [hpve]; exact hlev⟩
  · intro tt1 h1 tt2 h2 kv1 hkv1 kv2 hkv2 hnep
    obtain ⟨t1, htF1, hsub1, _⟩ := htrans tt1 h1
    obtain ⟨t2, htF2, hsub2, _⟩ := htrans tt2 h2
    exact g6 (tt1.1, t1) htF1 (tt2.1, t2) htF2 kv1 (hsub1 kv1 hkv1) kv2
      (hsub2 kv2 hkv2) hnep
  · intro tt htt kv hkv
    obtain ⟨t, htF, hsub, _⟩ := htrans tt htt
    exact g7 (tt.1, t) htF kv (hsub kv hkv)

theorem cleanup_htrans (F F' : Forest)
    (hnd' : nodupForest F')
    (hchar : ∀ tid t', dget? F' tid = some t' → ∃ t, dget? F tid = some t ∧
      ∀ k, dget? t' k = none ∨ dget? t' k = dget? t k) :
    ∀ tt ∈ F', ∃ t, (tt.1, t) ∈ F ∧ (∀ kv ∈ tt.2, kv ∈ t) ∧
      (∀ p pv, dget? tt.2 p = some pv → dget? t p = some pv) := by
  intro tt htt
  have hlook : dget? F' tt.1 = some tt.2 := dget?_eq_some_of_mem _ _ _ hnd'.1 htt
  obtain ⟨t, hgt, hc⟩ := hchar tt.1 tt.2 hlook
  refine ⟨t, mem_of_dget?_eq_some F tt.1 t hgt, ?_, ?_⟩
  · intro kv hkv
    have hl : dget? tt.2 kv.1 = some kv.2 :=
      dget?_eq_some_of_mem _ _ _ (hnd'.2 tt htt) hkv
    rcases hc kv.1 with h1 | h2
    · rw [hl] at h1
      simp at h1
    · rw [hl] at h2
      exact mem_of_dget?_eq_some t kv.1 kv.2 h2.symm
  · intro p pv hpv
    rcases hc p with h1 | h2
    · rw [hpv] at h1
      simp at h1
    · rw [hpv] at h2
      exact h2.symm

theorem buildCore_unfold (fuel : Nat) (store : Store) (raw : Dict Nat)
    (root_id : Option String) (out : Store × Forest)
    (h : buildCore fuel store raw root_id = some out) :
    ∃ s1 f1 s2 f2 f3, seedTrees root_id store raw = some (s1, f1) ∧
      propLoop fuel raw s1 f1 = some (s2, f2) ∧
      cleanupLoop fuel s2 f2 = some f3 ∧ out = (s2, f3) := by
  rw [buildCore] at h
  cases hs : seedTrees root_id store raw with
  | none =>
    rw [hs] at h
    simp at h
  | some p1 =>
    rw [hs] at h
    obtain ⟨s1, f1⟩ := p1
    cases hp : propLoop fuel raw s1 f1 with
    | none =>
      simp [hp] at h
    | some p2 =>
      obtain ⟨s2, f2⟩ := p2
      cases hc : cleanupLoop fuel s2 f2 with
      | none =>
        simp [hp, hc] at h
      | some f3 =>
        simp [hp, hc] at h
        exact ⟨s1, f1, s2, f2, f3, rfl, hp, hc, h.symm⟩

theorem build_unfold (fuel : Nat) (store : Store) (raw : Dict Nat)
    (root_id : Option String) (mns : Option Int) (res : Store × Forest)
    (h : build_tree_from_obo_ontology fuel store raw root_id mns = some res) :
    raw ≠ [] ∧ ∃ s2 f3 f4, buildCore fuel store raw root_id = some (s2, f3) ∧
      pruneForest mns f3 = some f4 ∧ res = (annotateAll s2 f3, f4) := by
  rw [build_tree_from_obo_ontology] at h
  by_cases hraw : raw = []
  · rw [if_pos hraw] at h
    simp at h
  · rw [if_neg hraw] at h
    refine ⟨hraw, ?_⟩
    cases hcore : buildCore fuel store raw root_id with
    | none =>
      rw [hcore] at h
      simp at h
    | some p1 =>
      rw [hcore] at h
      obtain ⟨s2, f3⟩ := p1
      cases hprune : pruneForest mns f3 with
      | none =>
        simp [hprune] at h
      | some f4 =>
        simp [hprune] at h
        exact ⟨s2, f3, f4, rfl, hprune, h.symm⟩

theorem build_graph_master (fuel : Nat) (store : Store) (raw : Dict Nat)
    (root_id : Option String) (mns : Option Int) (res : Store × Forest)
    (hwf : wfRaw store raw) (hne : keysNonempty raw) (hrr : rawRefsNodup raw)
    (hbuild : build_tree_from_obo_ontology fuel store raw root_id mns = some res) :
    ∃ s2 f3, res.1 = annotateAll s2 f3 ∧
      ginv raw s2 f3 ∧ closureInv s2 f3 ∧
      ginv raw s2 res.2 ∧ closureInv s2 res.2 ∧
      (∀ tt ∈ res.2, (tt.1, tt.2) ∈ f3) ∧
      pruneForest mns f3 = some res.2 := by
  obtain ⟨hraw, s2, f3, f4, hcore, hprune, hres⟩ :=
    build_unfold fuel store raw root_id mns res hbuild
  obtain ⟨s1, f1, s2', f2, f3', hseed, hprop, hclean, hout⟩ :=
    buildCore_unfold fuel store raw root_id (s2, f3) hcore
  have hs2 : s2 = s2' := congrArg Prod.fst hout
  have hf3 : f3 = f3' := congrArg Prod.snd hout
  subst hs2
  subst hf3
  have hg1 : ginv raw s1 f1 := seedTrees_ginv store raw root_id hwf hne hrr (s1, f1) hseed
  have hg2 : ginv raw s2 f2 := propLoop_preserves fuel raw s1 f1 s2 f2 hne hg1 hprop
  have hndf2 : nodupForest f2 := ⟨hg2.2.1, hg2.2.2.1⟩
  obtain ⟨hndf3, hclos3, hchar3⟩ := cleanupLoop_sound fuel s2 f2 f3 hndf2 hclean
  have hg3 : ginv raw s2 f3 := ginv_subforest raw s2 f2 f3 hg2 hndf3.1 hndf3.2 hclos3
    (cleanup_htrans f2 f3 hndf3 hchar3)
  have hres2 : res.2 = f4 := by
    rw [hres]
  rw [← hres2] at hprune
  obtain ⟨hndk4, hchar4⟩ := pruneForest_sound f3 res.2 mns hndf3.1 hprune
  have htrans4 : ∀ tt ∈ res.2, (tt.1, tt.2) ∈ f3 := by
    intro tt htt
    have hlook : dget? res.2 tt.1 = some tt.2 := dget?_eq_some_of_mem _ _ _ hndk4 htt
    rcases hchar4 tt.1 with h1 | h2
    · rw [hlook] at h1
      simp at h1
    · rw [hlook] at h2
      exact mem_of_dget?_eq_some f3 tt.1 tt.2 h2.symm
  have hnd4in : ∀ tt ∈ res.2, (dkeys tt.2).Nodup :=
    fun tt htt => hg3.2.2.1 (tt.1, tt.2) (htrans4 tt htt)
  have hclos4 : closureInv s2 res.2 := by
    intro tt htt kv hkv hpar
    exact hclos3 (tt.1, tt.2) (htrans4 tt htt) kv hkv hpar
  have hg4 : ginv raw s2 res.2 := ginv_subforest raw s2 f3 res.2 hg3 hndk4 hnd4in hclos4
    (fun tt htt => ⟨tt.2, htrans4 tt htt, fun kv hkv => hkv, fun p pv hp => hp⟩)
  have hres1 : res.1 = annotateAll s2 f3 := by
    rw [hres]
  exact ⟨s2, f3, hres1, hg3, hclos3, hg4, hclos4, htrans4, hprune⟩

/-! ## Flat-mode development: dictionary decomposition and key bookkeeping -/

theorem dset_decomp {α : Type} (d : Dict α) (k : String) (w : α)
    (h : dget? d k = some w) :
    ∃ P S, d = P ++ (k, w) :: S ∧ (∀ v, dset d k v = P ++ (k, v) :: S) ∧
      k ∉ List.map Prod.fst P := by
  induction d with
  | nil => simp [dget?] at h
  | cons p rest ih =>
    by_cases hp : p.1 = k
    · rw [dget?, if_pos hp, Option.some.injEq] at h
      refine ⟨[], rest, ?_, ?_, by simp⟩
      · obtain ⟨a, b⟩ := p
        simp only at hp h
        subst hp
        subst h
        rfl
      · intro v
        rw [dset, if_pos hp]
        obtain ⟨a, b⟩ := p
        simp only at hp
        subst hp
        rfl
    · rw [dget?, if_neg hp] at h
      obtain ⟨P, S, hd, hds, hkP⟩ := ih h
      refine ⟨p :: P, S, by rw [List.cons_append, ← hd], ?_, ?_⟩
      · intro v
        rw [dset, if_neg hp, hds v, List.cons_append]
      · simp only [List.map_cons, List.mem_cons, not_or]
        exact ⟨fun he => hp he.symm, hkP⟩

theorem dset_append_of_not_mem {α : Type} (d : Dict α) (k : String) (v : α)
    (h : dget? d k = none) : dset d k v = d ++ [(k, v)] := by
  induction d with
  | nil => rfl
  | cons p rest ih =>
    by_cases hp : p.1 = k
    · rw [dget?, if_pos hp] at h
      exact absurd h (by simp)
    · rw [dget?, if_neg hp] at h
      rw [dset, if_neg hp, ih h, List.cons_append]

theorem allKeys_append (A B : Forest) :
    allKeys (A ++ B) = allKeys A ++ allKeys B := by
  simp [allKeys]

theorem allKeys_cons (tt : String × Tree) (F : Forest) :
    allKeys (tt :: F) = dkeys tt.2 ++ allKeys F := rfl

theorem mem_allKeys (F : Forest) (x : String) :
    x ∈ allKeys F ↔ ∃ tt ∈ F, x ∈ dkeys tt.2 := by
  simp [allKeys, List.mem_flatMap]

theorem allKeys_nodup_disjoint : ∀ (F : Forest), (allKeys F).Nodup →
    List.Pairwise (fun tt tt' : String × Tree =>
      ∀ k, ¬(k ∈ dkeys tt.2 ∧ k ∈ dkeys tt'.2)) F := by
  intro F
  induction F with
  | nil => intro _; exact List.Pairwise.nil
  | cons tt rest ih =>
    intro h
    rw [allKeys_cons, List.nodup_append] at h
    refine List.Pairwise.cons ?_ (ih h.2.1)
    intro tt' htt' k ⟨hk, hk'⟩
    exact h.2.2 hk ((mem_allKeys rest k).mpr ⟨tt', htt', hk'⟩)

theorem keys_disjoint (F : Forest) (hout : (dkeys F).Nodup)
    (hak : (allKeys F).Nodup) (tid tid' : String) (t t' : Tree)
    (hne : tid ≠ tid') (h1 : dget? F tid = some t) (h2 : dget? F tid' = some t')
    (k : String) (hk : k ∈ dkeys t) : k ∉ dkeys t' := by
  have hm1 : (tid, t) ∈ F := mem_of_dget?_eq_some F tid t h1
  have hm2 : (tid', t') ∈ F := mem_of_dget?_eq_some F tid' t' h2
  have hpw := allKeys_nodup_disjoint F hak
  have hsym : Symmetric (fun tt tt' : String × Tree =>
      ∀ k, ¬(k ∈ dkeys tt.2 ∧ k ∈ dkeys tt'.2)) :=
    fun a b hab k hk => hab k ⟨hk.2, hk.1⟩
  have hdne : (tid, t) ≠ (tid', t') := fun he => hne (congrArg Prod.fst he)
  intro hk'
  exact hpw.forall hsym hm1 hm2 hdne k ⟨hk, hk'⟩

theorem outer_mem_allKeys (F : Forest) (hown : ∀ tt ∈ F, tt.1 ∈ dkeys tt.2)
    (tid : String) (h : tid ∈ dkeys F) : tid ∈ allKeys F := by
  obtain ⟨tt, htt, he⟩ := List.mem_map.mp h
  exact (mem_allKeys F tid).mpr ⟨tt, htt, he ▸ hown tt htt⟩

/-! ## Flat-mode development: deletion of descending indices -/

theorem removeIdxs_nil {α : Type} : ∀ (l : List α) (n : Nat),
    removeIdxs l [] n = l := by
  intro l
  induction l with
  | nil => intro n; rfl
  | cons x xs ih =>
    intro n
    rw [removeIdxs, if_neg (by simp)]
    rw [ih]

theorem removeIdxs_none {α : Type} : ∀ (l : List α) (ds : List Nat) (n : Nat),
    (∀ m, n ≤ m → m ∉ ds) → removeIdxs l ds n = l := by
  intro l
  induction l with
  | nil => intro ds n _; rfl
  | cons x xs ih =>
    intro ds n h
    rw [removeIdxs, if_neg (h n (Nat.le_refl n)), ih ds (n + 1)
      (fun m hm => h m (Nat.le_of_succ_le hm))]

theorem removeIdxs_congr {α : Type} : ∀ (l : List α) (ds ds' : List Nat) (n : Nat),
    (∀ m, n ≤ m → (m ∈ ds ↔ m ∈ ds')) → removeIdxs l ds n = removeIdxs l ds' n := by
  intro l
  induction l with
  | nil => intro ds ds' n _; rfl
  | cons x xs ih =>
    intro ds ds' n h
    have hrec := ih ds ds' (n + 1) (fun m hm => h m (Nat.le_of_succ_le hm))
    by_cases hn : n ∈ ds
    · rw [removeIdxs, if_pos hn, removeIdxs, if_pos ((h n (Nat.le_refl n)).mp hn), hrec]
    · rw [removeIdxs, if_neg hn, removeIdxs,
        if_neg (fun hc => hn ((h n (Nat.le_refl n)).mpr hc)), hrec]

theorem removeIdxs_sublist {α : Type} : ∀ (l : List α) (ds : List Nat) (n : Nat),
    (removeIdxs l ds n).Sublist l := by
  intro l
  induction l with
  | nil => intro ds n; exact List.Sublist.refl _
  | cons x xs ih =>
    intro ds n
    by_cases hn : n ∈ ds
    · rw [removeIdxs, if_pos hn]
      exact List.Sublist.cons x (ih ds (n + 1))
    · rw [removeIdxs, if_neg hn]
      exact List.Sublist.cons₂ x (ih ds (n + 1))

theorem delAt_lt {α : Type} : ∀ (l : List α) (d : Nat), d < l.length →
    delAt l d = some (l.eraseIdx d) := by
  intro l
  induction l with
  | nil => intro d h; simp at h
  | cons x xs ih =>
    intro d h
    cases d with
    | zero => rfl
    | succ d' =>
      rw [delAt, ih d' (by simpa using h)]
      rfl

theorem removeIdxs_eraseIdx {α : Type} : ∀ (l : List α) (ds : List Nat) (d n : Nat),
    (∀ e ∈ ds, e < d) → n ≤ d → d - n < l.length →
    removeIdxs l (d :: ds) n = removeIdxs (l.eraseIdx (d - n)) ds n := by
  intro l
  induction l with
  | nil => intro ds d n _ _ h; simp at h
  | cons x xs ih =>
    intro ds d n hds hn hd
    by_cases hnd : n = d
    · have hz : d - n = 0 := by omega
      rw [hz, List.eraseIdx_cons_zero, removeIdxs,
        if_pos (by rw [hnd]; exact List.mem_cons_self _ _)]
      rw [removeIdxs_none xs (d :: ds) (n + 1)
        (fun m hm hmem => by
          rcases List.mem_cons.mp hmem with h1 | h2
          · omega
          · exact absurd (hds m h2) (by omega))]
      rw [removeIdxs_none xs ds n
        (fun m hm hmem => absurd (hds m hmem) (by omega))]
    · have hlt : n < d := Nat.lt_of_le_of_ne hn hnd
      have hsub : d - n = (d - (n + 1)) + 1 := by omega
      rw [hsub, List.eraseIdx_cons_succ]
      have hrec := ih ds d (n + 1) hds (by omega) (by
        rw [List.length_cons] at hd
        omega)
      by_cases hmem : n ∈ ds
      · rw [removeIdxs, if_pos (List.mem_cons_of_mem _ hmem), removeIdxs,
          if_pos hmem, hrec]
      · have hmem' : n ∉ d :: ds := by
          intro hc
          rcases List.mem_cons.mp hc with h1 | h2
          · exact hnd h1
          · exact hmem h2
        rw [removeIdxs, if_neg hmem', removeIdxs, if_neg hmem, hrec]

theorem pydelMany_desc {α : Type} : ∀ (ds : List Nat) (l : List α),
    List.Pairwise (· > ·) ds → (∀ d ∈ ds, d < l.length) →
    pydelMany l ds = some (removeIdxs l ds 0) := by
  intro ds
  induction ds with
  | nil =>
    intro l _ _
    rw [pydelMany, removeIdxs_nil]
  | cons d rest ih =>
    intro l hpw hbd
    have hd : d < l.length := hbd d (List.mem_cons_self _ _)
    rw [pydelMany, delAt_lt l d hd]
    show pydelMany (l.eraseIdx d) rest = some (removeIdxs l (d :: rest) 0)
    have hlen : (l.eraseIdx d).length = l.length - 1 := by
      rw [List.length_eraseIdx]
      simp [hd]
    have hrest : ∀ e ∈ rest, e < (l.eraseIdx d).length := by
      intro e he
      have h1 : e < d := List.rel_of_pairwise_cons hpw he
      omega
    rw [ih (l.eraseIdx d) (List.Pairwise.sublist (List.sublist_cons_self d rest) hpw) hrest]
    have hfin := removeIdxs_eraseIdx l rest d 0
      (fun e he => List.rel_of_pairwise_cons hpw he) (Nat.zero_le d) (by simpa using hd)
    rw [Nat.sub_zero] at hfin
    rw [hfin]

theorem mem_insertDesc (x y : Nat) : ∀ (l : List Nat),
    y ∈ insertDesc x l ↔ y = x ∨ y ∈ l := by
  intro l
  induction l with
  | nil => simp [insertDesc]
  | cons z zs ih =>
    by_cases h : x ≥ z
    · rw [insertDesc, if_pos h]
      simp
    · rw [insertDesc, if_neg h]
      simp only [List.mem_cons, ih]
      tauto

theorem mem_sortDesc (x : Nat) : ∀ (l : List Nat), x ∈ sortDesc l ↔ x ∈ l := by
  intro l
  induction l with
  | nil => simp [sortDesc]
  | cons y ys ih =>
    rw [sortDesc, List.foldr_cons]
    have hys : ys.foldr insertDesc [] = sortDesc ys := rfl
    rw [hys, mem_insertDesc]
    simp [ih]

theorem insertDesc_append {α : Type} (x : Nat) : ∀ (l : List Nat),
    (∀ y ∈ l, x < y) → insertDesc x l = l ++ [x] := by
  intro l
  induction l with
  | nil => intro _; rfl
  | cons z zs ih =>
    intro h
    have hz : x < z := h z (List.mem_cons_self _ _)
    rw [insertDesc, if_neg (by omega), ih (fun y hy => h y (List.mem_cons_of_mem _ hy)),
      List.cons_append]

theorem sortDesc_of_ascending : ∀ (ds : List Nat), List.Pairwise (· < ·) ds →
    sortDesc ds = ds.reverse := by
  intro ds
  induction ds with
  | nil => intro _; rfl
  | cons d rest ih =>
    intro hpw
    rw [sortDesc, List.foldr_cons]
    have hrest : rest.foldr insertDesc [] = sortDesc rest := rfl
    rw [hrest, insertDesc_append (α := Nat) d (sortDesc rest) (fun y hy =>
      List.rel_of_pairwise_cons hpw ((mem_sortDesc y rest).mp hy)),
      ih (List.Pairwise.sublist (List.sublist_cons_self d rest) hpw), List.reverse_cons]

theorem pydelMany_sortDesc {α : Type} (ds : List Nat) (l : List α)
    (hpw : List.Pairwise (· < ·) ds) (hbd : ∀ d ∈ ds, d < l.length) :
    pydelMany l (sortDesc ds) = some (removeIdxs l ds 0) := by
  rw [sortDesc_of_ascending ds hpw]
  rw [pydelMany_desc ds.reverse l (by
      rw [List.pairwise_reverse]
      exact hpw)
    (fun d hd => hbd d (List.mem_reverse.mp hd))]
  rw [removeIdxs_congr l ds.reverse ds 0 (fun m _ => List.mem_reverse)]

/-! ## Flat-mode development: one pass over the sub-trees -/

theorem scanTree_noop (r : Nat) (store : Store) (F : Forest) (cnt : Nat) (tid : String)
    (h : ∀ t, dget? F tid = some t → dget? t (getN store r).parent = none) :
    scanTree r (store, F, cnt) tid = (store, F, cnt) := by
  cases ht : dget? F tid with
  | none => simp [scanTree, ht]
  | some t => simp [scanTree, ht, h t ht]

theorem scanTree_insert (r : Nat) (store : Store) (F : Forest) (cnt : Nat) (tid : String)
    (t : Tree) (pr : Nat) (ht : dget? F tid = some t)
    (hpr : dget? t (getN store r).parent = some pr) :
    scanTree r (store, F, cnt) tid =
      (setN store r { getN store r with level := (getN store pr).level + 1 },
       dset F tid (dset t (getN store r).id r), cnt + 1) := by
  simp [scanTree, ht, hpr]

theorem scanFold_noop (r : Nat) : ∀ (ks : List String) (store : Store) (F : Forest)
    (cnt : Nat),
    (∀ tid ∈ ks, ∀ t, dget? F tid = some t → dget? t (getN store r).parent = none) →
    ks.foldl (scanTree r) (store, F, cnt) = (store, F, cnt) := by
  intro ks
  induction ks with
  | nil => intro store F cnt _; rfl
  | cons tid ks' ih =>
    intro store F cnt h
    rw [List.foldl_cons, scanTree_noop r store F cnt tid (h tid (List.mem_cons_self _ _)),
      ih store F cnt (fun tid' h' => h tid' (List.mem_cons_of_mem _ h'))]

theorem scanFold_cases (r : Nat) : ∀ (ks : List String) (store : Store) (F : Forest)
    (cnt : Nat),
    ks.Nodup →
    (∀ tid ∈ ks, ∃ t, dget? F tid = some t) →
    (∀ tid ∈ ks, ∀ tid' ∈ ks, tid ≠ tid' → ∀ t t', dget? F tid = some t →
      dget? F tid' = some t' → ∀ k, k ∈ dkeys t → k ∉ dkeys t') →
    r < store.length →
    (ks.foldl (scanTree r) (store, F, cnt) = (store, F, cnt) ∧
      ∀ tid ∈ ks, ∀ t, dget? F tid = some t →
        dget? t (getN store r).parent = none) ∨
    (∃ tid t pr, tid ∈ ks ∧ dget? F tid = some t ∧
      dget? t (getN store r).parent = some pr ∧
      ks.foldl (scanTree r) (store, F, cnt) =
        (setN store r { getN store r with level := (getN store pr).level + 1 },
         dset F tid (dset t (getN store r).id r), cnt + 1)) := by
  intro ks
  induction ks with
  | nil =>
    intro store F cnt _ _ _ _
    exact Or.inl ⟨rfl, by simp⟩
  | cons tid ks' ih =>
    intro store F cnt hnd hmem hdisj hr
    obtain ⟨t, ht⟩ := hmem tid (List.mem_cons_self _ _)
    cases hpar : dget? t (getN store r).parent with
    | none =>
      have hstep : scanTree r (store, F, cnt) tid = (store, F, cnt) := by
        refine scanTree_noop r store F cnt tid ?_
        intro t' ht'
        rw [ht] at ht'
        injection ht' with he
        rw [← he]
        exact hpar
      rw [List.foldl_cons, hstep]
      have hnd' := List.Nodup.of_cons hnd
      have hmem' := fun tid' h' => hmem tid' (List.mem_cons_of_mem _ h')
      have hdisj' := fun tid1 h1 tid2 h2 =>
        hdisj tid1 (List.mem_cons_of_mem _ h1) tid2 (List.mem_cons_of_mem _ h2)
      rcases ih store F cnt hnd' hmem' hdisj' hr with ⟨heq, hno⟩ | ⟨tid', t', pr, hm, h1, h2, h3⟩
      · refine Or.inl ⟨heq, ?_⟩
        intro tid2 h2 t2 ht2
        rcases List.mem_cons.mp h2 with he | hm2
        · subst he
          rw [ht] at ht2
          injection ht2 with he2
          rw [← he2]
          exact hpar
        · exact hno tid2 hm2 t2 ht2
      · exact Or.inr ⟨tid', t', pr, List.mem_cons_of_mem _ hm, h1, h2, h3⟩
    | some pr =>
      refine Or.inr ⟨tid, t, pr, List.mem_cons_self _ _, ht, hpar, ?_⟩
      rw [List.foldl_cons, scanTree_insert r store F cnt tid t pr ht hpar]
      have hpmem : (getN store r).parent ∈ dkeys t :=
        mem_dkeys_of_dget? t (getN store r).parent pr hpar
      refine scanFold_noop r ks' _ _ _ ?_
      intro tid' hm' t'' ht''
      have hne : tid ≠ tid' := fun he => (List.nodup_cons.mp hnd).1 (he ▸ hm')
      have hpar1 : (getN (setN store r
          { getN store r with level := (getN store pr).level + 1 }) r).parent =
          (getN store r).parent := by
        rw [getN_setN_self store r _ hr]
      rw [hpar1]
      rw [dget?_dset_ne F tid tid' _ hne] at ht''
      rw [dget?_eq_none_iff]
      exact hdisj tid (List.mem_cons_self _ _) tid' (List.mem_cons_of_mem _ hm') hne
        t t'' ht ht'' (getN store r).parent hpmem

theorem scanTrees_spec (store : Store) (F : Forest) (r : Nat)
    (hout : (dkeys F).Nodup) (hak : (allKeys F).Nodup) (hr : r < store.length) :
    (scanTrees store F r = (store, F, 0) ∧ (getN store r).parent ∉ allKeys F) ∨
    (∃ tid t pr, dget? F tid = some t ∧ dget? t (getN store r).parent = some pr ∧
      scanTrees store F r =
        (setN store r { getN store r with level := (getN store pr).level + 1 },
         dset F tid (dset t (getN store r).id r), 1)) := by
  have hmem : ∀ tid ∈ dkeys F, ∃ t, dget? F tid = some t := by
    intro tid htid
    cases hg : dget? F tid with
    | none => exact absurd ((dget?_eq_none_iff F tid).mp hg) (by
        intro hc
        exact hc htid)
    | some t => exact ⟨t, rfl⟩
  have hdisj : ∀ tid ∈ dkeys F, ∀ tid' ∈ dkeys F, tid ≠ tid' →
      ∀ t t', dget? F tid = some t → dget? F tid' = some t' →
      ∀ k, k ∈ dkeys t → k ∉ dkeys t' :=
    fun tid _ tid' _ hne t t' h1 h2 k hk => keys_disjoint F hout hak tid tid' t t' hne h1 h2 k hk
  rcases scanFold_cases r (dkeys F) store F 0 hout hmem hdisj hr with
    ⟨heq, hno⟩ | ⟨tid, t, pr, hm, h1, h2, h3⟩
  · refine Or.inl ⟨heq, ?_⟩
    intro hc
    obtain ⟨tt, htt, hk⟩ := (mem_allKeys F _).mp hc
    have hget : dget? F tt.1 = some tt.2 := dget?_eq_some_of_mem F tt.1 tt.2 hout htt
    have := hno tt.1 (List.mem_map_of_mem Prod.fst htt) tt.2 hget
    exact (dget?_eq_none_iff tt.2 _).mp this hk
  · exact Or.inr ⟨tid, t, pr, h1, h2, h3⟩

/-! ## Flat-mode development: the loop only writes levels -/

theorem copy_level_trans (a b : Node) (lvl : Nat) (h : b = { a with level := b.level }) :
    { b with level := lvl } = { a with level := lvl } := by
  rw [h]

theorem levelOnly_refl (st : Store) : levelOnly st st := ⟨rfl, fun _ => rfl⟩

theorem levelOnly_trans (a b c : Store) (h1 : levelOnly a b) (h2 : levelOnly b c) :
    levelOnly a c := by
  refine ⟨h2.1.trans h1.1, ?_⟩
  intro r
  exact (h2.2 r).trans (copy_level_trans (getN a r) (getN b r) _ (h1.2 r))

theorem setN_ge (st : Store) (r : Nat) (v : Node) (h : st.length ≤ r) : setN st r v = st := by
  induction st generalizing r with
  | nil => rfl
  | cons x xs ih =>
    cases r with
    | zero => simp at h
    | succ r' =>
      show x :: setN xs r' v = x :: xs
      rw [ih r' (by simpa using h)]

theorem levelOnly_set_level (st0 st : Store) (r lvl : Nat) (h : levelOnly st0 st) :
    levelOnly st0 (setN st r { getN st r with level := lvl }) := by
  refine ⟨by rw [length_setN]; exact h.1, ?_⟩
  intro x
  by_cases hx : r = x
  · subst hx
    by_cases hlt : r < st.length
    · have hself : getN (setN st r { getN st r with level := lvl }) r =
          { getN st r with level := lvl } := getN_setN_self st r _ hlt
      rw [hself]
      exact copy_level_trans (getN st0 r) (getN st r) lvl (h.2 r)
    · rw [setN_ge st r _ (Nat.le_of_not_lt hlt)]
      exact h.2 r
  · rw [getN_setN_ne st r x _ hx]
    exact h.2 x

theorem scanTree_levelOnly (r : Nat) (st0 : Store) (acc : Store × Forest × Nat)
    (tid : String) (h : levelOnly st0 acc.1) : levelOnly st0 (scanTree r acc tid).1 := by
  obtain ⟨store, F, cnt⟩ := acc
  cases ht : dget? F tid with
  | none => simpa [scanTree, ht] using h
  | some t =>
    cases hpar : dget? t (getN store r).parent with
    | none => simpa [scanTree, ht, hpar] using h
    | some pr =>
      rw [scanTree_insert r store F cnt tid t pr ht hpar]
      exact levelOnly_set_level st0 store r _ h

theorem scanFold_levelOnly (r : Nat) (st0 : Store) : ∀ (ks : List String)
    (acc : Store × Forest × Nat),
    levelOnly st0 acc.1 → levelOnly st0 (ks.foldl (scanTree r) acc).1 := by
  intro ks
  induction ks with
  | nil => intro acc h; exact h
  | cons tid ks' ih =>
    intro acc h
    rw [List.foldl_cons]
    exact ih _ (scanTree_levelOnly r st0 acc tid h)

theorem scanTrees_levelOnly (store : Store) (F : Forest) (r : Nat) (st0 : Store)
    (h : levelOnly st0 store) : levelOnly st0 (scanTrees store F r).1 :=
  scanFold_levelOnly r st0 (dkeys F) (store, F, 0) h

theorem flatPassGo_cons_ge (store : Store) (F : Forest) (a r : Nat)
    (rest : List (Nat × Nat)) (idx : Nat) (ha : a ≥ 20) (s2 : Store) (F2 : Forest)
    (ds : List Nat) (hrec : flatPassGo store F rest (idx + 1) = (s2, F2, ds)) :
    flatPassGo store F ((a, r) :: rest) idx = (s2, F2, idx :: ds) := by
  rw [flatPassGo, if_pos ha]
  show (match flatPassGo store F rest (idx + 1) with
    | (s', f', d') => (s', f', idx :: d')) = (s2, F2, idx :: ds)
  rw [hrec]

theorem flatPassGo_cons_lt (store : Store) (F : Forest) (a r : Nat)
    (rest : List (Nat × Nat)) (idx : Nat) (ha : ¬ a ≥ 20) (s1 : Store) (F1 : Forest)
    (c : Nat) (hscan : scanTrees store F r = (s1, F1, c)) (s2 : Store) (F2 : Forest)
    (ds : List Nat) (hrec : flatPassGo s1 F1 rest (idx + 1) = (s2, F2, ds)) :
    flatPassGo store F ((a, r) :: rest) idx = (s2, F2, List.replicate c idx ++ ds) := by
  rw [flatPassGo, if_neg ha, hscan]
  show (match flatPassGo s1 F1 rest (idx + 1) with
    | (s', f', d') => (s', f', List.replicate c idx ++ d')) =
    (s2, F2, List.replicate c idx ++ ds)
  rw [hrec]

theorem flatPassGo_levelOnly : ∀ (pend : List (Nat × Nat)) (store : Store) (F : Forest)
    (idx : Nat) (st0 : Store), levelOnly st0 store →
    levelOnly st0 (flatPassGo store F pend idx).1 := by
  intro pend
  induction pend with
  | nil => intro store F idx st0 h; exact h
  | cons p rest ih =>
    intro store F idx st0 h
    obtain ⟨a, r⟩ := p
    by_cases ha : a ≥ 20
    · cases hrec : flatPassGo store F rest (idx + 1) with
      | mk s2 q =>
        obtain ⟨F2, ds⟩ := q
        have hlo := ih store F (idx + 1) st0 h
        rw [hrec] at hlo
        rw [flatPassGo_cons_ge store F a r rest idx ha s2 F2 ds hrec]
        exact hlo
    · cases hscan : scanTrees store F r with
      | mk s1 q =>
        obtain ⟨F1, c⟩ := q
        have h1 := scanTrees_levelOnly store F r st0 h
        rw [hscan] at h1
        cases hrec : flatPassGo s1 F1 rest (idx + 1) with
        | mk s2 q2 =>
          obtain ⟨F2, ds⟩ := q2
          have hlo := ih s1 F1 (idx + 1) st0 h1
          rw [hrec] at hlo
          rw [flatPassGo_cons_lt store F a r rest idx ha s1 F1 c hscan s2 F2 ds hrec]
          exact hlo

theorem flatLoop_step (n : Nat) (s : FlatState) (s1 : Store) (F1 : Forest)
    (drops : List Nat) (pending' : List (Nat × Nat))
    (hpass : flatPass s = (s1, F1, drops))
    (hdel : pydelMany s.to_process (sortDesc drops) = some pending') :
    flatLoop (n + 1) s =
      if pending' = [] then some (s1, F1)
      else flatLoop n { store := s1, tree := F1, to_process := pending' } := by
  rw [flatLoop, hpass]
  show (match pydelMany s.to_process (sortDesc drops) with
    | none => none
    | some pending2 =>
      if pending2 = [] then some (s1, F1)
      else flatLoop n { store := s1, tree := F1, to_process := pending2 }) = _
  rw [hdel]

theorem flatLoop_step_none (n : Nat) (s : FlatState) (s1 : Store) (F1 : Forest)
    (drops : List Nat) (hpass : flatPass s = (s1, F1, drops))
    (hdel : pydelMany s.to_process (sortDesc drops) = none) :
    flatLoop (n + 1) s = none := by
  rw [flatLoop, hpass]
  show (match pydelMany s.to_process (sortDesc drops) with
    | none => none
    | some pending2 =>
      if pending2 = [] then some (s1, F1)
      else flatLoop n { store := s1, tree := F1, to_process := pending2 }) = _
  rw [hdel]

theorem flatLoop_levelOnly : ∀ (fuel : Nat) (s : FlatState) (res : Store × Forest),
    flatLoop fuel s = some res → levelOnly s.store res.1 := by
  intro fuel
  induction fuel with
  | zero =>
    intro s res h
    exact absurd h (by rw [flatLoop]; simp)
  | succ n ih =>
    intro s res h
    cases hpass : flatPass s with
    | mk s1 q =>
      obtain ⟨F1, drops⟩ := q
      have hlo : levelOnly s.store s1 := by
        have hgo := flatPassGo_levelOnly s.to_process s.store s.tree 0 s.store
          (levelOnly_refl s.store)
        rw [show flatPassGo s.store s.tree s.to_process 0 = flatPass s from rfl, hpass] at hgo
        exact hgo
      cases hdel : pydelMany s.to_process (sortDesc drops) with
      | none =>
        rw [flatLoop_step_none n s s1 F1 drops hpass hdel] at h
        exact absurd h (by simp)
      | some pending' =>
        rw [flatLoop_step n s s1 F1 drops pending' hpass hdel] at h
        by_cases hp : pending' = []
        · rw [if_pos hp] at h
          injection h with h'
          rw [← h']
          exact hlo
        · rw [if_neg hp] at h
          exact levelOnly_trans s.store s1 res.1 hlo
            (ih { store := s1, tree := F1, to_process := pending' } res h)

/-! ## Flat-mode development: the insertion step preserves the invariant -/

theorem levelOnly_id (a b : Store) (h : levelOnly a b) (x : Nat) :
    (getN b x).id = (getN a x).id := by
  rw [h.2 x]

theorem levelOnly_parent (a b : Store) (h : levelOnly a b) (x : Nat) :
    (getN b x).parent = (getN a x).parent := by
  rw [h.2 x]

theorem flat_insert_inv (store : Store) (F : Forest) (r : Nat) (tid : String)
    (t : Tree) (pr : Nat)
    (hcore : coreInv store F) (hr : r < store.length)
    (hpar_ne : (getN store r).parent ≠ "")
    (hid : (getN store r).id ∉ allKeys F)
    (hsd : ∀ tt ∈ F, ∀ kv ∈ tt.2, kv.2 ≠ r)
    (ht : dget? F tid = some t)
    (hpr : dget? t (getN store r).parent = some pr) :
    coreInv (setN store r { getN store r with level := (getN store pr).level + 1 })
        (dset F tid (dset t (getN store r).id r)) ∧
    (∀ x, x ∈ allKeys (dset F tid (dset t (getN store r).id r)) ↔
      x ∈ allKeys F ∨ x = (getN store r).id) ∧
    (∀ tt' ∈ dset F tid (dset t (getN store r).id r), ∀ kv ∈ tt'.2,
      (∃ tt2 ∈ F, kv ∈ tt2.2) ∨ (kv.1 = (getN store r).id ∧ kv.2 = r)) := by
  obtain ⟨hout, hak, hrange, hown, hslot⟩ := hcore
  have htmem : (tid, t) ∈ F := mem_of_dget?_eq_some F tid t ht
  have hpm : (getN store r).parent ∈ dkeys t :=
    mem_dkeys_of_dget? t (getN store r).parent pr hpr
  have hid_t : (getN store r).id ∉ dkeys t :=
    fun hc => hid ((mem_allKeys F _).mpr ⟨(tid, t), htmem, hc⟩)
  have hdm : dmem t (getN store r).id = false := by
    rw [dmem, (dget?_eq_none_iff t _).mpr hid_t]
    rfl
  have hkt' : dkeys (dset t (getN store r).id r) = dkeys t ++ [(getN store r).id] :=
    dkeys_dset_of_not_mem t _ r hdm
  have hdmemF : dmem F tid = true := by
    rw [dmem, ht]
    rfl
  obtain ⟨P, S, hPS, hds, hkP⟩ := dset_decomp F tid t ht
  have haF : allKeys F = allKeys P ++ (dkeys t ++ allKeys S) := by
    rw [hPS, allKeys_append, allKeys_cons]
  have haF' : allKeys (dset F tid (dset t (getN store r).id r)) =
      allKeys P ++ ((dkeys t ++ [(getN store r).id]) ++ allKeys S) := by
    rw [hds (dset t (getN store r).id r), allKeys_append, allKeys_cons, hkt']
  have hperm : (allKeys (dset F tid (dset t (getN store r).id r))).Perm
      (allKeys F ++ [(getN store r).id]) := by
    rw [haF', haF]
    refine List.perm_iff_count.mpr ?_
    intro a
    simp [List.count_append, List.count_cons]
  have hmemiff : ∀ x, x ∈ allKeys (dset F tid (dset t (getN store r).id r)) ↔
      x ∈ allKeys F ∨ x = (getN store r).id := by
    intro x
    rw [hperm.mem_iff]
    simp
  have hmemF' : ∀ tt' ∈ dset F tid (dset t (getN store r).id r),
      tt' = (tid, dset t (getN store r).id r) ∨ tt' ∈ F :=
    fun tt' h => mem_dset F tid _ tt' h
  have hmemt' : ∀ kv ∈ dset t (getN store r).id r,
      kv = ((getN store r).id, r) ∨ kv ∈ t :=
    fun kv h => mem_dset t _ r kv h
  have hchar : ∀ tt' ∈ dset F tid (dset t (getN store r).id r), ∀ kv ∈ tt'.2,
      (∃ tt2 ∈ F, kv ∈ tt2.2) ∨ (kv.1 = (getN store r).id ∧ kv.2 = r) := by
    intro tt' htt' kv hkv
    rcases hmemF' tt' htt' with he | hm
    · rw [he] at hkv
      rcases hmemt' kv hkv with he2 | hm2
      · right
        rw [he2]
        exact ⟨rfl, rfl⟩
      · exact Or.inl ⟨(tid, t), htmem, hm2⟩
    · exact Or.inl ⟨tt', hm, hkv⟩
  have hrecne : ∀ x, x ≠ r →
      getN (setN store r { getN store r with level := (getN store pr).level + 1 }) x =
      getN store x :=
    fun x hx => getN_setN_ne store r x _ (fun he => hx he.symm)
  have hrecself : getN (setN store r
      { getN store r with level := (getN store pr).level + 1 }) r =
      { getN store r with level := (getN store pr).level + 1 } :=
    getN_setN_self store r _ hr
  have hidne : (getN store r).id ≠ (getN store r).parent := by
    intro he
    exact hid_t (he ▸ hpm)
  have hprmem : ((getN store r).parent, pr) ∈ t := mem_of_dget?_eq_some t _ pr hpr
  have hprr : pr ≠ r := hsd (tid, t) htmem _ hprmem
  refine ⟨⟨?_, ?_, ?_, ?_, ?_⟩, hmemiff, hchar⟩
  · rw [dkeys_dset_of_mem F tid _ hdmemF]
    exact hout
  · refine (List.Perm.nodup_iff hperm).mpr ?_
    rw [List.nodup_append]
    refine ⟨hak, List.nodup_singleton _, ?_⟩
    intro a ha hb
    rw [List.mem_singleton] at hb
    exact hid (hb ▸ ha)
  · intro tt' htt' kv hkv
    rw [length_setN]
    rcases hchar tt' htt' kv hkv with ⟨tt2, hm2, hkv2⟩ | ⟨_, hkr⟩
    · exact hrange tt2 hm2 kv hkv2
    · rw [hkr]
      exact hr
  · intro tt' htt'
    rcases hmemF' tt' htt' with he | hm
    · rw [he]
      show tid ∈ dkeys (dset t (getN store r).id r)
      rw [hkt']
      exact List.mem_append_left _ (hown (tid, t) htmem)
    · exact hown tt' hm
  · intro tt' htt' kv hkv
    rcases hmemF' tt' htt' with he | hm
    · have hkv' : kv ∈ dset t (getN store r).id r := by
        rw [he] at hkv
        exact hkv
      have htt2 : tt'.2 = dset t (getN store r).id r := by
        rw [he]
      rcases hmemt' kv hkv' with he2 | hm2
      · have hk1 : kv.1 = (getN store r).id := by rw [he2]
        have hk2 : kv.2 = r := by rw [he2]
        refine ⟨?_, ?_, ?_⟩
        · rw [hk2, hrecself, hk1]
        · intro hpe
          rw [hk2, hrecself] at hpe
          exact absurd hpe hpar_ne
        · intro _
          refine ⟨pr, ?_, ?_⟩
          · rw [htt2, hk2, hrecself]
            show dget? (dset t (getN store r).id r) (getN store r).parent = some pr
            rw [dget?_dset_ne t _ _ r hidne]
            exact hpr
          · rw [hk2, hrecself, hrecne pr hprr]
      · have hkr : kv.2 ≠ r := hsd (tid, t) htmem kv hm2
        have hrec := hrecne kv.2 hkr
        obtain ⟨hsid, hs0, hsp⟩ := hslot (tid, t) htmem kv hm2
        refine ⟨by rw [hrec]; exact hsid, by rw [hrec]; exact hs0, ?_⟩
        rw [hrec, htt2]
        intro hpne
        obtain ⟨pr', hpr', hlv⟩ := hsp hpne
        have hne3 : (getN store r).id ≠ (getN store kv.2).parent := by
          intro he3
          exact hid_t (he3 ▸ mem_dkeys_of_dget? t _ pr' hpr')
        refine ⟨pr', ?_, ?_⟩
        · rw [dget?_dset_ne t _ _ r hne3]
          exact hpr'
        · have hprm' : ((getN store kv.2).parent, pr') ∈ t :=
            mem_of_dget?_eq_some t _ pr' hpr'
          rw [hrecne pr' (hsd (tid, t) htmem _ hprm')]
          exact hlv
    · have hkr : kv.2 ≠ r := hsd tt' hm kv hkv
      have hrec := hrecne kv.2 hkr
      obtain ⟨hsid, hs0, hsp⟩ := hslot tt' hm kv hkv
      refine ⟨by rw [hrec]; exact hsid, by rw [hrec]; exact hs0, ?_⟩
      rw [hrec]
      intro hpne
      obtain ⟨pr', hpr', hlv⟩ := hsp hpne
      refine ⟨pr', hpr', ?_⟩
      have hprm' : ((getN store kv.2).parent, pr') ∈ tt'.2 :=
        mem_of_dget?_eq_some tt'.2 _ pr' hpr'
      rw [hrecne pr' (hsd tt' hm _ hprm')]
      exact hlv

/-! ## Flat-mode development: one full pass preserves the invariant -/

theorem pendInv_cons (store : Store) (F : Forest) (p : Nat × Nat)
    (rest : List (Nat × Nat)) (h : pendInv store F (p :: rest)) :
    pendInv store F rest := by
  obtain ⟨h1, h2, h3, h4⟩ := h
  rw [List.map_cons] at h2 h3
  exact ⟨fun q hq => h1 q (List.mem_cons_of_mem _ hq), h2.of_cons, h3.of_cons,
    fun q hq => h4 q (List.mem_cons_of_mem _ hq)⟩

theorem nodup_map_ne {α β : Type} (f : α → β) (l : List α) (h : (l.map f).Nodup)
    (p q : α) (hp : p ∈ l) (hq : q ∈ l) (hne : p ≠ q) : f p ≠ f q := by
  induction l with
  | nil => simp at hp
  | cons x xs ih =>
    rw [List.map_cons, List.nodup_cons] at h
    rcases List.mem_cons.mp hp with hp1 | hp2
    · rcases List.mem_cons.mp hq with hq1 | hq2
      · exact absurd (hp1.trans hq1.symm) hne
      · subst hp1
        intro he
        exact h.1 (he ▸ List.mem_map_of_mem f hq2)
    · rcases List.mem_cons.mp hq with hq1 | hq2
      · subst hq1
        intro he
        exact h.1 (he ▸ List.mem_map_of_mem f hp2)
      · exact ih h.2 hp2 hq2

theorem flatPassGo_spec : ∀ (pend : List (Nat × Nat)) (store : Store) (F : Forest)
    (idx : Nat),
    coreInv store F → pendInv store F pend →
    ∃ store' F' drops, flatPassGo store F pend idx = (store', F', drops) ∧
      coreInv store' F' ∧
      levelOnly store store' ∧
      List.Pairwise (· < ·) drops ∧
      (∀ d ∈ drops, idx ≤ d ∧ d < idx + pend.length) ∧
      (∀ x, x ∈ allKeys F' → x ∈ allKeys F ∨
        ∃ p ∈ pend, p ∉ removeIdxs pend drops idx ∧ x = (getN store p.2).id) ∧
      (∀ tt' ∈ F', ∀ kv ∈ tt'.2, (∃ tt ∈ F, kv ∈ tt.2) ∨
        ∃ p ∈ pend, p ∉ removeIdxs pend drops idx ∧ kv.2 = p.2) ∧
      pendInv store' F' (removeIdxs pend drops idx) := by
  intro pend
  induction pend with
  | nil =>
    intro store F idx hcore hpend
    refine ⟨store, F, [], rfl, hcore, levelOnly_refl store, List.Pairwise.nil,
      by simp, fun x hx => Or.inl hx, fun tt htt kv hkv => Or.inl ⟨tt, htt, hkv⟩, ?_⟩
    rw [show removeIdxs ([] : List (Nat × Nat)) ([] : List Nat) idx = [] from rfl]
    exact ⟨fun p hp => absurd hp (List.not_mem_nil p), List.nodup_nil, List.nodup_nil,
      fun p hp => absurd hp (List.not_mem_nil p)⟩
  | cons p rest ih =>
    intro store F idx hcore hpend
    obtain ⟨a, r⟩ := p
    have hhead := hpend.1 (a, r) (List.mem_cons_self _ _)
    have ha0 : a = 0 := hhead.1
    have hrlt : r < store.length := hhead.2.1
    have hparne : (getN store r).parent ≠ "" := hhead.2.2.1
    have hidnA : (getN store r).id ∉ allKeys F := hhead.2.2.2
    have ha20 : ¬ a ≥ 20 := by omega
    have hids := hpend.2.1
    rw [List.map_cons] at hids
    have hidhead : (getN store r).id ∉
        rest.map (fun q => (getN store q.2).id) := (List.nodup_cons.mp hids).1
    have hrefs := hpend.2.2.1
    rw [List.map_cons] at hrefs
    have hrefhead : r ∉ rest.map Prod.snd := (List.nodup_cons.mp hrefs).1
    have hnotrest : (a, r) ∉ rest := fun hc => hrefhead (List.mem_map_of_mem Prod.snd hc)
    have hpend4 := hpend.2.2.2
    have hpendrest := pendInv_cons store F (a, r) rest hpend
    rcases scanTrees_spec store F r hcore.1 hcore.2.1 hrlt with
      ⟨hseq, hparnot⟩ | ⟨tid, t, pr, ht, hpr, hseq⟩
    · -- no sub-tree resolves the parent: the pass leaves this entry pending
      obtain ⟨s', F', ds, heq, hcore', hlo, hpw, hbd, hak', hslots', hpinv'⟩ :=
        ih store F (idx + 1) hcore hpendrest
      have hres : flatPassGo store F ((a, r) :: rest) idx = (s', F', ds) :=
        flatPassGo_cons_lt store F a r rest idx ha20 store F 0 hseq s' F' ds heq
      have hnotin : idx ∉ ds := by
        intro hc
        have := (hbd idx hc).1
        omega
      have hsurv : removeIdxs ((a, r) :: rest) ds idx =
          (a, r) :: removeIdxs rest ds (idx + 1) := by
        rw [removeIdxs, if_neg hnotin]
      refine ⟨s', F', ds, hres, hcore', hlo, hpw, ?_, ?_, ?_, ?_⟩
      · intro d hd
        have := hbd d hd
        simp only [List.length_cons]
        omega
      · intro x hx
        rcases hak' x hx with h1 | ⟨q, hq, hnq, hxq⟩
        · exact Or.inl h1
        · refine Or.inr ⟨q, List.mem_cons_of_mem _ hq, ?_, hxq⟩
          rw [hsurv]
          intro hc
          rcases List.mem_cons.mp hc with h2 | h3
          · exact hnotrest (h2 ▸ hq)
          · exact hnq h3
      · intro tt' htt' kv hkv
        rcases hslots' tt' htt' kv hkv with h1 | ⟨q, hq, hnq, hkq⟩
        · exact Or.inl h1
        · refine Or.inr ⟨q, List.mem_cons_of_mem _ hq, ?_, hkq⟩
          rw [hsurv]
          intro hc
          rcases List.mem_cons.mp hc with h2 | h3
          · exact hnotrest (h2 ▸ hq)
          · exact hnq h3
      · rw [hsurv]
        obtain ⟨hp1, hp2, hp3, hp4⟩ := hpinv'
        refine ⟨?_, ?_, ?_, ?_⟩
        · intro q hq
          rcases List.mem_cons.mp hq with h2 | h3
          · subst h2
            refine ⟨ha0, ?_, ?_, ?_⟩
            · rw [hlo.1]
              exact hrlt
            · rw [levelOnly_parent store s' hlo r]
              exact hparne
            · rw [levelOnly_id store s' hlo r]
              intro hc
              rcases hak' _ hc with h4 | ⟨q2, hq2, _, hxq2⟩
              · exact hidnA h4
              · exact hidhead (hxq2 ▸ List.mem_map_of_mem _ hq2)
          · exact hp1 q h3
        · have hsub : ((a, r) :: removeIdxs rest ds (idx + 1)).Sublist ((a, r) :: rest) :=
            List.Sublist.cons₂ _ (removeIdxs_sublist rest ds (idx + 1))
          have hcongr : ((a, r) :: removeIdxs rest ds (idx + 1)).map
              (fun q => (getN s' q.2).id) =
              ((a, r) :: removeIdxs rest ds (idx + 1)).map
              (fun q => (getN store q.2).id) :=
            List.map_congr_left (fun q _ => levelOnly_id store s' hlo q.2)
          rw [hcongr]
          exact List.Nodup.sublist (List.Sublist.map _ hsub) hpend.2.1
        · have hsub : ((a, r) :: removeIdxs rest ds (idx + 1)).Sublist ((a, r) :: rest) :=
            List.Sublist.cons₂ _ (removeIdxs_sublist rest ds (idx + 1))
          exact List.Nodup.sublist (List.Sublist.map _ hsub) hpend.2.2.1
        · intro q hq tt' htt' kv hkv
          rcases List.mem_cons.mp hq with h2 | h3
          · subst h2
            rcases hslots' tt' htt' kv hkv with ⟨tt2, htt2, hkv2⟩ | ⟨q2, hq2, _, hkq2⟩
            · exact hpend4 (a, r) (List.mem_cons_self _ _) tt2 htt2 kv hkv2
            · rw [hkq2]
              intro hc
              have hc2 : q2.2 = r := hc
              exact hrefhead (hc2 ▸ List.mem_map_of_mem Prod.snd hq2)
          · exact hp4 q h3 tt' htt' kv hkv
    · -- exactly one sub-tree resolves the parent: the node is inserted and dropped
      have hsdr : ∀ tt ∈ F, ∀ kv ∈ tt.2, kv.2 ≠ r :=
        fun tt htt kv hkv => hpend4 (a, r) (List.mem_cons_self _ _) tt htt kv hkv
      obtain ⟨hcore1, hakins, hcharins⟩ :=
        flat_insert_inv store F r tid t pr hcore hrlt hparne hidnA hsdr ht hpr
      have hlo1 : levelOnly store
          (setN store r { getN store r with level := (getN store pr).level + 1 }) :=
        levelOnly_set_level store store r _ (levelOnly_refl store)
      have hpend1 : pendInv
          (setN store r { getN store r with level := (getN store pr).level + 1 })
          (dset F tid (dset t (getN store r).id r)) rest := by
        obtain ⟨hq1, hq2, hq3, hq4⟩ := hpendrest
        refine ⟨?_, ?_, ?_, ?_⟩
        · intro q hq
          obtain ⟨hz, hlt, hpn, hni⟩ := hq1 q hq
          refine ⟨hz, by rw [length_setN]; exact hlt, ?_, ?_⟩
          · rw [levelOnly_parent store _ hlo1 q.2]
            exact hpn
          · rw [levelOnly_id store _ hlo1 q.2]
            intro hc
            rcases (hakins _).mp hc with h4 | h5
            · exact hni h4
            · exact hidhead (h5 ▸ List.mem_map_of_mem _ hq)
        · have hcongr : rest.map (fun q => (getN (setN store r
              { getN store r with level := (getN store pr).level + 1 }) q.2).id) =
              rest.map (fun q => (getN store q.2).id) :=
            List.map_congr_left (fun q _ => levelOnly_id store _ hlo1 q.2)
          rw [hcongr]
          exact hq2
        · exact hq3
        · intro q hq tt' htt' kv hkv
          rcases hcharins tt' htt' kv hkv with ⟨tt2, htt2, hkv2⟩ | ⟨_, hkr⟩
          · exact hq4 q hq tt2 htt2 kv hkv2
          · rw [hkr]
            intro hc
            exact hrefhead (hc ▸ List.mem_map_of_mem Prod.snd hq)
      obtain ⟨s', F', ds, heq, hcore', hlo', hpw, hbd, hak', hslots', hpinv'⟩ :=
        ih (setN store r { getN store r with level := (getN store pr).level + 1 })
          (dset F tid (dset t (getN store r).id r)) (idx + 1) hcore1 hpend1
      have hres : flatPassGo store F ((a, r) :: rest) idx = (s', F', idx :: ds) :=
        flatPassGo_cons_lt store F a r rest idx ha20 _ _ 1 hseq s' F' ds heq
      have hsurvEq : removeIdxs ((a, r) :: rest) (idx :: ds) idx =
          removeIdxs rest ds (idx + 1) := by
        rw [removeIdxs, if_pos (List.mem_cons_self _ _)]
        refine removeIdxs_congr rest (idx :: ds) ds (idx + 1) ?_
        intro m hm
        constructor
        · intro hc
          rcases List.mem_cons.mp hc with h1 | h2
          · omega
          · exact h2
        · exact List.mem_cons_of_mem _
      have hsurvsub : (removeIdxs rest ds (idx + 1)).Sublist rest :=
        removeIdxs_sublist rest ds (idx + 1)
      refine ⟨s', F', idx :: ds, hres, hcore',
        levelOnly_trans store _ s' hlo1 hlo', ?_, ?_, ?_, ?_, ?_⟩
      · refine List.Pairwise.cons ?_ hpw
        intro d hd
        have := (hbd d hd).1
        omega
      · intro d hd
        simp only [List.length_cons]
        rcases List.mem_cons.mp hd with h1 | h2
        · omega
        · have := hbd d h2
          omega
      · intro x hx
        rcases hak' x hx with h1 | ⟨q, hq, hnq, hxq⟩
        · rcases (hakins x).mp h1 with h2 | h3
          · exact Or.inl h2
          · refine Or.inr ⟨(a, r), List.mem_cons_self _ _, ?_, h3⟩
            rw [hsurvEq]
            intro hc
            exact hnotrest (hsurvsub.subset hc)
        · refine Or.inr ⟨q, List.mem_cons_of_mem _ hq, ?_, ?_⟩
          · rw [hsurvEq]
            exact hnq
          · rw [hxq]
            exact levelOnly_id store _ hlo1 q.2
      · intro tt' htt' kv hkv
        rcases hslots' tt' htt' kv hkv with ⟨tt2, htt2, hkv2⟩ | ⟨q, hq, hnq, hkq⟩
        · rcases hcharins tt2 htt2 kv hkv2 with ⟨tt3, htt3, hkv3⟩ | ⟨_, hkr⟩
          · exact Or.inl ⟨tt3, htt3, hkv3⟩
          · refine Or.inr ⟨(a, r), List.mem_cons_self _ _, ?_, hkr⟩
            rw [hsurvEq]
            intro hc
            exact hnotrest (hsurvsub.subset hc)
        · refine Or.inr ⟨q, List.mem_cons_of_mem _ hq, ?_, hkq⟩
          rw [hsurvEq]
          exact hnq
      · rw [hsurvEq]
        exact hpinv'

/-! ## Flat-mode development: the loop and the parsing stage -/

theorem flatLoop_inv : ∀ (fuel : Nat) (s : FlatState) (res : Store × Forest),
    coreInv s.store s.tree → pendInv s.store s.tree s.to_process →
    flatLoop fuel s = some res → coreInv res.1 res.2 := by
  intro fuel
  induction fuel with
  | zero =>
    intro s res _ _ h
    exact absurd h (by rw [flatLoop]; simp)
  | succ n ih =>
    intro s res hcore hpend h
    obtain ⟨s1, F1, drops, heq, hcore', hlo, hpw, hbd, _, _, hpinv'⟩ :=
      flatPassGo_spec s.to_process s.store s.tree 0 hcore hpend
    have hpass : flatPass s = (s1, F1, drops) := heq
    have hdel : pydelMany s.to_process (sortDesc drops) =
        some (removeIdxs s.to_process drops 0) :=
      pydelMany_sortDesc drops s.to_process hpw (fun d hd => by
        have := (hbd d hd).2
        omega)
    rw [flatLoop_step n s s1 F1 drops _ hpass hdel] at h
    by_cases hpe : removeIdxs s.to_process drops 0 = []
    · rw [if_pos hpe] at h
      injection h with h'
      rw [← h']
      exact hcore'
    · rw [if_neg hpe] at h
      exact ih { store := s1, tree := F1, to_process := removeIdxs s.to_process drops 0 }
        res hcore' hpinv' h

theorem slotInv_append (store ext : Store) (F2 : Forest)
    (hrg : ∀ tt ∈ F2, ∀ kv ∈ tt.2, kv.2 < store.length)
    (hsl : slotInv store F2) : slotInv (store ++ ext) F2 := by
  intro tt htt kv hkv
  obtain ⟨h1, h2, h3⟩ := hsl tt htt kv hkv
  rw [getN_append_lt store ext kv.2 (hrg tt htt kv hkv)]
  refine ⟨h1, h2, ?_⟩
  intro hne
  obtain ⟨pr, hpr, hlv⟩ := h3 hne
  refine ⟨pr, hpr, ?_⟩
  rw [getN_append_lt store ext pr (hrg tt htt _ (mem_of_dget?_eq_some tt.2 _ pr hpr))]
  exact hlv

theorem parseFlatId_root_inv (s : FlatState) (row : FlatRow) (nid : String)
    (hpar : row.parent = "")
    (hc : coreInv s.store s.tree) (hp : pendInv s.store s.tree s.to_process)
    (hna : nid ∉ allKeys s.tree)
    (hnp : nid ∉ s.to_process.map (fun p => (getN s.store p.2).id)) :
    coreInv (s.store ++ [mkFlatNode nid row]) (dset s.tree nid [(nid, s.store.length)]) ∧
    pendInv (s.store ++ [mkFlatNode nid row]) (dset s.tree nid [(nid, s.store.length)])
      s.to_process ∧
    (∀ x, x ∈ allKeys (dset s.tree nid [(nid, s.store.length)]) →
      x ∈ allKeys s.tree ∨ x = nid) ∧
    (∀ x, x ∈ s.to_process.map
        (fun p => (getN (s.store ++ [mkFlatNode nid row]) p.2).id) →
      x ∈ s.to_process.map (fun p => (getN s.store p.2).id) ∨ x = nid) := by
  obtain ⟨hout, hak, hrange, hown, hslot⟩ := hc
  obtain ⟨hp1, hp2, hp3, hp4⟩ := hp
  have hnew : getN (s.store ++ [mkFlatNode nid row]) s.store.length = mkFlatNode nid row :=
    getN_append_self s.store _
  have hold : ∀ x, x < s.store.length →
      getN (s.store ++ [mkFlatNode nid row]) x = getN s.store x :=
    fun x hx => getN_append_lt s.store _ x hx
  have hlen2 : (s.store ++ [mkFlatNode nid row]).length = s.store.length + 1 := by simp
  have hpendids : s.to_process.map
      (fun p => (getN (s.store ++ [mkFlatNode nid row]) p.2).id) =
      s.to_process.map (fun p => (getN s.store p.2).id) :=
    List.map_congr_left (fun p hp' => by rw [hold p.2 (hp1 p hp').2.1])
  have hnid_out : nid ∉ dkeys s.tree :=
    fun hc2 => hna (outer_mem_allKeys s.tree hown nid hc2)
  have hdg : dget? s.tree nid = none := (dget?_eq_none_iff _ _).mpr hnid_out
  have htreeEq : dset s.tree nid [(nid, s.store.length)] =
      s.tree ++ [(nid, [(nid, s.store.length)])] := dset_append_of_not_mem _ _ _ hdg
  have hkeysEq : dkeys (dset s.tree nid [(nid, s.store.length)]) = dkeys s.tree ++ [nid] := by
    rw [htreeEq]
    show List.map Prod.fst (s.tree ++ [(nid, [(nid, s.store.length)])]) = _
    rw [List.map_append]
    rfl
  have haK : allKeys (dset s.tree nid [(nid, s.store.length)]) =
      allKeys s.tree ++ [nid] := by
    rw [htreeEq, allKeys_append]
    rfl
  have hmem2 : ∀ tt ∈ dset s.tree nid [(nid, s.store.length)],
      tt ∈ s.tree ∨ tt = (nid, [(nid, s.store.length)]) := by
    intro tt htt
    rw [htreeEq] at htt
    rcases List.mem_append.mp htt with h1 | h2
    · exact Or.inl h1
    · exact Or.inr (List.mem_singleton.mp h2)
  refine ⟨⟨?_, ?_, ?_, ?_, ?_⟩, ⟨?_, ?_, ?_, ?_⟩, ?_, ?_⟩
  · rw [hkeysEq]
    rw [List.nodup_append]
    exact ⟨hout, List.nodup_singleton _, fun a ha hb =>
      hnid_out ((List.mem_singleton.mp hb) ▸ ha)⟩
  · rw [haK, List.nodup_append]
    exact ⟨hak, List.nodup_singleton _, fun a ha hb =>
      hna ((List.mem_singleton.mp hb) ▸ ha)⟩
  · intro tt htt kv hkv
    rw [hlen2]
    rcases hmem2 tt htt with h1 | h2
    · exact Nat.lt_succ_of_lt (hrange tt h1 kv hkv)
    · rw [h2] at hkv
      rw [List.mem_singleton.mp hkv]
      exact Nat.lt_succ_self _
  · intro tt htt
    rcases hmem2 tt htt with h1 | h2
    · exact hown tt h1
    · rw [h2]
      show nid ∈ dkeys [(nid, s.store.length)]
      exact List.mem_singleton.mpr rfl
  · intro tt htt kv hkv
    rcases hmem2 tt htt with h1 | h2
    · exact slotInv_append s.store _ s.tree hrange hslot tt h1 kv hkv
    · rw [h2] at hkv
      have hkv' := List.mem_singleton.mp hkv
      have hk1 : kv.1 = nid := by rw [hkv']
      have hk2 : kv.2 = s.store.length := by rw [hkv']
      refine ⟨?_, ?_, ?_⟩
      · rw [hk2, hnew, hk1]
        rfl
      · intro _
        rw [hk2, hnew]
        rfl
      · rw [hk2, hnew]
        intro hne
        exact absurd hpar hne
  · intro p hp'
    obtain ⟨hz, hlt, hpn, hni⟩ := hp1 p hp'
    refine ⟨hz, by rw [hlen2]; exact Nat.lt_succ_of_lt hlt,
      by rw [hold p.2 hlt]; exact hpn, ?_⟩
    rw [hold p.2 hlt]
    intro hin
    have hin' : (getN s.store p.2).id ∈ allKeys s.tree ++ [nid] := by
      rw [← haK]
      exact hin
    rcases List.mem_append.mp hin' with h1 | h2
    · exact hni h1
    · rw [List.mem_singleton] at h2
      exact hnp (h2 ▸ List.mem_map_of_mem _ hp')
  · rw [hpendids]
    exact hp2
  · exact hp3
  · intro p hp' tt htt kv hkv
    rcases hmem2 tt htt with h1 | h2
    · exact hp4 p hp' tt h1 kv hkv
    · rw [h2] at hkv
      rw [List.mem_singleton.mp hkv]
      intro he
      have := (hp1 p hp').2.1
      omega
  · intro x hx
    have hx' : x ∈ allKeys s.tree ++ [nid] := by
      rw [← haK]
      exact hx
    rcases List.mem_append.mp hx' with h1 | h2
    · exact Or.inl h1
    · exact Or.inr (List.mem_singleton.mp h2)
  · intro x hx
    rw [hpendids] at hx
    exact Or.inl hx

theorem parseFlatId_pend_inv (s : FlatState) (row : FlatRow) (nid : String)
    (hpar : ¬ row.parent = "")
    (hc : coreInv s.store s.tree) (hp : pendInv s.store s.tree s.to_process)
    (hna : nid ∉ allKeys s.tree)
    (hnp : nid ∉ s.to_process.map (fun p => (getN s.store p.2).id)) :
    coreInv (s.store ++ [mkFlatNode nid row]) s.tree ∧
    pendInv (s.store ++ [mkFlatNode nid row]) s.tree
      (s.to_process ++ [(0, s.store.length)]) ∧
    (∀ x, x ∈ allKeys s.tree → x ∈ allKeys s.tree ∨ x = nid) ∧
    (∀ x, x ∈ (s.to_process ++ [(0, s.store.length)]).map
        (fun (p : Nat × Nat) => (getN (s.store ++ [mkFlatNode nid row]) p.2).id) →
      x ∈ s.to_process.map (fun p => (getN s.store p.2).id) ∨ x = nid) := by
  obtain ⟨hout, hak, hrange, hown, hslot⟩ := hc
  obtain ⟨hp1, hp2, hp3, hp4⟩ := hp
  have hnew : getN (s.store ++ [mkFlatNode nid row]) s.store.length = mkFlatNode nid row :=
    getN_append_self s.store _
  have hold : ∀ x, x < s.store.length →
      getN (s.store ++ [mkFlatNode nid row]) x = getN s.store x :=
    fun x hx => getN_append_lt s.store _ x hx
  have hlen2 : (s.store ++ [mkFlatNode nid row]).length = s.store.length + 1 := by simp
  have hrefslt : ∀ a ∈ s.to_process.map Prod.snd, a < s.store.length := by
    intro a ha
    obtain ⟨p, hp', he⟩ := List.mem_map.mp ha
    exact he ▸ (hp1 p hp').2.1
  have hmap2 : (s.to_process ++ [(0, s.store.length)]).map
      (fun (p : Nat × Nat) => (getN (s.store ++ [mkFlatNode nid row]) p.2).id) =
      s.to_process.map (fun p => (getN s.store p.2).id) ++ [nid] := by
    rw [List.map_append]
    congr 1
    · exact List.map_congr_left (fun (p : Nat × Nat) hp' =>
        by rw [hold p.2 (hp1 p hp').2.1])
    · show [(getN (s.store ++ [mkFlatNode nid row]) s.store.length).id] = [nid]
      rw [hnew]
      rfl
  have hrefs2 : (s.to_process ++ [(0, s.store.length)]).map Prod.snd =
      s.to_process.map Prod.snd ++ [s.store.length] := by
    rw [List.map_append]
    rfl
  refine ⟨⟨hout, hak, ?_, hown, slotInv_append s.store _ s.tree hrange hslot⟩,
    ⟨?_, ?_, ?_, ?_⟩, fun x hx => Or.inl hx, ?_⟩
  · intro tt htt kv hkv
    rw [hlen2]
    exact Nat.lt_succ_of_lt (hrange tt htt kv hkv)
  · intro p hp'
    rcases List.mem_append.mp hp' with h1 | h2
    · obtain ⟨hz, hlt, hpn, hni⟩ := hp1 p h1
      exact ⟨hz, by rw [hlen2]; exact Nat.lt_succ_of_lt hlt,
        by rw [hold p.2 hlt]; exact hpn, by rw [hold p.2 hlt]; exact hni⟩
    · rw [List.mem_singleton] at h2
      have hk1 : p.1 = 0 := by rw [h2]
      have hk2 : p.2 = s.store.length := by rw [h2]
      refine ⟨hk1, by rw [hk2, hlen2]; exact Nat.lt_succ_self _, ?_, ?_⟩
      · rw [hk2, hnew]
        exact hpar
      · rw [hk2, hnew]
        exact hna
  · rw [hmap2, List.nodup_append]
    refine ⟨hp2, List.nodup_singleton _, ?_⟩
    intro a ha hb
    rw [List.mem_singleton] at hb
    exact hnp (hb ▸ ha)
  · rw [hrefs2, List.nodup_append]
    refine ⟨hp3, List.nodup_singleton _, ?_⟩
    intro a ha hb
    rw [List.mem_singleton] at hb
    have := hrefslt a ha
    omega
  · intro p hp' tt htt kv hkv
    rcases List.mem_append.mp hp' with h1 | h2
    · exact hp4 p h1 tt htt kv hkv
    · rw [List.mem_singleton] at h2
      have hk2 : p.2 = s.store.length := by rw [h2]
      rw [hk2]
      intro he
      have := hrange tt htt kv hkv
      omega
  · intro x hx
    rw [hmap2] at hx
    rcases List.mem_append.mp hx with h1 | h2
    · exact Or.inl h1
    · exact Or.inr (List.mem_singleton.mp h2)

theorem parseFold_inv : ∀ (ps : List (FlatRow × String)) (s : FlatState),
    coreInv s.store s.tree → pendInv s.store s.tree s.to_process →
    (ps.map Prod.snd).Nodup →
    (∀ q ∈ ps, q.2 ∉ allKeys s.tree) →
    (∀ q ∈ ps, q.2 ∉ s.to_process.map (fun p => (getN s.store p.2).id)) →
    coreInv (ps.foldl (fun s2 q => parseFlatId s2 q.1 q.2) s).store
        (ps.foldl (fun s2 q => parseFlatId s2 q.1 q.2) s).tree ∧
    pendInv (ps.foldl (fun s2 q => parseFlatId s2 q.1 q.2) s).store
        (ps.foldl (fun s2 q => parseFlatId s2 q.1 q.2) s).tree
        (ps.foldl (fun s2 q => parseFlatId s2 q.1 q.2) s).to_process := by
  intro ps
  induction ps with
  | nil =>
    intro s hc hp _ _ _
    exact ⟨hc, hp⟩
  | cons q qs ih =>
    intro s hc hp hnd hna hnp
    rw [List.foldl_cons]
    have hnaq : q.2 ∉ allKeys s.tree := hna q (List.mem_cons_self _ _)
    have hnpq : q.2 ∉ s.to_process.map (fun p => (getN s.store p.2).id) :=
      hnp q (List.mem_cons_self _ _)
    rw [List.map_cons] at hnd
    have hhead : q.2 ∉ qs.map Prod.snd := (List.nodup_cons.mp hnd).1
    have htail : (qs.map Prod.snd).Nodup := (List.nodup_cons.mp hnd).2
    by_cases hpar : q.1.parent = ""
    · obtain ⟨hc', hp', hchK, hchI⟩ := parseFlatId_root_inv s q.1 q.2 hpar hc hp hnaq hnpq
      have hform : parseFlatId s q.1 q.2 = FlatState.mk
          (s.store ++ [mkFlatNode q.2 q.1])
          (dset s.tree q.2 [(q.2, s.store.length)]) s.to_process := by
        simp [parseFlatId, hpar]
      rw [hform]
      refine ih _ hc' hp' htail ?_ ?_
      · intro q' hq' hcq
        rcases hchK q'.2 hcq with h1 | h2
        · exact hna q' (List.mem_cons_of_mem _ hq') h1
        · exact hhead (h2 ▸ List.mem_map_of_mem Prod.snd hq')
      · intro q' hq' hcq
        rcases hchI q'.2 hcq with h1 | h2
        · exact hnp q' (List.mem_cons_of_mem _ hq') h1
        · exact hhead (h2 ▸ List.mem_map_of_mem Prod.snd hq')
    · obtain ⟨hc', hp', hchK, hchI⟩ := parseFlatId_pend_inv s q.1 q.2 hpar hc hp hnaq hnpq
      have hform : parseFlatId s q.1 q.2 = FlatState.mk
          (s.store ++ [mkFlatNode q.2 q.1]) s.tree
          (s.to_process ++ [(0, s.store.length)]) := by
        simp [parseFlatId, hpar]
      rw [hform]
      refine ih _ hc' hp' htail ?_ ?_
      · intro q' hq' hcq
        rcases hchK q'.2 hcq with h1 | h2
        · exact hna q' (List.mem_cons_of_mem _ hq') h1
        · exact hhead (h2 ▸ List.mem_map_of_mem Prod.snd hq')
      · intro q' hq' hcq
        rcases hchI q'.2 hcq with h1 | h2
        · exact hnp q' (List.mem_cons_of_mem _ hq') h1
        · exact hhead (h2 ▸ List.mem_map_of_mem Prod.snd hq')

theorem parseFlat_flatten : ∀ (rows : List FlatRow) (s : FlatState),
    rows.foldl parseFlatRow s =
      (rows.flatMap (fun row => (splitPipe row.ids).map (fun nid => (row, nid)))).foldl
        (fun s2 q => parseFlatId s2 q.1 q.2) s := by
  intro rows
  induction rows with
  | nil => intro s; rfl
  | cons row rest ih =>
    intro s
    rw [List.foldl_cons, List.flatMap_cons, List.foldl_append, ih]
    congr 1
    rw [parseFlatRow, List.foldl_map]

theorem parseFlat_inv (rows : List FlatRow) (h : (allFlatIds rows).Nodup) :
    coreInv (parseFlat rows).store (parseFlat rows).tree ∧
    pendInv (parseFlat rows).store (parseFlat rows).tree (parseFlat rows).to_process := by
  rw [parseFlat, parseFlat_flatten]
  have hsnd : ((rows.flatMap
      (fun row => (splitPipe row.ids).map (fun nid => (row, nid)))).map Prod.snd) =
      allFlatIds rows := by
    simp [allFlatIds, List.map_flatMap, List.map_map, Function.comp]
  refine parseFold_inv _ { store := [], tree := [], to_process := [] } ?_ ?_ ?_ ?_ ?_
  · exact ⟨List.nodup_nil, List.nodup_nil, fun tt htt => absurd htt (List.not_mem_nil _),
      fun tt htt => absurd htt (List.not_mem_nil _),
      fun tt htt => absurd htt (List.not_mem_nil _)⟩
  · exact ⟨fun p hp => absurd hp (List.not_mem_nil _), List.nodup_nil, List.nodup_nil,
      fun p hp => absurd hp (List.not_mem_nil _)⟩
  · rw [hsnd]
    exact h
  · intro q _ hc
    exact absurd hc (List.not_mem_nil _)
  · intro q _ hc
    exact absurd hc (List.not_mem_nil _)

theorem build_flat_master (rows : List FlatRow) (fuel : Nat) (res : Store × Forest)
    (hnd : (allFlatIds rows).Nodup)
    (hb : build_non_separator_based_tree rows fuel = some res) :
    coreInv res.1 res.2 := by
  obtain ⟨hc, hp⟩ := parseFlat_inv rows hnd
  exact flatLoop_inv fuel (parseFlat rows) res hc hp hb

theorem parseFlatId_store (s : FlatState) (row : FlatRow) (nid : String) :
    (parseFlatId s row nid).store = s.store ++ [mkFlatNode nid row] := by
  by_cases h : row.parent = "" <;> simp [parseFlatId, h]

theorem parseFold_store : ∀ (ps : List (FlatRow × String)) (s : FlatState),
    (ps.foldl (fun s2 q => parseFlatId s2 q.1 q.2) s).store.length =
      s.store.length + ps.length ∧
    ∀ x, (x < s.store.length →
        getN (ps.foldl (fun s2 q => parseFlatId s2 q.1 q.2) s).store x = getN s.store x) ∧
      (s.store.length ≤ x → x < s.store.length + ps.length →
        ∃ q ∈ ps, getN (ps.foldl (fun s2 q2 => parseFlatId s2 q2.1 q2.2) s).store x =
          mkFlatNode q.2 q.1) := by
  intro ps
  induction ps with
  | nil =>
    intro s
    refine ⟨by simp, ?_⟩
    intro x
    refine ⟨fun _ => rfl, fun h1 h2 => ?_⟩
    simp at h2
    omega
  | cons q qs ih =>
    intro s
    rw [List.foldl_cons]
    obtain ⟨ihlen, ihchar⟩ := ih (parseFlatId s q.1 q.2)
    have hst := parseFlatId_store s q.1 q.2
    have hlen1 : (parseFlatId s q.1 q.2).store.length = s.store.length + 1 := by
      rw [hst]
      simp
    refine ⟨by rw [ihlen, hlen1, List.length_cons]; omega, ?_⟩
    intro x
    constructor
    · intro hx
      rw [(ihchar x).1 (by omega), hst, getN_append_lt s.store _ x hx]
    · intro h1 h2
      by_cases hx : x = s.store.length
      · refine ⟨q, List.mem_cons_self _ _, ?_⟩
        rw [(ihchar x).1 (by omega), hst, hx, getN_append_self]
      · obtain ⟨q', hq', he⟩ := (ihchar x).2 (by omega) (by
          rw [hlen1]
          simp only [List.length_cons] at h2
          omega)
        exact ⟨q', List.mem_cons_of_mem _ hq', he⟩

theorem parseFlat_store (rows : List FlatRow) (x : Nat)
    (hx : x < (parseFlat rows).store.length) :
    ∃ row ∈ rows, ∃ nid ∈ splitPipe row.ids,
      getN (parseFlat rows).store x = mkFlatNode nid row := by
  rw [parseFlat, parseFlat_flatten] at hx ⊢
  obtain ⟨hlen, hchar⟩ := parseFold_store
    (rows.flatMap (fun row => (splitPipe row.ids).map (fun nid => (row, nid))))
    { store := [], tree := [], to_process := [] }
  rw [hlen] at hx
  obtain ⟨q, hq, he⟩ := (hchar x).2 (Nat.zero_le x) (by simpa using hx)
  obtain ⟨row, hrow, hq2⟩ := List.mem_flatMap.mp hq
  obtain ⟨nid, hnid, hqe⟩ := List.mem_map.mp hq2
  refine ⟨row, hrow, nid, hnid, ?_⟩
  rw [he, ← hqe]

/-! ## Claim theorems -/

/-- **C1** (code_bug evidence): on the concrete flat input `rowsUnresolvable` —
a root `A` plus a node `D` whose declared parent never appears — the flat-mode
builder diverges for every fuel bound: the `attempts += 1` of the source
rebinds a loop-local name instead of writing back into `to_process`, so the
stored counter never reaches the ceiling of 20 and the pending queue never
empties.  The claimed node-count × attempt-ceiling termination bound therefore
fails for flat mode. -/
theorem C1_flat_mode_diverges :
    ∀ fuel : Nat, build_non_separator_based_tree rowsUnresolvable fuel = none := by
  have hstep : ∀ n, flatLoop (n + 1) (parseFlat rowsUnresolvable) =
      flatLoop n (parseFlat rowsUnresolvable) := fun n => rfl
  intro fuel
  induction fuel with
  | zero => rfl
  | succ n ih =>
    show flatLoop (n + 1) (parseFlat rowsUnresolvable) = none
    rw [hstep]
    exact ih

/-- **C2** (code_bug evidence): on `rowsUnresolvable`, one full pass of the
flat-mode resolution loop returns the store, the forest and an empty
`drop_idxs` list completely unchanged, while the stored attempt counter of the
pending node `D` is still `0` and `D` is in no tree.  Since one pass is a
no-op on this state, `D` is never dropped (and no diagnostic is ever reached):
the code contradicts its own drop-after-20-attempts diagnostic and the claim's
stated behaviour. -/
theorem C2_unresolvable_node_never_dropped :
    flatPass (parseFlat rowsUnresolvable) =
      ((parseFlat rowsUnresolvable).store, (parseFlat rowsUnresolvable).tree, []) ∧
    (parseFlat rowsUnresolvable).to_process.map Prod.fst = [0] ∧
    dmem (parseFlat rowsUnresolvable).tree "D" = false := by
  exact ⟨rfl, rfl, rfl⟩

/-- **C10**: every `ontology_short` outside the recognized set — including
`None` — falls through the whole `if`/`elif` chain of `get_remote_ontology`,
which therefore returns `None` without raising. -/
theorem C10_unrecognized_returns_none (s : Option String)
    (h : s ∉ recognizedOntology) : get_remote_ontology s = none := by
  simp only [recognizedOntology, List.mem_cons, List.not_mem_nil, or_false,
    not_or] at h
  obtain ⟨h1, h2, h3, h4, h5, h6, h7, h8, h9, h10⟩ := h
  simp [get_remote_ontology, h1, h2, h3, h4, h5, h6, h7, h8, h9, h10]

/-- Witness for **C10** at the concrete inputs `some "xyz"` and `none`. -/
theorem C10_witness :
    get_remote_ontology (some "xyz") = none ∧ get_remote_ontology none = none :=
  ⟨C10_unrecognized_returns_none (some "xyz") (by decide),
   C10_unrecognized_returns_none none (by decide)⟩

/-- **C7**: in the forest returned by graph mode, nodes of distinct sub-trees
are never aliased: a term appearing in two different trees is held through two
distinct references, so mutating the `counts` (weight) field of one copy
leaves the other tree's copy unchanged. -/
theorem C7_fanout_independent (fuel : Nat) (store : Store) (raw : Dict Nat)
    (root_id : Option String) (mns : Option Int) (res : Store × Forest)
    (hwf : wfRaw store raw) (hne : keysNonempty raw) (hrr : rawRefsNodup raw)
    (hbuild : build_tree_from_obo_ontology fuel store raw root_id mns = some res) :
    ∀ tt1 ∈ res.2, ∀ tt2 ∈ res.2, tt1.1 ≠ tt2.1 →
    ∀ kv1 ∈ tt1.2, ∀ kv2 ∈ tt2.2, kv1.1 = kv2.1 →
      kv1.2 ≠ kv2.2 ∧
      (∀ q : ℚ, getN (setCounts res.1 kv1.2 q) kv2.2 = getN res.1 kv2.2) ∧
      (∀ q : ℚ, getN (setCounts res.1 kv2.2 q) kv1.2 = getN res.1 kv1.2) := by
  obtain ⟨s2, f3, hres1, hg3, _, hg4, _, _, _⟩ :=
    build_graph_master fuel store raw root_id mns res hwf hne hrr hbuild
  intro tt1 h1 tt2 h2 hne12 kv1 hkv1 kv2 hkv2 _
  have hdist := hg4.2.2.2.2.2.1 tt1 h1 tt2 h2 kv1 hkv1 kv2 hkv2
    (fun hpair => hne12 (congrArg (fun p : String × String => p.1) hpair))
  refine ⟨hdist, ?_, ?_⟩
  · intro q
    exact getN_setN_ne res.1 kv1.2 kv2.2 _ hdist
  · intro q
    exact getN_setN_ne res.1 kv2.2 kv1.2 _ (fun he => hdist he.symm)

/-- Witness for **C7** on the concrete fan-out ontology (roots `R1`, `R2`,
term `X` is_a both). -/
theorem C7_witness :
    ∃ res, build_tree_from_obo_ontology 20 storeFan rawFan none none = some res ∧
      ∀ tt1 ∈ res.2, ∀ tt2 ∈ res.2, tt1.1 ≠ tt2.1 →
      ∀ kv1 ∈ tt1.2, ∀ kv2 ∈ tt2.2, kv1.1 = kv2.1 →
        kv1.2 ≠ kv2.2 ∧
        (∀ q : ℚ, getN (setCounts res.1 kv1.2 q) kv2.2 = getN res.1 kv2.2) ∧
        (∀ q : ℚ, getN (setCounts res.1 kv2.2 q) kv1.2 = getN res.1 kv1.2) := by
  cases hb : build_tree_from_obo_ontology 20 storeFan rawFan none none with
  | none => exact absurd hb (by decide)
  | some res =>
    exact ⟨res, rfl, C7_fanout_independent 20 storeFan rawFan none none res
      (by constructor <;> decide)
      (by show ∀ tv ∈ rawFan, tv.1 ≠ ""; decide)
      (by show (rawFan.map Prod.snd).Nodup; decide) hb⟩

/-- **C9** counterexample: on the concrete ontology with roots `R1` (tree of
size 1, pruned at threshold 2) and `R2` (tree of size 2, kept), the metric
writes run before pruning: the returned forest excludes `R1`, yet the final
store holds `R1`'s record annotated with the sentinel weight and default color
(its original count 7 was overwritten), refuting "annotation touches only
nodes of the final forest, not of pruned trees". -/
theorem C9_counterexample :
    (build_tree_from_obo_ontology 20 storePrune rawPrune none (some 2)).map
        (fun res => (dmem res.2 "R1", (getN res.1 0).id, (getN res.1 0).counts,
          (getN res.1 0).color)) = some (false, "R1", zero, "#FFFFFF") ∧
    (getN storePrune 0).counts = 7 :=
  ⟨by decide, by decide⟩

/-- **C9** (amended): the code annotates every node of every sub-tree and then
prunes, but the returned forest, read as plain values, equals the forest
obtained by first pruning and then annotating only the remaining nodes (the
metric writes commute with tree removal). -/
theorem C9_prune_then_annotate (fuel : Nat) (store : Store) (raw : Dict Nat)
    (root_id : Option String) (mns : Option Int) (res : Store × Forest)
    (hwf : wfRaw store raw) (hne : keysNonempty raw) (hrr : rawRefsNodup raw)
    (hbuild : build_tree_from_obo_ontology fuel store raw root_id mns = some res) :
    ∃ s2 f3, res.1 = annotateAll s2 f3 ∧ pruneForest mns f3 = some res.2 ∧
      materialize res.1 res.2 = materialize (annotateAll s2 res.2) res.2 := by
  obtain ⟨s2, f3, hres1, hg3, _, hg4, _, htrans4, hprune⟩ :=
    build_graph_master fuel store raw root_id mns res hwf hne hrr hbuild
  refine ⟨s2, f3, hres1, hprune, ?_⟩
  rw [materialize, materialize]
  apply List.map_congr_left
  intro tt htt
  congr 1
  apply List.map_congr_left
  intro kv hkv
  congr 1
  have hlt : kv.2 < s2.length := hg4.2.2.2.1 tt htt kv hkv
  obtain ⟨_, htch3, _⟩ := annotateAll_getN f3 s2
  obtain ⟨_, htch4, _⟩ := annotateAll_getN res.2 s2
  rw [hres1, htch3 kv.2 ⟨(tt.1, tt.2), htrans4 tt htt, kv, hkv, rfl⟩ hlt,
    htch4 kv.2 ⟨tt, htt, kv, hkv, rfl⟩ hlt]

/-- Witness for **C9** (amended) on the concrete prune ontology. -/
theorem C9_witness :
    ∃ res, build_tree_from_obo_ontology 20 storePrune rawPrune none (some 2) = some res ∧
      ∃ s2 f3, res.1 = annotateAll s2 f3 ∧ pruneForest (some 2) f3 = some res.2 ∧
        materialize res.1 res.2 = materialize (annotateAll s2 res.2) res.2 := by
  cases hb : build_tree_from_obo_ontology 20 storePrune rawPrune none (some 2) with
  | none => exact absurd hb (by decide)
  | some res =>
    exact ⟨res, rfl, C9_prune_then_annotate 20 storePrune rawPrune none (some 2) res
      (by constructor <;> decide)
      (by show ∀ tv ∈ rawPrune, tv.1 ≠ ""; decide)
      (by show (rawPrune.map Prod.snd).Nodup; decide) hb⟩

/-- **C3** counterexample: on the concrete ontology `R` (no `is_a`), `T`
(is_a `R`), seeding with the explicit root id `R` produces a forest keyed by
the child `T` alone — there is no tree keyed by `R` containing node `R`, the
code seeds one tree per term with an `is_a` edge to the root instead. -/
theorem C3_counterexample :
    (seedTrees (some "R") storeRT rawRT).map (fun res => dkeys res.2) = some ["T"] ∧
    (seedTrees (some "R") storeRT rawRT).map (fun res => dmem res.2 "R") = some false :=
  ⟨by decide, by decide⟩

/-- **C3** (amended): with an explicit non-empty root id `R`, the initial
forest holds one tree per raw term that has an `is_a` edge to `R`, keyed by
that term and containing that single term at level 0 with empty parent; with
no root id, one tree per term whose `is_a` list is empty, containing that root
term at level 0 with empty parent. -/
theorem C3_seeding (store : Store) (raw : Dict Nat) (hwf : wfRaw store raw) :
    (∀ rid : String, rid ≠ "" →
      ∃ res, seedTrees (some rid) store raw = some res ∧
        (∀ k, dmem res.2 k = true ↔
          ∃ r, dget? raw k = some r ∧ rid ∈ (getN store r).is_a) ∧
        (∀ k T, dget? res.2 k = some T →
          ∃ r, dget? raw k = some r ∧ rid ∈ (getN store r).is_a ∧ T = [(k, r)] ∧
            (getN res.1 r).level = 0 ∧ (getN res.1 r).parent = "" ∧
            (getN res.1 r).id = (getN store r).id)) ∧
    (∃ res, seedTrees none store raw = some res ∧
      (∀ k, dmem res.2 k = true ↔
        ∃ r, dget? raw k = some r ∧ (getN store r).is_a = []) ∧
      (∀ k T, dget? res.2 k = some T →
        ∃ r, dget? raw k = some r ∧ (getN store r).is_a = [] ∧ T = [(k, r)] ∧
          (getN res.1 r).level = 0 ∧ (getN res.1 r).parent = "" ∧
          (getN res.1 r).id = (getN store r).id)) := by
  constructor
  · intro rid hrid
    obtain ⟨hpres, hmemc, hchar⟩ := seedExplicit_spec rid store raw hwf
    refine ⟨seedExplicit rid store raw, by simp [seedTrees, hrid], hmemc, ?_⟩
    intro k T hT
    obtain ⟨r, h1, h2, h3, h4⟩ := hchar k T hT
    refine ⟨r, h1, h2, h3, ?_, ?_, ?_⟩
    · rw [h4]
      rfl
    · rw [h4]
      rfl
    · rw [h4]
      rfl
  · obtain ⟨res, hres, hpres, hmemc, hchar⟩ := seedAuto_spec store raw hwf
    refine ⟨res, hres, hmemc, ?_⟩
    intro k T hT
    obtain ⟨r, h1, h2, h3, h4⟩ := hchar k T hT
    refine ⟨r, h1, h2, h3, ?_, ?_, ?_⟩
    · rw [h4]
      rfl
    · rw [h4]
      rfl
    · rw [h4]
      rfl

/-- Witness for **C3** (amended), explicit-root branch, on the concrete
ontology `storeRT`/`rawRT` with root `R`. -/
theorem C3_witness :
    ∃ res, seedTrees (some "R") storeRT rawRT = some res ∧
      (∀ k, dmem res.2 k = true ↔
        ∃ r, dget? rawRT k = some r ∧ "R" ∈ (getN storeRT r).is_a) ∧
      (∀ k T, dget? res.2 k = some T →
        ∃ r, dget? rawRT k = some r ∧ "R" ∈ (getN storeRT r).is_a ∧ T = [(k, r)] ∧
          (getN res.1 r).level = 0 ∧ (getN res.1 r).parent = "" ∧
          (getN res.1 r).id = (getN storeRT r).id) :=
  (C3_seeding storeRT rawRT (by constructor <;> decide)).1 "R" (by decide)

/-- **C8**: the pruning step removes exactly the sub-trees whose node count is
strictly below the threshold; sub-trees with at least the threshold survive
unchanged, and without a threshold nothing is removed. -/
theorem C8_pruning (F : Forest) (hnd : nodupForest F) :
    pruneForest none F = some F ∧
    ∀ n : Int, n ≠ 0 → ∃ F', pruneForest (some n) F = some F' ∧
      (∀ k t, dget? F k = some t →
        dget? F' k = if (t.length : Int) < n then none else some t) ∧
      (∀ k, dget? F k = none → dget? F' k = none) := by
  refine ⟨rfl, ?_⟩
  intro n hn
  have hsub : ((F.filter (fun tt => (tt.2.length : Int) < n)).map Prod.fst).Sublist
      (dkeys F) := List.Sublist.map Prod.fst (List.filter_sublist F)
  have hdnd : ((F.filter (fun tt => (tt.2.length : Int) < n)).map Prod.fst).Nodup :=
    List.Nodup.sublist hsub hnd.1
  have hdmem : ∀ k ∈ (F.filter (fun tt => (tt.2.length : Int) < n)).map Prod.fst,
      dmem F k = true := by
    intro k hk
    obtain ⟨t, hget, _⟩ := (mem_pruneDrops F n k hnd.1).mp hk
    rw [dmem, hget]
    rfl
  obtain ⟨F', hfold, _, hchar⟩ :=
    foldlM_pydel_spec ((F.filter (fun tt => (tt.2.length : Int) < n)).map Prod.fst)
      F hnd.1 hdnd hdmem
  refine ⟨F', ?_, ?_, ?_⟩
  · simp only [pruneForest, if_neg hn]
    exact hfold
  · intro k t hget
    rw [hchar k]
    by_cases hlt : (t.length : Int) < n
    · rw [if_pos ((mem_pruneDrops F n k hnd.1).mpr ⟨t, hget, hlt⟩), if_pos hlt]
    · rw [if_neg hlt, if_neg, hget]
      intro hmem
      obtain ⟨t', hget', hlt'⟩ := (mem_pruneDrops F n k hnd.1).mp hmem
      rw [hget, Option.some.injEq] at hget'
      exact hlt (hget' ▸ hlt')
  · intro k hget
    rw [hchar k]
    by_cases hk : k ∈ (F.filter (fun tt => (tt.2.length : Int) < n)).map Prod.fst
    · rw [if_pos hk]
    · rw [if_neg hk, hget]

/-- Witness for **C8** on the concrete forest `forestWit` (tree `X` of size 1,
tree `Y` of size 2) and threshold 2. -/
theorem C8_witness :
    pruneForest none forestWit = some forestWit ∧
    ∃ F', pruneForest (some 2) forestWit = some F' ∧
      (∀ k t, dget? forestWit k = some t →
        dget? F' k = if (t.length : Int) < 2 then none else some t) ∧
      (∀ k, dget? forestWit k = none → dget? F' k = none) :=
  ⟨(C8_pruning forestWit (by constructor <;> decide)).1,
   (C8_pruning forestWit (by constructor <;> decide)).2 2 (by decide)⟩

/-- **C5**: the graph-mode cleanup loop terminates within total-node-count + 1
passes (every non-final pass deletes at least one node), and on exit every
node whose recorded parent id is non-empty has that parent as a key of the
same sub-tree. -/
theorem C5_cleanup_closure (store : Store) (F : Forest) (hnd : nodupForest F) :
    ∃ F', cleanupLoop (totalSize F + 1) store F = some F' ∧ closureInv store F' := by
  obtain ⟨F', h1, _, h3, _⟩ := cleanupLoop_spec (totalSize F + 1) (totalSize F)
    store F hnd (le_refl _) (by omega)
  exact ⟨F', h1, h3⟩

/-- Witness for **C5** on the concrete forest `forestClean`, where node `B`
records the missing parent `Q`. -/
theorem C5_witness :
    ∃ F', cleanupLoop (totalSize forestClean + 1) storeClean forestClean = some F' ∧
      closureInv storeClean F' :=
  C5_cleanup_closure storeClean forestClean (by constructor <;> decide)

/-- **C4**: Level invariant in every tree of the forest returned by either
builder: every node's `id` equals its key, a node with empty `parent` has
level 0, and every node with a non-empty `parent` has that parent as a key of
the same tree with `level(n) = level(parent(n)) + 1`.  For flat mode this
assumes the input's node ids (after pipe expansion) are distinct, as the
spec's data model requires; for graph mode it assumes the raw-term dict is
well-formed as `parse_obo_file` produces it. -/
theorem C4_level_invariant :
    (∀ (rows : List FlatRow) (fuel : Nat) (res : Store × Forest),
      (allFlatIds rows).Nodup →
      build_non_separator_based_tree rows fuel = some res →
      slotInv res.1 res.2) ∧
    (∀ (fuel : Nat) (store : Store) (raw : Dict Nat) (root_id : Option String)
      (mns : Option Int) (res : Store × Forest),
      wfRaw store raw → keysNonempty raw → rawRefsNodup raw →
      build_tree_from_obo_ontology fuel store raw root_id mns = some res →
      slotInv res.1 res.2) := by
  constructor
  · intro rows fuel res hnd hb
    exact (build_flat_master rows fuel res hnd hb).2.2.2.2
  · intro fuel store raw root_id mns res hwf hne hrr hb
    obtain ⟨s2, f3, hres1, hg3, hclos3, hg4, hclos4, htrans, hprune⟩ :=
      build_graph_master fuel store raw root_id mns res hwf hne hrr hb
    have hslot : slotInv s2 res.2 := hg4.2.2.2.2.1
    have hrange : ∀ tt ∈ res.2, ∀ kv ∈ tt.2, kv.2 < s2.length := hg4.2.2.2.1
    obtain ⟨halen, htouch, hskip⟩ := annotateAll_getN f3 s2
    intro tt htt kv hkv
    have htch : getN res.1 kv.2 = annotateNode (getN s2 kv.2) := by
      rw [hres1]
      exact htouch kv.2 ⟨(tt.1, tt.2), htrans tt htt, kv, hkv, rfl⟩ (hrange tt htt kv hkv)
    obtain ⟨h1, h2, h3⟩ := hslot tt htt kv hkv
    rw [htch]
    refine ⟨h1, h2, ?_⟩
    intro hne2
    obtain ⟨pr, hpr, hlv⟩ := h3 hne2
    have hprmem : ((getN s2 kv.2).parent, pr) ∈ tt.2 := mem_of_dget?_eq_some tt.2 _ pr hpr
    have htchpr : getN res.1 pr = annotateNode (getN s2 pr) := by
      rw [hres1]
      exact htouch pr ⟨(tt.1, tt.2), htrans tt htt, _, hprmem, rfl⟩ (hrange tt htt _ hprmem)
    refine ⟨pr, hpr, ?_⟩
    rw [htchpr]
    exact hlv

/-- Witness for **C4**: the flat chain `A → B → C` (scrambled input order) and
the two-term ontology `R ⊃ T` with explicit root `R` both build successfully,
and the returned forests satisfy the level invariant. -/
theorem C4_witness :
    (∃ res, build_non_separator_based_tree rowsChain 20 = some res ∧
      slotInv res.1 res.2) ∧
    (∃ res, build_tree_from_obo_ontology 20 storeRT rawRT (some "R") none = some res ∧
      slotInv res.1 res.2) := by
  constructor
  · cases hb : build_non_separator_based_tree rowsChain 20 with
    | none => exact absurd hb (by decide)
    | some res =>
      exact ⟨res, rfl, C4_level_invariant.1 rowsChain 20 res (by decide) hb⟩
  · cases hb : build_tree_from_obo_ontology 20 storeRT rawRT (some "R") none with
    | none => exact absurd hb (by decide)
    | some res =>
      exact ⟨res, rfl, C4_level_invariant.2 20 storeRT rawRT (some "R") none res
        (by constructor <;> decide)
        (by show ∀ tv ∈ rawRT, tv.1 ≠ ""; decide)
        (by show (rawRT.map Prod.snd).Nodup; decide) hb⟩

/-- **C6** counterexample: the flat build on a single root row with count `5`
and color `#ABCDEF` returns that node with `counts = 5`, `imported_counts = 5`
and the input color — flat mode performs no sentinel/default overwrite, so a
supplied non-zero count is *not* normalized to the sentinels and the color is
not reset to `#FFFFFF`. -/
theorem C6_counterexample :
    (build_non_separator_based_tree rowsCounted 20).map
        (fun res => ((getN res.1 0).counts, (getN res.1 0).imported_counts,
          (getN res.1 0).color)) = some (5, 5, "#ABCDEF") ∧
    (5 : ℚ) ≠ zero ∧ (5 : ℚ) ≠ fake_one ∧ "#ABCDEF" ≠ "#FFFFFF" :=
  ⟨by decide, by decide, by decide, by decide⟩

/-- **C6** (amended): only graph mode overwrites every node of the returned
forest with the sentinel weights and the default color.  In flat mode every
record of the returned store is exactly the node built from its input row
(`counts`/`imported_counts` are the parsed count when non-zero, the sentinels
only otherwise, and `color` is the input color), with only the `level` field
possibly rewritten by the resolution loop. -/
theorem C6_sentinels :
    (∀ (fuel : Nat) (store : Store) (raw : Dict Nat) (root_id : Option String)
      (mns : Option Int) (res : Store × Forest),
      wfRaw store raw → keysNonempty raw → rawRefsNodup raw →
      build_tree_from_obo_ontology fuel store raw root_id mns = some res →
      ∀ tt ∈ res.2, ∀ kv ∈ tt.2,
        (getN res.1 kv.2).counts = zero ∧
        (getN res.1 kv.2).imported_counts = fake_one ∧
        (getN res.1 kv.2).color = "#FFFFFF") ∧
    (∀ (rows : List FlatRow) (fuel : Nat) (res : Store × Forest),
      build_non_separator_based_tree rows fuel = some res →
      ∀ x, x < res.1.length →
        ∃ row ∈ rows, ∃ nid ∈ splitPipe row.ids,
          getN res.1 x = { mkFlatNode nid row with level := (getN res.1 x).level }) := by
  constructor
  · intro fuel store raw root_id mns res hwf hne hrr hb tt htt kv hkv
    obtain ⟨s2, f3, hres1, hg3, hclos3, hg4, hclos4, htrans, hprune⟩ :=
      build_graph_master fuel store raw root_id mns res hwf hne hrr hb
    obtain ⟨halen, htouch, hskip⟩ := annotateAll_getN f3 s2
    have hrange : ∀ tt ∈ res.2, ∀ kv ∈ tt.2, kv.2 < s2.length := hg4.2.2.2.1
    have htch : getN res.1 kv.2 = annotateNode (getN s2 kv.2) := by
      rw [hres1]
      exact htouch kv.2 ⟨(tt.1, tt.2), htrans tt htt, kv, hkv, rfl⟩ (hrange tt htt kv hkv)
    rw [htch]
    exact ⟨rfl, rfl, rfl⟩
  · intro rows fuel res hb x hx
    have hlo : levelOnly (parseFlat rows).store res.1 :=
      flatLoop_levelOnly fuel (parseFlat rows) res hb
    have hxp : x < (parseFlat rows).store.length := by
      rw [← hlo.1]
      exact hx
    obtain ⟨row, hrow, nid, hnid, he⟩ := parseFlat_store rows x hxp
    refine ⟨row, hrow, nid, hnid, ?_⟩
    conv_lhs => rw [hlo.2 x, he]

/-- Witness for **C6** (amended): the graph build on `R ⊃ T` has every
returned node carrying the sentinels and default color, and the flat build on
the counted row keeps the input-derived record up to its level. -/
theorem C6_witness :
    (∃ res, build_tree_from_obo_ontology 20 storeRT rawRT (some "R") none = some res ∧
      ∀ tt ∈ res.2, ∀ kv ∈ tt.2,
        (getN res.1 kv.2).counts = zero ∧
        (getN res.1 kv.2).imported_counts = fake_one ∧
        (getN res.1 kv.2).color = "#FFFFFF") ∧
    (∃ res, build_non_separator_based_tree rowsCounted 20 = some res ∧
      ∀ x, x < res.1.length →
        ∃ row ∈ rowsCounted, ∃ nid ∈ splitPipe row.ids,
          getN res.1 x = { mkFlatNode nid row with level := (getN res.1 x).level }) := by
  constructor
  · cases hb : build_tree_from_obo_ontology 20 storeRT rawRT (some "R") none with
    | none => exact absurd hb (by decide)
    | some res =>
      exact ⟨res, rfl, C6_sentinels.1 20 storeRT rawRT (some "R") none res
        (by constructor <;> decide)
        (by show ∀ tv ∈ rawRT, tv.1 ≠ ""; decide)
        (by show (rawRT.map Prod.snd).Nodup; decide) hb⟩
  · cases hb : build_non_separator_based_tree rowsCounted 20 with
    | none => exact absurd hb (by decide)
    | some res => exact ⟨res, rfl, C6_sentinels.2 rowsCounted 20 res hb⟩

end OntoViz
